import Mathlib

/-!
# llexporter: dump MySQL rows to JSON files, restore JSON files into PostgreSQL

A shallow embedding of `main.go`.  The program is two sequential pipelines over
three pieces of external state, each of which is made explicit here:

* the staging file system (a tree of directories and files rooted at the
  working directory), with `os.Mkdir`, `os.Create`, `os.Open`, `os.Lstat` and
  `filepath.WalkDir`;
* the source store (the rows the two `SELECT` statements deliver);
* the destination store (two tables and one transaction).

A Go `string` is a sequence of bytes (`GoString`) that need not be valid
UTF-8: the fields of the two records, the file names and the paths are such
strings.  The content of a file is text (`String`): the exporter writes
valid UTF-8 only, and a staged file whose bytes are no valid UTF-8 is outside
the model.  Byte slices are lists of bytes, errors are values of `GoErr`.

Conventions of the model:

* `int` is 64 bits wide; the decoder refuses an integer outside that range;
* a file name is at most `FS.NAME_MAX` (255) bytes long and holds neither
  `/` nor the NUL byte; the working directory is the root of the tree, so
  `..` at the root stays at the root; permissions are one flag per node;
* the encoder writes the escape `\ufffd` for every byte of a string that is
  no valid UTF-8, and the decoder stores the UTF-8 encoding of the characters
  it read;
* a `time.Time` is its civil date, clock reading and zone offset; the text
  form is RFC 3339 as `Time.MarshalJSON` writes it, and the decoder reads the
  strict form only;
* `filepath.WalkDir` is modelled without `SkipDir` and `SkipAll`, which the
  callbacks of `restorePostgreSQL` never return;
* the two tables of the destination have `uid` as primary key, as the
  specification states; the failures of the driver are given by `sql.PgEnv`.
-/

namespace LLExporter

/-! ## Go strings -/

/-- A byte. -/
abbrev Byte := Fin 256

/-- A Go `string`: a sequence of bytes, which need not be valid UTF-8. -/
abbrev GoString := List Byte

/-- The byte with the low eight bits of `n`. -/
def byte (n : Nat) : Byte := ⟨n % 256, Nat.mod_lt _ (by decide)⟩

namespace utf8

/-- The constant `utf8.RuneError`, U+FFFD. -/
def RuneError : Char := Char.ofNat 65533

/-- The width of the encoding that the first byte `s0` announces (the low
bits of the entry of the table `first`), for `s0` from 0xC2 to 0xF4. -/
def width (s0 : Byte) : Nat :=
  if s0.val < 224 then 2 else if s0.val < 240 then 3 else 4

/-- The least second byte accepted after the first byte `s0` (table `acceptRanges`). -/
def acceptLo (s0 : Byte) : Nat :=
  if s0.val = 224 then 160 else if s0.val = 240 then 144 else 128

/-- The greatest second byte accepted after the first byte `s0`. -/
def acceptHi (s0 : Byte) : Nat :=
  if s0.val = 237 then 159 else if s0.val = 244 then 143 else 191

/-- Function `utf8.DecodeRuneInString`: the first rune of the string and its
width in bytes; `(RuneError, 1)` for a byte that starts no valid encoding,
`(RuneError, 0)` for the empty string.  The table `first` is written as
comparisons, masks and shifts as arithmetic. -/
def DecodeRune : GoString → Char × Nat
  | [] => (RuneError, 0)
  | s0 :: rest =>
    if s0.val < 128 then (Char.ofNat s0.val, 1)
    else if s0.val < 194 ∨ 244 < s0.val then (RuneError, 1)
    else if rest.length + 1 < width s0 then (RuneError, 1)
    else
      match rest with
      | [] => (RuneError, 1)
      | s1 :: r1 =>
        if s1.val < acceptLo s0 ∨ acceptHi s0 < s1.val then (RuneError, 1)
        else if width s0 ≤ 2 then (Char.ofNat (s0.val % 32 * 64 + s1.val % 64), 2)
        else
          match r1 with
          | [] => (RuneError, 1)
          | s2 :: r2 =>
            if s2.val < 128 ∨ 191 < s2.val then (RuneError, 1)
            else if width s0 ≤ 3 then
              (Char.ofNat (s0.val % 16 * 4096 + s1.val % 64 * 64 + s2.val % 64), 3)
            else
              match r2 with
              | [] => (RuneError, 1)
              | s3 :: _ =>
                if s3.val < 128 ∨ 191 < s3.val then (RuneError, 1)
                else
                  (Char.ofNat (s0.val % 8 * 262144 + s1.val % 64 * 4096 +
                    s2.val % 64 * 64 + s3.val % 64), 4)

/-- Function `utf8.AppendRune` on a valid rune: its UTF-8 encoding. -/
def AppendRune (c : Char) : GoString :=
  if c.toNat < 128 then [byte c.toNat]
  else if c.toNat < 2048 then [byte (192 + c.toNat / 64), byte (128 + c.toNat % 64)]
  else if c.toNat < 65536 then
    [byte (224 + c.toNat / 4096), byte (128 + c.toNat / 64 % 64), byte (128 + c.toNat % 64)]
  else
    [byte (240 + c.toNat / 262144), byte (128 + c.toNat / 4096 % 64),
      byte (128 + c.toNat / 64 % 64), byte (128 + c.toNat % 64)]

end utf8

/-- The Go string of a string literal: the UTF-8 encoding of its text. -/
def lit (s : String) : GoString := s.data.flatMap utf8.AppendRune

namespace utf8

/-- The runes a `for range` loop over the string sees, each with the width
`DecodeRuneInString` reports; `fuel` bounds the number of steps. -/
def runes : Nat → GoString → List (Char × Nat)
  | 0, _ => []
  | _, [] => []
  | fuel + 1, b :: rest =>
    DecodeRune (b :: rest) :: runes fuel ((b :: rest).drop (DecodeRune (b :: rest)).2)

/-- Function `utf8.ValidString`: no byte of the string decodes to the pair
`(RuneError, 1)`. -/
def ValidString (s : GoString) : Bool :=
  (runes s.length s).all (fun d => !(decide (d.1 = RuneError) && decide (d.2 = 1)))

end utf8

/-! ## Errors -/

/-- Go error values that can flow through the program. -/
inductive GoErr where
  /-- Value of `errors.New(msg)`. -/
  | errorString (msg : String)
  /-- Sentinel `os.ErrExist`. -/
  | ErrExist
  /-- Sentinel `os.ErrNotExist`. -/
  | ErrNotExist
  /-- Sentinel `os.ErrPermission`. -/
  | ErrPermission
  /-- A `syscall.Errno`. -/
  | Errno (code : Nat)
  /-- A `*fs.PathError`. -/
  | PathError (op : String) (path : GoString) (err : GoErr)
  /-- A `*os.LinkError`. -/
  | LinkError (op : String) (old new : GoString) (err : GoErr)
  /-- A `*os.SyscallError`. -/
  | SyscallError (call : String) (err : GoErr)
  /-- Sentinel `io.EOF`. -/
  | EOF
  /-- Errors of `encoding/json` and of the marshalers it calls. -/
  | jsonError (msg : String)
  /-- Errors of `database/sql` and its drivers. -/
  | sqlError (msg : String)
  deriving DecidableEq, Repr

namespace syscall

def EPERM : Nat := 1
def ENOENT : Nat := 2
def EACCES : Nat := 13
def EEXIST : Nat := 17
def ENOTDIR : Nat := 20
def EISDIR : Nat := 21
def EINVAL : Nat := 22
def ENAMETOOLONG : Nat := 36
def ENOTEMPTY : Nat := 39

/-- Method `Errno.Is` of package syscall (the cases for the three os sentinels). -/
def Errno.Is (e : Nat) (target : GoErr) : Bool :=
  match target with
  | .ErrPermission => e == EACCES || e == EPERM
  | .ErrExist => e == EEXIST || e == ENOTEMPTY
  | .ErrNotExist => e == ENOENT
  | _ => false

end syscall

namespace os

/-- Function `underlyingError` of package os: unwraps exactly the three wrapper types. -/
def underlyingError : GoErr → GoErr
  | .PathError _ _ err => err
  | .LinkError _ _ _ err => err
  | .SyscallError _ err => err
  | err => err

/-- Function `underlyingErrorIs` of package os. -/
def underlyingErrorIs (err target : GoErr) : Bool :=
  let err := underlyingError err
  if err = target then true
  else
    match err with
    | .Errno e => syscall.Errno.Is e target
    | _ => false

/-- Function `os.IsExist`. -/
def IsExist (err : GoErr) : Bool :=
  underlyingErrorIs err .ErrExist

end os

instance instDecidableEqExcept {ε α : Type} [DecidableEq ε] [DecidableEq α] :
    DecidableEq (Except ε α) := fun a b =>
  match a, b with
  | .ok x, .ok y => if h : x = y then isTrue (by rw [h]) else isFalse (fun h2 => h (by cases h2; rfl))
  | .error x, .error y =>
    if h : x = y then isTrue (by rw [h]) else isFalse (fun h2 => h (by cases h2; rfl))
  | .ok _, .error _ => isFalse (fun h => by cases h)
  | .error _, .ok _ => isFalse (fun h => by cases h)

/-! ## Decimal numbers -/

namespace strconv

/-- The character of a decimal digit. -/
def digitChar (d : Nat) : Char := Char.ofNat (48 + d)

/-- The decimal digits of `n`, most significant first; `fuel` bounds their number. -/
def decimal : Nat → Nat → List Char
  | 0, _ => []
  | fuel + 1, n =>
    if n < 10 then [digitChar n] else decimal fuel (n / 10) ++ [digitChar (n % 10)]

/-- Function `strconv.FormatUint(n, 10)`. -/
def FormatUint (n : Nat) : List Char := decimal (n + 1) n

/-- Function `strconv.FormatInt(x, 10)`. -/
def FormatInt (x : Int) : List Char :=
  if x < 0 then '-' :: FormatUint x.natAbs else FormatUint x.natAbs

def isDigit (c : Char) : Bool := decide ('0' ≤ c ∧ c ≤ '9')

/-- The number a string of decimal digits stands for. -/
def digitsValue (s : List Char) : Nat :=
  s.foldl (fun acc c => acc * 10 + (c.toNat - 48)) 0

/-- The value of a string of decimal digits, none if a character is no digit
or the string is empty. -/
def parseDigits (s : List Char) : Option Nat :=
  if s = [] ∨ ¬ s.all isDigit then none
  else some (digitsValue s)

/-- Function `strconv.ParseInt(s, 10, 64)`: an optional sign and decimal digits,
within the range of a 64-bit integer. -/
def ParseInt64 (s : List Char) : Option Int :=
  match s with
  | [] => none
  | c :: cs =>
    if c = '-' then
      match parseDigits cs with
      | none => none
      | some n => if n ≤ 2 ^ 63 then some (-(n : Int)) else none
    else
      match parseDigits (if c = '+' then cs else c :: cs) with
      | none => none
      | some n => if n < 2 ^ 63 then some (n : Int) else none

/-- Function `strconv.ParseUint(s, 10, 8)`. -/
def ParseUint8 (s : List Char) : Option (Fin 256) :=
  match parseDigits s with
  | none => none
  | some n => if h : n < 256 then some ⟨n, h⟩ else none

end strconv

/-! ## Package time: the JSON form of a timestamp -/

namespace time

/-- A `time.Time`, kept as the civil date and clock reading in its own zone
together with the offset of that zone in seconds east of UTC. -/
structure Time where
  year : Int
  month : Nat
  day : Nat
  hour : Nat
  minute : Nat
  second : Nat
  nsec : Nat
  offset : Int
  deriving DecidableEq, Repr

/-- The zero `time.Time`: January 1, year 1, 00:00:00 UTC. -/
def zero : Time := ⟨1, 1, 1, 0, 0, 0, 0, 0⟩

/-- Function `isLeap` of package time. -/
def isLeap (year : Int) : Bool :=
  year % 4 == 0 && (year % 100 != 0 || year % 400 == 0)

/-- Function `daysIn` of package time. -/
def daysIn (month : Nat) (year : Int) : Nat :=
  if month = 2 then (if isLeap year then 29 else 28)
  else if month = 4 ∨ month = 6 ∨ month = 9 ∨ month = 11 then 30
  else 31

/-- The invariant of every `time.Time`: the fields are a date of the calendar
and a reading of the clock. -/
def Time.valid (t : Time) : Prop :=
  1 ≤ t.month ∧ t.month ≤ 12 ∧ 1 ≤ t.day ∧ t.day ≤ daysIn t.month t.year ∧
  t.hour ≤ 23 ∧ t.minute ≤ 59 ∧ t.second ≤ 59 ∧ t.nsec < 1000000000

instance (t : Time) : Decidable t.valid := by
  unfold Time.valid; infer_instance

/-- Function `appendInt` of package time: decimal, padded with zeros to `width`. -/
def appendInt (x : Int) (width : Nat) : List Char :=
  let ds := strconv.FormatUint x.natAbs
  (if x < 0 then ['-'] else []) ++ List.replicate (width - ds.length) '0' ++ ds

/-- Drop the zeros at the end. -/
def trimZeros : List Char → List Char
  | [] => []
  | c :: cs =>
    match trimZeros cs with
    | [] => if c = '0' then [] else [c]
    | t => c :: t

/-- Function `appendNano` for the layout `.999999999`: nothing for zero, else
the nine digits without the zeros at the end. -/
def appendNano (nsec : Nat) : List Char :=
  if nsec = 0 then [] else '.' :: trimZeros (appendInt nsec 9)

/-- Method `Time.appendFormatRFC3339(b, true)`. -/
def appendFormatRFC3339 (t : Time) : List Char :=
  appendInt t.year 4 ++ '-' :: appendInt t.month 2 ++ '-' :: appendInt t.day 2 ++
    'T' :: appendInt t.hour 2 ++ ':' :: appendInt t.minute 2 ++ ':' :: appendInt t.second 2 ++
    appendNano t.nsec ++
    (if t.offset = 0 then ['Z']
     else
      let zone := Int.tdiv t.offset 60
      (if zone < 0 then '-' else '+') ::
        appendInt (zone.natAbs / 60 : Nat) 2 ++ ':' :: appendInt (zone.natAbs % 60 : Nat) 2)

/-- Method `Time.appendStrictRFC3339`: the text, refused when the year is not
four digits wide or the zone hour is out of range. -/
def appendStrictRFC3339 (t : Time) : Except GoErr (List Char) :=
  let b := appendFormatRFC3339 t
  if b.getD 4 ' ' ≠ '-' then .error (.errorString "year outside of range [0,9999]")
  else if b.getLast? ≠ some 'Z' ∧
      (strconv.isDigit (b.getD (b.length - 6) ' ') ∨
        10 * ((b.getD (b.length - 5) '0').toNat - 48) + ((b.getD (b.length - 4) '0').toNat - 48)
          ≥ 24) then
    .error (.errorString "timezone hour outside of range [0,23]")
  else .ok b

/-- Method `Time.MarshalJSON`. -/
def MarshalJSON (t : Time) : Except GoErr (List Char) :=
  match appendStrictRFC3339 t with
  | .error _ => .error (.jsonError "Time.MarshalJSON")
  | .ok b => .ok ('"' :: b ++ ['"'])

/-- The closure `parseUint` of `parseRFC3339`: digits only, value within `[min, max]`. -/
def parseUint (s : List Char) (min max : Nat) : Option Nat :=
  if s.all strconv.isDigit then
    let x := strconv.digitsValue s
    if x < min ∨ max < x then none else some x
  else none

/-- Function `parseNanoseconds` on the digits after the period: at most nine
digits count, scaled to nanoseconds. -/
def parseNanoseconds (digits : List Char) : Nat :=
  let ds := digits.take 9
  strconv.digitsValue ds * 10 ^ (9 - ds.length)

/-- The zone of an RFC 3339 text: `Z`, or a sign, two digits, a colon, two digits. -/
def parseZone (s : List Char) : Option Int :=
  match s with
  | [z] => if z = 'Z' then some 0 else none
  | [sg, h1, h2, c, m1, m2] =>
    match parseUint [h1, h2] 0 23, parseUint [m1, m2] 0 59 with
    | some hr, some mm =>
      if (sg = '-' ∨ sg = '+') ∧ c = ':' then
        some (if sg = '-' then -(((hr * 60 + mm) * 60 : Nat) : Int) else (((hr * 60 + mm) * 60 : Nat) : Int))
      else none
    | _, _ => none
  | _ => none

/-- Function `parseRFC3339` of package time: the strict form
`2006-01-02T15:04:05[.fraction](Z|±07:00)`.  The lenient second attempt of
`parseStrictRFC3339` through `Parse` is not modelled: such texts are refused. -/
def parseRFC3339 (s : List Char) : Option Time :=
  match s with
  | y1 :: y2 :: y3 :: y4 :: c1 :: m1 :: m2 :: c2 :: d1 :: d2 :: c3 :: h1 :: h2 :: c4 ::
      n1 :: n2 :: c5 :: s1 :: s2 :: rest =>
    match parseUint [y1, y2, y3, y4] 0 9999, parseUint [m1, m2] 1 12 with
    | some year, some month =>
      match parseUint [d1, d2] 1 (daysIn month (year : Int)), parseUint [h1, h2] 0 23,
        parseUint [n1, n2] 0 59, parseUint [s1, s2] 0 59 with
      | some day, some hour, some min, some sec =>
        if c1 = '-' ∧ c2 = '-' ∧ c3 = 'T' ∧ c4 = ':' ∧ c5 = ':' then
          let frac : List Char × List Char :=
            match rest with
            | p :: f :: rest2 =>
              if p = '.' ∧ strconv.isDigit f then
                ((f :: rest2).takeWhile strconv.isDigit, (f :: rest2).dropWhile strconv.isDigit)
              else ([], rest)
            | _ => ([], rest)
          match parseZone frac.2 with
          | some off =>
            some ⟨(year : Int), month, day, hour, min, sec,
              (if frac.1 = [] then 0 else parseNanoseconds frac.1), off⟩
          | none => none
        else none
      | _, _, _, _ => none
    | _, _ => none
  | _ => none

/-- Method `Time.UnmarshalJSON` on the text between the quotes of a JSON string. -/
def UnmarshalJSON (raw : List Char) : Except GoErr Time :=
  match parseRFC3339 raw with
  | some t => .ok t
  | none => .error (.jsonError "parsing time")

end time

/-! ## Package encoding/base64 -/

namespace base64

/-- The standard alphabet: the character of a six-bit value. -/
def enc (n : Nat) : Char :=
  if n < 26 then Char.ofNat (65 + n)
  else if n < 52 then Char.ofNat (97 + (n - 26))
  else if n < 62 then Char.ofNat (48 + (n - 52))
  else if n = 62 then '+'
  else '/'

/-- The six-bit value of a character of the standard alphabet. -/
def dec (c : Char) : Option Nat :=
  if 'A' ≤ c ∧ c ≤ 'Z' then some (c.toNat - 65)
  else if 'a' ≤ c ∧ c ≤ 'z' then some (c.toNat - 97 + 26)
  else if '0' ≤ c ∧ c ≤ '9' then some (c.toNat - 48 + 52)
  else if c = '+' then some 62
  else if c = '/' then some 63
  else none

/-- Method `StdEncoding.EncodeToString`: three bytes become four characters, the
last group is padded with `=`. -/
def EncodeToString : List Byte → List Char
  | [] => []
  | [a] => [enc (a.val / 4), enc (a.val % 4 * 16), '=', '=']
  | [a, b] => [enc (a.val / 4), enc (a.val % 4 * 16 + b.val / 16), enc (b.val % 16 * 4), '=']
  | a :: b :: c :: rest =>
    enc (a.val / 4) :: enc (a.val % 4 * 16 + b.val / 16) ::
      enc (b.val % 16 * 4 + c.val / 64) :: enc (c.val % 64) :: EncodeToString rest

/-- Decode groups of four characters; only the last group may be padded. -/
def decodeQuanta : List Char → Option (List Byte)
  | [] => some []
  | c1 :: c2 :: c3 :: c4 :: rest =>
    match dec c1, dec c2 with
    | some s1, some s2 =>
      if rest = [] ∧ c3 = '=' ∧ c4 = '=' then some [byte (s1 * 4 + s2 / 16)]
      else
        match dec c3 with
        | none => none
        | some s3 =>
          if rest = [] ∧ c4 = '=' then
            some [byte (s1 * 4 + s2 / 16), byte (s2 % 16 * 16 + s3 / 4)]
          else
            match dec c4, decodeQuanta rest with
            | some s4, some bs =>
              some (byte (s1 * 4 + s2 / 16) :: byte (s2 % 16 * 16 + s3 / 4) ::
                byte (s3 % 4 * 64 + s4) :: bs)
            | _, _ => none
    | _, _ => none
  | _ => none

/-- Method `StdEncoding.DecodeString`: line breaks are skipped, padding is required. -/
def DecodeString (s : List Char) : Option (List Byte) :=
  decodeQuanta (s.filter (fun c => c ≠ '\r' ∧ c ≠ '\n'))

end base64

/-! ## The two records -/

/-- The record `Link` of `main.go`. -/
structure Link where
  UID : GoString
  Path : GoString
  Name : GoString
  Ext : GoString
  MIME : GoString
  Date : time.Time
  deriving DecidableEq, Repr

/-- The record `Thumbnail` of `main.go`; a nil `Data` is `none`. -/
structure Thumbnail where
  UID : GoString
  Data : Option (List Byte)
  MIME : GoString
  Width : Int
  Height : Int
  deriving DecidableEq, Repr

/-! ## Package encoding/json -/

namespace json

/-- The lower-case hexadecimal digit of `n < 16`. -/
def hexChar (n : Nat) : Char :=
  if n < 10 then Char.ofNat (48 + n) else Char.ofNat (87 + n)

/-- The text the encoder writes for one character of a string, with HTML
escaping on (the default of an `Encoder`). -/
def escapeRune (c : Char) : List Char :=
  if c = '"' ∨ c = '\\' then ['\\', c]
  else if c = '\x08' then ['\\', 'b']
  else if c = '\x0c' then ['\\', 'f']
  else if c = '\n' then ['\\', 'n']
  else if c = '\r' then ['\\', 'r']
  else if c = '\t' then ['\\', 't']
  else if c.toNat < 32 ∨ c = '<' ∨ c = '>' ∨ c = '&' then
    ['\\', 'u', '0', '0', hexChar (c.toNat / 16), hexChar (c.toNat % 16)]
  else if c.toNat = 8232 ∨ c.toNat = 8233 then
    ['\\', 'u', '2', '0', '2', hexChar (c.toNat % 16)]
  else [c]

/-- The text the encoder writes for one step of the loop of `appendString`:
a byte that is no valid UTF-8 becomes the escape `\ufffd`. -/
def escapeDecoded (d : Char × Nat) : List Char :=
  if d.1 = utf8.RuneError ∧ d.2 = 1 then ['\\', 'u', 'f', 'f', 'f', 'd'] else escapeRune d.1

/-- The loop of `appendString` over the bytes of the string; `fuel` bounds
the number of steps. -/
def escapeString : Nat → GoString → List Char
  | 0, _ => []
  | _, [] => []
  | fuel + 1, b :: rest =>
    escapeDecoded (utf8.DecodeRune (b :: rest)) ++
      escapeString fuel ((b :: rest).drop (utf8.DecodeRune (b :: rest)).2)

/-- Function `appendString` of the encoder: a quoted JSON string. -/
def quote (s : GoString) : List Char :=
  '"' :: (escapeString s.length s ++ ['"'])

/-- Encoding of a byte slice: `null` for nil, else the base64 text in quotes. -/
def encodeBytes : Option (List Byte) → List Char
  | none => "null".data
  | some bs => '"' :: (base64.EncodeToString bs ++ ['"'])

/-- Function `json.Marshal` on a `*Link`. -/
def MarshalLink (l : Link) : Except GoErr (List Char) :=
  match time.MarshalJSON l.Date with
  | .error e => .error e
  | .ok date =>
    .ok ("\x7b\"uid\":".data ++ quote l.UID ++ ",\"path\":".data ++ quote l.Path ++
      ",\"name\":".data ++ quote l.Name ++ ",\"ext\":".data ++ quote l.Ext ++
      ",\"mime\":".data ++ quote l.MIME ++ ",\"date\":".data ++ date ++ "\x7d".data)

/-- Function `json.Marshal` on a `*Thumbnail`. -/
def MarshalThumbnail (t : Thumbnail) : List Char :=
  "\x7b\"uid\":".data ++ quote t.UID ++ ",\"data\":".data ++ encodeBytes t.Data ++
    ",\"mime\":".data ++ quote t.MIME ++ ",\"width\":".data ++ strconv.FormatInt t.Width ++
    ",\"height\":".data ++ strconv.FormatInt t.Height ++ "\x7d".data

/-- Call `json.NewEncoder(w).Encode(l)` for a link: the text written to `w`
(the JSON value and a newline), or the error with nothing written. -/
def EncodeLink (l : Link) : Except GoErr String :=
  match MarshalLink l with
  | .error e => .error e
  | .ok b => .ok (String.mk (b ++ ['\n']))

/-- Call `json.NewEncoder(w).Encode(t)` for a thumbnail. -/
def EncodeThumbnail (t : Thumbnail) : Except GoErr String :=
  .ok (String.mk (MarshalThumbnail t ++ ['\n']))

/-- A JSON value as the scanner delimits it; a string keeps the text between
its quotes beside the decoded characters. -/
inductive Value where
  | null
  | bool (b : Bool)
  | number (raw : List Char)
  | string (raw : List Char) (val : List Char)
  | array (elems : List Value)
  | object (members : List (List Char × Value))
  deriving Repr

def isSpace (c : Char) : Bool :=
  c = ' ' || c = '\t' || c = '\r' || c = '\n'

def skipSpace : List Char → List Char
  | [] => []
  | c :: cs => if isSpace c then skipSpace cs else c :: cs

/-- The value of a hexadecimal digit. -/
def hexVal (c : Char) : Option Nat :=
  if '0' ≤ c ∧ c ≤ '9' then some (c.toNat - 48)
  else if 'a' ≤ c ∧ c ≤ 'f' then some (c.toNat - 87)
  else if 'A' ≤ c ∧ c ≤ 'F' then some (c.toNat - 55)
  else none

/-- Function `getu4`: the code unit of `\uXXXX` at the head of the text. -/
def getu4 (s : List Char) : Option Nat :=
  match s with
  | b :: u :: h1 :: h2 :: h3 :: h4 :: _ =>
    if b = '\\' ∧ u = 'u' then
      match hexVal h1, hexVal h2, hexVal h3, hexVal h4 with
      | some a, some b, some c, some d => some (((a * 16 + b) * 16 + c) * 16 + d)
      | _, _, _, _ => none
    else none
  | _ => none

/-- Scan a string literal after its opening quote: the text up to the closing
quote and what follows it.  Control characters and unknown escapes are
syntax errors. -/
def scanString : List Char → Option (List Char × List Char)
  | [] => none
  | c :: cs =>
    if c = '"' then some ([], cs)
    else if c = '\\' then
      match cs with
      | [] => none
      | e :: rest =>
        if e = 'u' then
          match rest with
          | h1 :: h2 :: h3 :: h4 :: rest2 =>
            if (hexVal h1).isSome ∧ (hexVal h2).isSome ∧ (hexVal h3).isSome ∧
                (hexVal h4).isSome then
              match scanString rest2 with
              | none => none
              | some (raw, out) => some (c :: e :: h1 :: h2 :: h3 :: h4 :: raw, out)
            else none
          | _ => none
        else if e = 'b' ∨ e = 'f' ∨ e = 'n' ∨ e = 'r' ∨ e = 't' ∨ e = '\\' ∨ e = '/' ∨
            e = '"' then
          match scanString rest with
          | none => none
          | some (raw, out) => some (c :: e :: raw, out)
        else none
    else if c.toNat < 32 then none
    else
      match scanString cs with
      | none => none
      | some (raw, out) => some (c :: raw, out)

/-- The character of a one-letter escape. -/
def unescape (e : Char) : Char :=
  if e = 'b' then '\x08'
  else if e = 'f' then '\x0c'
  else if e = 'n' then '\n'
  else if e = 'r' then '\r'
  else if e = 't' then '\t'
  else e

/-- Function `unquoteBytes` on the text between the quotes: escapes are
replaced, a pair of surrogate escapes is one character, a lone surrogate is
the replacement character.  `fuel` bounds the number of steps. -/
def unquote : Nat → List Char → List Char
  | 0, _ => []
  | _, [] => []
  | fuel + 1, c :: cs =>
    if c = '\\' then
      match cs with
      | [] => []
      | e :: rest =>
        if e = 'u' then
          match getu4 (c :: cs) with
          | none => []
          | some rr =>
            if 55296 ≤ rr ∧ rr < 57344 then
              match getu4 (rest.drop 4) with
              | some rr1 =>
                if rr < 56320 ∧ 56320 ≤ rr1 ∧ rr1 < 57344 then
                  Char.ofNat ((rr - 55296) * 1024 + (rr1 - 56320) + 65536) ::
                    unquote fuel (rest.drop 10)
                else Char.ofNat 65533 :: unquote fuel (rest.drop 4)
              | none => Char.ofNat 65533 :: unquote fuel (rest.drop 4)
            else Char.ofNat rr :: unquote fuel (rest.drop 4)
        else unescape e :: unquote fuel rest
    else c :: unquote fuel cs

/-- The integer part of a number literal: `0`, or a digit from 1 to 9 and more digits. -/
def scanInt (s : List Char) : Option (List Char × List Char) :=
  match s with
  | [] => none
  | c :: cs =>
    if c = '0' then some ([c], cs)
    else if strconv.isDigit c then
      some (c :: cs.takeWhile strconv.isDigit, cs.dropWhile strconv.isDigit)
    else none

/-- The optional fraction of a number literal: a period and at least one digit. -/
def scanFrac (s : List Char) : Option (List Char × List Char) :=
  match s with
  | [] => some ([], s)
  | c :: cs =>
    if c = '.' then
      (if cs.takeWhile strconv.isDigit = [] then none
       else some (c :: cs.takeWhile strconv.isDigit, cs.dropWhile strconv.isDigit))
    else some ([], s)

/-- The optional exponent of a number literal: `e` or `E`, an optional sign, at
least one digit. -/
def scanExp (s : List Char) : Option (List Char × List Char) :=
  match s with
  | [] => some ([], s)
  | c :: cs =>
    if c = 'e' ∨ c = 'E' then
      let sg : List Char × List Char :=
        match cs with
        | d :: ds => if d = '+' ∨ d = '-' then ([d], ds) else ([], cs)
        | [] => ([], cs)
      (if sg.2.takeWhile strconv.isDigit = [] then none
       else some (c :: sg.1 ++ sg.2.takeWhile strconv.isDigit, sg.2.dropWhile strconv.isDigit))
    else some ([], s)

/-- Scan a number literal: `-? (0 | [1-9][0-9]*) (. [0-9]+)? ([eE] [+-]? [0-9]+)?`. -/
def scanNumber (s : List Char) : Option (List Char × List Char) :=
  let sign : List Char × List Char :=
    match s with
    | c :: cs => if c = '-' then ([c], cs) else ([], s)
    | [] => ([], s)
  match scanInt sign.2 with
  | none => none
  | some (ip, r1) =>
    match scanFrac r1 with
    | none => none
    | some (fp, r2) =>
      match scanExp r2 with
      | none => none
      | some (ep, r3) => some (sign.1 ++ ip ++ fp ++ ep, r3)

/-- The rest of the text after the literal `lit`, none if the text does not
start with it. -/
def expect : List Char → List Char → Option (List Char)
  | [], s => some s
  | _ :: _, [] => none
  | l :: ls, c :: cs => if l = c then expect ls cs else none

mutual
/-- Scan one JSON value; `fuel` bounds the nesting and the number of members. -/
def parseValue : Nat → List Char → Option (Value × List Char)
  | 0, _ => none
  | fuel + 1, s =>
    match skipSpace s with
    | [] => none
    | c :: cs =>
      if c = '\x7b' then
        match skipSpace cs with
        | [] => none
        | c2 :: cs2 =>
          if c2 = '\x7d' then some (.object [], cs2)
          else
            match parseMembers fuel (c2 :: cs2) with
            | none => none
            | some (ms, out) => some (.object ms, out)
      else if c = '[' then
        match skipSpace cs with
        | [] => none
        | c2 :: cs2 =>
          if c2 = ']' then some (.array [], cs2)
          else
            match parseElems fuel (c2 :: cs2) with
            | none => none
            | some (vs, out) => some (.array vs, out)
      else if c = '"' then
        match scanString cs with
        | none => none
        | some (raw, out) => some (.string raw (unquote raw.length raw), out)
      else if c = '-' ∨ strconv.isDigit c then
        match scanNumber (c :: cs) with
        | none => none
        | some (raw, out) => some (.number raw, out)
      else if c = 't' then (expect "true".data (c :: cs)).map (fun out => (.bool true, out))
      else if c = 'f' then (expect "false".data (c :: cs)).map (fun out => (.bool false, out))
      else if c = 'n' then (expect "null".data (c :: cs)).map (fun out => (.null, out))
      else none
/-- Scan the members of an object from its first key to the closing brace. -/
def parseMembers : Nat → List Char → Option (List (List Char × Value) × List Char)
  | 0, _ => none
  | fuel + 1, s =>
    match s with
    | [] => none
    | q :: cs =>
      if q = '"' then
        match scanString cs with
        | none => none
        | some (raw, r1) =>
          match skipSpace r1 with
          | [] => none
          | colon :: r2 =>
            if colon = ':' then
              match parseValue fuel r2 with
              | none => none
              | some (v, r3) =>
                match skipSpace r3 with
                | [] => none
                | c3 :: r4 =>
                  if c3 = ',' then
                    match parseMembers fuel (skipSpace r4) with
                    | none => none
                    | some (ms, out) => some ((unquote raw.length raw, v) :: ms, out)
                  else if c3 = '\x7d' then some ([(unquote raw.length raw, v)], r4)
                  else none
            else none
      else none
/-- Scan the elements of an array from its first element to the closing bracket. -/
def parseElems : Nat → List Char → Option (List Value × List Char)
  | 0, _ => none
  | fuel + 1, s =>
    match parseValue fuel s with
    | none => none
    | some (v, r1) =>
      match skipSpace r1 with
      | [] => none
      | c :: r2 =>
        if c = ',' then
          match parseElems fuel r2 with
          | none => none
          | some (vs, out) => some (v :: vs, out)
        else if c = ']' then some ([v], r2)
        else none
end

/-- Method `Decoder.readValue`: the first JSON value of the text.  A string,
number or literal at the top must be followed by white space or the end. -/
def readValue (text : List Char) : Except GoErr Value :=
  match skipSpace text with
  | [] => .error .EOF
  | c :: cs =>
    match parseValue (2 * cs.length + 4) (c :: cs) with
    | none => .error (.jsonError "syntax error")
    | some (v, rest) =>
      match v with
      | .object _ => .ok v
      | .array _ => .ok v
      | _ =>
        match rest with
        | [] => .ok v
        | d :: _ =>
          if isSpace d then .ok v
          else .error (.jsonError "invalid character after top-level value")

def asciiUpper (c : Char) : Char :=
  if 'a' ≤ c ∧ c ≤ 'z' then Char.ofNat (c.toNat - 32) else c

/-- A key of the input names the field `name`: equal up to the case of letters
(no field name of the two records has a letter with a fold outside ASCII). -/
def foldEq (key : List Char) (name : String) : Bool :=
  key.map asciiUpper = name.data.map asciiUpper

/-- Store a JSON value in a field of type `string`: the UTF-8 encoding of the
characters of the string literal. -/
def storeString (v : Value) (old : GoString) : Except GoErr GoString :=
  match v with
  | .null => .ok old
  | .string _ val => .ok (val.flatMap utf8.AppendRune)
  | _ => .error (.jsonError "cannot unmarshal into Go value of type string")

/-- Store a JSON value in a field of type `int`. -/
def storeInt (v : Value) (old : Int) : Except GoErr Int :=
  match v with
  | .null => .ok old
  | .number raw =>
    match strconv.ParseInt64 raw with
    | some n => .ok n
    | none => .error (.jsonError "cannot unmarshal number into Go value of type int")
  | _ => .error (.jsonError "cannot unmarshal into Go value of type int")

/-- Store the elements of a JSON array in a byte slice. -/
def storeByteElems : List Value → Except GoErr (List Byte)
  | [] => .ok []
  | v :: vs =>
    match storeByteElems vs with
    | .error e => .error e
    | .ok bs =>
      match v with
      | .null => .ok (0 :: bs)
      | .number raw =>
        match strconv.ParseUint8 raw with
        | some b => .ok (b :: bs)
        | none => .error (.jsonError "cannot unmarshal number into Go value of type uint8")
      | _ => .error (.jsonError "cannot unmarshal into Go value of type uint8")

/-- Store a JSON value in a field of type `[]byte`. -/
def storeBytes (v : Value) : Except GoErr (Option (List Byte)) :=
  match v with
  | .null => .ok none
  | .string _ val =>
    match base64.DecodeString val with
    | some bs => .ok (some bs)
    | none => .error (.jsonError "illegal base64 data")
  | .array vs =>
    match storeByteElems vs with
    | .error e => .error e
    | .ok bs => .ok (some bs)
  | _ => .error (.jsonError "cannot unmarshal into Go value of type []uint8")

/-- Store a JSON value in a field of type `time.Time` (through `UnmarshalJSON`). -/
def storeTime (v : Value) (old : time.Time) : Except GoErr time.Time :=
  match v with
  | .null => .ok old
  | .string raw _ => time.UnmarshalJSON raw
  | _ => .error (.jsonError "Time.UnmarshalJSON: input is not a JSON string")

/-- Store the member `key: v` of the input object in a `Link`; unknown keys are skipped. -/
def setLinkField (l : Link) (key : List Char) (v : Value) : Except GoErr Link :=
  if foldEq key "uid" then (storeString v l.UID).map (fun x => { l with UID := x })
  else if foldEq key "path" then (storeString v l.Path).map (fun x => { l with Path := x })
  else if foldEq key "name" then (storeString v l.Name).map (fun x => { l with Name := x })
  else if foldEq key "ext" then (storeString v l.Ext).map (fun x => { l with Ext := x })
  else if foldEq key "mime" then (storeString v l.MIME).map (fun x => { l with MIME := x })
  else if foldEq key "date" then (storeTime v l.Date).map (fun x => { l with Date := x })
  else .ok l

/-- Store the member `key: v` of the input object in a `Thumbnail`. -/
def setThumbnailField (t : Thumbnail) (key : List Char) (v : Value) : Except GoErr Thumbnail :=
  if foldEq key "uid" then (storeString v t.UID).map (fun x => { t with UID := x })
  else if foldEq key "data" then (storeBytes v).map (fun x => { t with Data := x })
  else if foldEq key "mime" then (storeString v t.MIME).map (fun x => { t with MIME := x })
  else if foldEq key "width" then (storeInt v t.Width).map (fun x => { t with Width := x })
  else if foldEq key "height" then (storeInt v t.Height).map (fun x => { t with Height := x })
  else .ok t

/-- The members of the input object in order, a later one overwriting. -/
def bindLink (l : Link) : List (List Char × Value) → Except GoErr Link
  | [] => .ok l
  | (k, v) :: ms =>
    match setLinkField l k v with
    | .error e => .error e
    | .ok l1 => bindLink l1 ms

def bindThumbnail (t : Thumbnail) : List (List Char × Value) → Except GoErr Thumbnail
  | [] => .ok t
  | (k, v) :: ms =>
    match setThumbnailField t k v with
    | .error e => .error e
    | .ok t1 => bindThumbnail t1 ms

/-- The value of `new(Link)`. -/
def zeroLink : Link := ⟨[], [], [], [], [], time.zero⟩

/-- The value of `new(Thumbnail)`. -/
def zeroThumbnail : Thumbnail := ⟨[], none, [], 0, 0⟩

/-- Call `json.NewDecoder(f).Decode(l)` with `l := new(Link)` on the text of
the file: `null` leaves the record as it is, an object fills its fields, any
other value is a type error. -/
def DecodeLink (text : String) : Except GoErr Link :=
  match readValue text.data with
  | .error e => .error e
  | .ok .null => .ok zeroLink
  | .ok (.object ms) => bindLink zeroLink ms
  | .ok _ => .error (.jsonError "cannot unmarshal into Go value of type main.Link")

/-- Call `json.NewDecoder(f).Decode(t)` with `t := new(Thumbnail)`. -/
def DecodeThumbnail (text : String) : Except GoErr Thumbnail :=
  match readValue text.data with
  | .error e => .error e
  | .ok .null => .ok zeroThumbnail
  | .ok (.object ms) => bindThumbnail zeroThumbnail ms
  | .ok _ => .error (.jsonError "cannot unmarshal into Go value of type main.Thumbnail")

end json

/-! ## The staging file system -/

/-- A node of the file system.  The flag `access` abstracts the mode bits: a file
without access cannot be opened, a directory without access can be neither
listed, traversed nor written to.  The entries of a directory are kept in the
order `os.ReadDir` returns them (sorted by name). -/
inductive Node where
  | file (access : Bool) (content : String)
  | dir (access : Bool) (entries : List (GoString × Node))
  deriving Repr

namespace Node

def isDir : Node → Bool
  | .dir _ _ => true
  | .file _ _ => false

/-- The entries of a directory (none for a file). -/
def entries : Node → List (GoString × Node)
  | .dir _ es => es
  | .file _ _ => []

/-- The node at an absolute path (a list of names from the root). -/
def lookup : Node → List GoString → Option Node
  | n, [] => some n
  | .file _ _, _ :: _ => none
  | .dir _ es, k :: ks =>
    match es.lookup k with
    | none => none
    | some c => lookup c ks

/-- The order of names in a directory listing: lexical, byte by byte. -/
def nameLt : GoString → GoString → Bool
  | _, [] => false
  | [], _ :: _ => true
  | a :: as, b :: bs => decide (a.val < b.val) || (decide (a = b) && nameLt as bs)

/-- Insert or replace the entry `k`, keeping the entries sorted by name. -/
def setEntry (k : GoString) (v : Node) : List (GoString × Node) → List (GoString × Node)
  | [] => [(k, v)]
  | (k', v') :: es =>
    if nameLt k k' then (k, v) :: (k', v') :: es
    else if k = k' then (k, v) :: es
    else (k', v') :: setEntry k v es

/-- Put node `v` at an absolute path whose parent directory exists. -/
def put : Node → List GoString → Node → Node
  | _, [], v => v
  | .file a c, _ :: _, _ => .file a c
  | .dir a es, [k], v => .dir a (setEntry k v es)
  | .dir a es, k :: k2 :: ks, v =>
    match es.lookup k with
    | none => .dir a es
    | some c => .dir a (setEntry k (put c (k2 :: ks) v) es)

end Node

/-- The file system: the tree rooted at the working directory of the process. -/
abbrev FS := Node

namespace FS

/-- Longest file name the file system accepts, in bytes. -/
def NAME_MAX : Nat := 255

/-- The empty working directory. -/
def empty : FS := .dir true []

/-- The path separator `/`. -/
def slash : Byte := 47

/-- Go's `strings.Split(s, "/")` on the bytes of a path. -/
def splitSlash : GoString → List GoString
  | [] => [[]]
  | c :: cs =>
    if c = slash then [] :: splitSlash cs
    else
      match splitSlash cs with
      | [] => [[c]]
      | h :: t => (c :: h) :: t

/-- The components of a path. -/
def components (path : GoString) : List GoString :=
  splitSlash path

/-- Walk the directory components `comps` from the directory `stack`: the empty
name and `.` stay, `..` goes up (the root is its own parent), a name must be
an accessible directory. -/
def walk (root : FS) : List GoString → List GoString → Except Nat (List GoString)
  | stack, [] => .ok stack
  | stack, c :: cs =>
    if c = [] ∨ c = lit "." then walk root stack cs
    else if c = lit ".." then walk root stack.dropLast cs
    else if NAME_MAX < c.length then .error syscall.ENAMETOOLONG
    else
      match root.lookup (stack ++ [c]) with
      | none => .error syscall.ENOENT
      | some (.file _ _) => .error syscall.ENOTDIR
      | some (.dir acc _) =>
        if acc then walk root (stack ++ [c]) cs else .error syscall.EACCES

/-- Resolve a relative path to the absolute path of its last component, whose
parent directory exists and is accessible.  A path with a NUL byte is
refused before any lookup; a path that ends in the empty name, `.` or `..`
resolves to a directory itself. -/
def resolve (root : FS) (path : GoString) : Except Nat (List GoString) :=
  if (0 : Byte) ∈ path then .error syscall.EINVAL
  else
    let comps := components path
    match walk root [] comps.dropLast with
    | .error e => .error e
    | .ok stack =>
      match comps.getLast? with
      | none => .ok stack
      | some c =>
        if c = [] ∨ c = lit "." then .ok stack
        else if c = lit ".." then .ok stack.dropLast
        else if NAME_MAX < c.length then .error syscall.ENAMETOOLONG
        else
          match root.lookup stack with
          | some (.dir true _) => .ok (stack ++ [c])
          | _ => .error syscall.EACCES

end FS

namespace os

/-- Function `os.Mkdir(name, 0755)`: create one directory; an existing entry of
any kind is `EEXIST`. -/
def Mkdir (fs : FS) (name : GoString) : Option GoErr × FS :=
  match FS.resolve fs name with
  | .error e => (some (.PathError "mkdir" name (.Errno e)), fs)
  | .ok p =>
    match fs.lookup p with
    | some _ => (some (.PathError "mkdir" name (.Errno syscall.EEXIST)), fs)
    | none => (none, fs.put p (.dir true []))

/-- An open file: the absolute path it was opened at and the node found there. -/
structure File where
  name : GoString
  path : List GoString
  node : Node
  deriving Repr

/-- Function `os.Create(name)`: create the file or truncate an existing one. -/
def Create (fs : FS) (name : GoString) : Except GoErr (File × FS) :=
  match FS.resolve fs name with
  | .error e => .error (.PathError "open" name (.Errno e))
  | .ok p =>
    match fs.lookup p with
    | none => .ok (⟨name, p, .file true ""⟩, fs.put p (.file true ""))
    | some (.file acc _) =>
      if acc then .ok (⟨name, p, .file true ""⟩, fs.put p (.file true ""))
      else .error (.PathError "open" name (.Errno syscall.EACCES))
    | some (.dir _ _) => .error (.PathError "open" name (.Errno syscall.EISDIR))

/-- Write `text` to a file opened by `Create` and close it. -/
def File.WriteString (fs : FS) (w : File) (text : String) : FS :=
  fs.put w.path (.file true text)

/-- Function `os.Open(name)`: open for reading. -/
def Open (fs : FS) (name : GoString) : Except GoErr File :=
  match FS.resolve fs name with
  | .error e => .error (.PathError "open" name (.Errno e))
  | .ok p =>
    match fs.lookup p with
    | none => .error (.PathError "open" name (.Errno syscall.ENOENT))
    | some (.file acc c) =>
      if acc then .ok ⟨name, p, .file acc c⟩
      else .error (.PathError "open" name (.Errno syscall.EACCES))
    | some (.dir acc es) =>
      if acc then .ok ⟨name, p, .dir acc es⟩
      else .error (.PathError "open" name (.Errno syscall.EACCES))

/-- Read the whole content of an open file; a directory cannot be read. -/
def File.ReadAll (f : File) : Except GoErr String :=
  match f.node with
  | .file _ c => .ok c
  | .dir _ _ => .error (.PathError "read" f.name (.Errno syscall.EISDIR))

/-- Function `os.Lstat(name)`. -/
def Lstat (fs : FS) (name : GoString) : Except GoErr Node :=
  match FS.resolve fs name with
  | .error e => .error (.PathError "lstat" name (.Errno e))
  | .ok p =>
    match fs.lookup p with
    | none => .error (.PathError "lstat" name (.Errno syscall.ENOENT))
    | some n => .ok n

end os

namespace filepath

/-- The callback type `fs.WalkDirFunc` over an explicit state: the path, whether
the entry is a directory (not inspected when an error is passed), the error
of `Lstat` or `ReadDir`, and the state so far. -/
abbrev WalkDirFunc (σ : Type) := GoString → Bool → Option GoErr → σ → Except GoErr σ

mutual
/-- Function `walkDir` of package filepath, for callbacks that never return
`fs.SkipDir` or `fs.SkipAll` (the callbacks of this program return only
errors of the file system, of the decoder and of the database). -/
def walkDir {σ : Type} (fn : WalkDirFunc σ) (path : GoString) (d : Node) (s : σ) :
    Except GoErr σ :=
  match d with
  | .file _ _ => fn path false none s
  | .dir acc es =>
    match fn path true none s with
    | .error e => .error e
    | .ok s1 =>
      if acc then walkEntries fn path es s1
      else
        -- second call, to report the ReadDir error; no entries were read
        fn path true (some (.PathError "open" path (.Errno syscall.EACCES))) s1
/-- The loop of `walkDir` over the entries `os.ReadDir` returned. -/
def walkEntries {σ : Type} (fn : WalkDirFunc σ) (path : GoString)
    (es : List (GoString × Node))
    (s : σ) : Except GoErr σ :=
  match es with
  | [] => .ok s
  | (name, d1) :: rest =>
    match walkDir fn (path ++ lit "/" ++ name) d1 s with
    | .error e => .error e
    | .ok s1 => walkEntries fn path rest s1
end

/-- Function `filepath.WalkDir(root, fn)`. -/
def WalkDir {σ : Type} (fs : FS) (root : GoString) (fn : WalkDirFunc σ) (s : σ) :
    Except GoErr σ :=
  match os.Lstat fs root with
  | .error e => fn root false (some e) s
  | .ok info => walkDir fn root info s

end filepath

/-! ## The source store -/

namespace sql

/-- What a `*sql.Rows` delivers: the result of `Scan` for each row `Next`
reaches, and the error `Err` reports after the loop. -/
structure Rows (α : Type) where
  scans : List (Except String α)
  err : Option String

/-- The source store as `dumpMySQL` sees it: whether `sql.Open` fails, and the
outcome of each of the two queries. -/
structure MySQL where
  openErr : Option String
  links : Except String (Rows Link)
  thumbnails : Except String (Rows Thumbnail)

/-- A source that answers every call and holds exactly these rows. -/
def MySQL.ofRows (links : List Link) (thumbnails : List Thumbnail) : MySQL :=
  { openErr := none
    links := .ok ⟨links.map .ok, none⟩
    thumbnails := .ok ⟨thumbnails.map .ok, none⟩ }

/-! ## The destination store -/

/-- Modelled from the spec: the destination schema is not part of the
repository.  The spec gives two tables with primary key `uid` per kind. -/
structure DB where
  links : List Link
  thumbnails : List Thumbnail
  deriving DecidableEq, Repr

/-- The empty destination. -/
def DB.empty : DB := ⟨[], []⟩

/-- The primary keys hold: at most one row per uid in each table. -/
def DB.keysUnique (db : DB) : Prop :=
  (db.links.map (·.UID)).Nodup ∧ (db.thumbnails.map (·.UID)).Nodup

/-- Modelled from the spec: the conflict-tolerant insert (`INSERT ... ON
CONFLICT DO NOTHING`) into a table with primary key `key`: a row whose key is
present is skipped, any other row is added. -/
def insertIfAbsent {α : Type} (key : α → GoString) (rows : List α) (r : α) : List α :=
  if rows.any (fun x => key x = key r) then rows else rows ++ [r]

/-- The statement `INSERT INTO links (...) VALUES (...) ON CONFLICT DO NOTHING`. -/
def DB.insertLink (db : DB) (l : Link) : DB :=
  { db with links := insertIfAbsent (·.UID) db.links l }

/-- The statement `INSERT INTO thumbnails (...) VALUES (...) ON CONFLICT DO NOTHING`. -/
def DB.insertThumbnail (db : DB) (t : Thumbnail) : DB :=
  { db with thumbnails := insertIfAbsent (·.UID) db.thumbnails t }

/-- The failures the destination can answer with: on `sql.Open`, on `BeginTx`,
on the insert of a row (for its values: a type or check constraint), and on
`Commit`. -/
structure PgEnv where
  openErr : Option String
  beginErr : Option String
  linkErr : Link → Option String
  thumbnailErr : Thumbnail → Option String
  commitErr : Option String

/-- A destination that answers every call without error. -/
def PgEnv.healthy : PgEnv :=
  { openErr := none, beginErr := none, linkErr := fun _ => none,
    thumbnailErr := fun _ => none, commitErr := none }

/-- The connection: the committed state and the working copy of the open
transaction, if one is open. -/
structure Conn where
  committed : DB
  tx : Option DB
  deriving DecidableEq, Repr

/-- Method `db.BeginTx`: the transaction starts from the committed state. -/
def BeginTx (env : PgEnv) (c : Conn) : Except GoErr Conn :=
  match env.beginErr with
  | some m => .error (.sqlError m)
  | none => .ok { c with tx := some c.committed }

/-- The error `sql.ErrTxDone`. -/
def ErrTxDone : GoErr := .sqlError "sql: transaction has already been committed or rolled back"

/-- Method `tx.ExecContext` with the link insert. -/
def ExecInsertLink (env : PgEnv) (l : Link) (c : Conn) : Except GoErr Conn :=
  match c.tx with
  | none => .error ErrTxDone
  | some d =>
    match env.linkErr l with
    | some m => .error (.sqlError m)
    | none => .ok { c with tx := some (d.insertLink l) }

/-- Method `tx.ExecContext` with the thumbnail insert. -/
def ExecInsertThumbnail (env : PgEnv) (t : Thumbnail) (c : Conn) : Except GoErr Conn :=
  match c.tx with
  | none => .error ErrTxDone
  | some d =>
    match env.thumbnailErr t with
    | some m => .error (.sqlError m)
    | none => .ok { c with tx := some (d.insertThumbnail t) }

/-- Method `tx.Commit`: the working copy becomes the committed state, or the
commit fails and the transaction is gone. -/
def Commit (env : PgEnv) (c : Conn) : Option GoErr × Conn :=
  match c.tx with
  | none => (some ErrTxDone, c)
  | some d =>
    match env.commitErr with
    | some m => (some (.sqlError m), { c with tx := none })
    | none => (none, { committed := d, tx := none })

/-- Method `tx.Rollback`: the working copy is dropped (nothing to do after a commit). -/
def Rollback (c : Conn) : Conn :=
  { c with tx := none }

end sql

/-! ## The program -/

/-- Line 84: `if err := os.Mkdir("links", 0755); err != nil && !os.IsExist(err) { return err }`.
The result is the error returned, none when the function goes on. -/
def mkdirLinksCheck (err : Option GoErr) : Option GoErr :=
  match err with
  | none => none
  | some e => if !os.IsExist e then some e else none

/-- Lines 114 to 118: the same test with a second test `err != os.ErrExist` inside. -/
def mkdirThumbnailsCheck (err : Option GoErr) : Option GoErr :=
  match err with
  | none => none
  | some e =>
    if !os.IsExist e then
      (if e ≠ GoErr.ErrExist then some e else none)
    else none

/-- Lines 93 to 109: the loop over the link rows. -/
def dumpLinkRows : List (Except String Link) → FS → Option GoErr × FS
  | [], fs => (none, fs)
  | .error m :: _, fs => (some (.sqlError m), fs)
  | .ok l :: rest, fs =>
    match os.Create fs (lit "links/" ++ l.UID ++ lit ".json") with
    | .error e => (some e, fs)
    | .ok (w, fs1) =>
      match json.EncodeLink l with
      | .error e => (some e, fs1)
      | .ok text => dumpLinkRows rest (os.File.WriteString fs1 w text)

/-- Lines 125 to 141: the loop over the thumbnail rows. -/
def dumpThumbnailRows : List (Except String Thumbnail) → FS → Option GoErr × FS
  | [], fs => (none, fs)
  | .error m :: _, fs => (some (.sqlError m), fs)
  | .ok t :: rest, fs =>
    match os.Create fs (lit "thumbnails/" ++ t.UID ++ lit ".json") with
    | .error e => (some e, fs)
    | .ok (w, fs1) =>
      match json.EncodeThumbnail t with
      | .error e => (some e, fs1)
      | .ok text => dumpThumbnailRows rest (os.File.WriteString fs1 w text)

/-- Lines 84 to 112 of `dumpMySQL`: the link phase. -/
def dumpLinksPhase (my : sql.MySQL) (fs : FS) : Option GoErr × FS :=
  let (err, fs1) := os.Mkdir fs (lit "links")
  match mkdirLinksCheck err with
  | some e => (some e, fs1)
  | none =>
    match my.links with
    | .error m => (some (.sqlError m), fs1)
    | .ok lr =>
      match dumpLinkRows lr.scans fs1 with
      | (some e, fs2) => (some e, fs2)
      | (none, fs2) =>
        match lr.err with
        | some m => (some (.sqlError m), fs2)
        | none => (none, fs2)

/-- Lines 114 to 144 of `dumpMySQL`: the thumbnail phase. -/
def dumpThumbnailsPhase (my : sql.MySQL) (fs : FS) : Option GoErr × FS :=
  let (err, fs1) := os.Mkdir fs (lit "thumbnails")
  match mkdirThumbnailsCheck err with
  | some e => (some e, fs1)
  | none =>
    match my.thumbnails with
    | .error m => (some (.sqlError m), fs1)
    | .ok tr =>
      match dumpThumbnailRows tr.scans fs1 with
      | (some e, fs2) => (some e, fs2)
      | (none, fs2) =>
        match tr.err with
        | some m => (some (.sqlError m), fs2)
        | none => (none, fs2)

/-- Function `dumpMySQL`: the error returned and the file system left behind. -/
def dumpMySQL (my : sql.MySQL) (fs : FS) : Option GoErr × FS :=
  match my.openErr with
  | some m => (some (.sqlError m), fs)
  | none =>
    match dumpLinksPhase my fs with
    | (some e, fs1) => (some e, fs1)
    | (none, fs1) => dumpThumbnailsPhase my fs1

/-- The callback of the first `WalkDir` of `restorePostgreSQL` (lines 166 to 199). -/
def restoreLinkFn (env : sql.PgEnv) (fs : FS) : filepath.WalkDirFunc sql.Conn :=
  fun path isDir err c =>
    match err with
    | some e => .error e
    | none =>
      if isDir then .ok c
      else
        match os.Open fs path with
        | .error e => .error e
        | .ok f =>
          match f.ReadAll with
          | .error e => .error e
          | .ok text =>
            match json.DecodeLink text with
            | .error e => .error e
            | .ok l => sql.ExecInsertLink env l c

/-- The callback of the second `WalkDir` of `restorePostgreSQL` (lines 206 to 238). -/
def restoreThumbnailFn (env : sql.PgEnv) (fs : FS) : filepath.WalkDirFunc sql.Conn :=
  fun path isDir err c =>
    match err with
    | some e => .error e
    | none =>
      if isDir then .ok c
      else
        match os.Open fs path with
        | .error e => .error e
        | .ok f =>
          match f.ReadAll with
          | .error e => .error e
          | .ok text =>
            match json.DecodeThumbnail text with
            | .error e => .error e
            | .ok t => sql.ExecInsertThumbnail env t c

/-- Function `restorePostgreSQL` on a connection: the error returned and the
connection afterwards.  The deferred `tx.Rollback()` runs on every return
after `BeginTx` succeeded. -/
def restoreConn (env : sql.PgEnv) (fs : FS) (c : sql.Conn) : Option GoErr × sql.Conn :=
  match env.openErr with
  | some m => (some (.sqlError m), c)
  | none =>
    match sql.BeginTx env c with
    | .error e => (some e, c)
    | .ok c0 =>
      match filepath.WalkDir fs (lit "links") (restoreLinkFn env fs) c0 with
      | .error e => (some e, sql.Rollback c0)
      | .ok c1 =>
        match filepath.WalkDir fs (lit "thumbnails") (restoreThumbnailFn env fs) c1 with
        | .error e => (some e, sql.Rollback c1)
        | .ok c2 =>
          let (err, c3) := sql.Commit env c2
          (err, sql.Rollback c3)

/-- Function `restorePostgreSQL` from a destination with no transaction open:
the error returned and the committed destination state afterwards. -/
def restorePostgreSQL (env : sql.PgEnv) (fs : FS) (db : sql.DB) : Option GoErr × sql.DB :=
  let (err, c) := restoreConn env fs ⟨db, none⟩
  (err, c.committed)

/-- The world of one run: both stores, the staging file system, and the
drivers `sql.Open` was called with, in order. -/
structure World where
  mysql : sql.MySQL
  pg : sql.PgEnv
  fs : FS
  db : sql.DB
  opened : List String

/-- The pipeline `dumpMySQL` in the world of a run; its first call is
`sql.Open("mysql", ...)`. -/
def World.dump (w : World) : Option GoErr × World :=
  let (err, fs) := dumpMySQL w.mysql w.fs
  (err, { w with fs := fs, opened := w.opened ++ ["mysql"] })

/-- The pipeline `restorePostgreSQL` in the world of a run; its first call is
`sql.Open("pgx", ...)`. -/
def World.restore (w : World) : Option GoErr × World :=
  let (err, db) := restorePostgreSQL w.pg w.fs w.db
  (err, { w with db := db, opened := w.opened ++ ["pgx"] })

/-- The usage error of `run`. -/
def usageError : GoErr := .errorString "exactly one of [--dump, --restore] required"

/-- Function `run` after the flags are parsed. -/
def run (dump restore : Bool) (w : World) : Option GoErr × World :=
  if (!dump && !restore) || (dump && restore) then (some usageError, w)
  else
    match (if dump then w.dump else (none, w)) with
    | (some err, w1) => (some err, w1)
    | (none, w1) =>
      match (if restore then w1.restore else (none, w1)) with
      | (some err, w2) => (some err, w2)
      | (none, w2) => (none, w2)

/-! ## Definitions used to state and prove the properties -/

/-- One call of the callback of a walk: the path, the directory flag, the error passed. -/
abbrev Visit := GoString × Bool × Option GoErr

namespace filepath

mutual
/-- The calls `walkDir` makes on a node as long as the callback returns no error. -/
def visits (path : GoString) : Node → List Visit
  | .file _ _ => [(path, false, none)]
  | .dir acc es =>
    (path, true, none) ::
      (if acc then visitsEntries path es
       else [(path, true, some (.PathError "open" path (.Errno syscall.EACCES)))])
/-- The calls of the loop over the entries. -/
def visitsEntries (path : GoString) : List (GoString × Node) → List Visit
  | [] => []
  | (name, d1) :: rest => visits (path ++ lit "/" ++ name) d1 ++ visitsEntries path rest
end

/-- The calls `WalkDir` makes as long as the callback returns no error. -/
def rootVisits (fs : FS) (root : GoString) : List Visit :=
  match os.Lstat fs root with
  | .error e => [(root, false, some e)]
  | .ok info => visits root info

/-- Run the callback over a list of calls, stopping at the first error. -/
def runVisits {σ : Type} (fn : WalkDirFunc σ) : List Visit → σ → Except GoErr σ
  | [], s => .ok s
  | v :: vs, s =>
    match fn v.1 v.2.1 v.2.2 s with
    | .error e => .error e
    | .ok s1 => runVisits fn vs s1

end filepath

/-- What the link callback does at one call, whatever the transaction holds:
fail, pass, or insert a row. -/
def linkAction (env : sql.PgEnv) (fs : FS) (v : Visit) : Except GoErr (Option Link) :=
  match v.2.2 with
  | some e => .error e
  | none =>
    if v.2.1 then .ok none
    else
      match os.Open fs v.1 with
      | .error e => .error e
      | .ok f =>
        match f.ReadAll with
        | .error e => .error e
        | .ok text =>
          match json.DecodeLink text with
          | .error e => .error e
          | .ok l =>
            match env.linkErr l with
            | some m => .error (.sqlError m)
            | none => .ok (some l)

/-- What the thumbnail callback does at one call. -/
def thumbnailAction (env : sql.PgEnv) (fs : FS) (v : Visit) : Except GoErr (Option Thumbnail) :=
  match v.2.2 with
  | some e => .error e
  | none =>
    if v.2.1 then .ok none
    else
      match os.Open fs v.1 with
      | .error e => .error e
      | .ok f =>
        match f.ReadAll with
        | .error e => .error e
        | .ok text =>
          match json.DecodeThumbnail text with
          | .error e => .error e
          | .ok t =>
            match env.thumbnailErr t with
            | some m => .error (.sqlError m)
            | none => .ok (some t)

/-- The rows a walk inserts, in order, or its first error. -/
def planVisits {α : Type} (act : Visit → Except GoErr (Option α)) :
    List Visit → Except GoErr (List α)
  | [] => .ok []
  | v :: vs =>
    match act v with
    | .error e => .error e
    | .ok o =>
      match planVisits act vs with
      | .error e => .error e
      | .ok xs => .ok (o.toList ++ xs)

/-- The rows one run of `restorePostgreSQL` inserts and commits, or the error
it returns; the destination state plays no part in it. -/
def restorePlan (env : sql.PgEnv) (fs : FS) : Except GoErr (List Link × List Thumbnail) :=
  match env.openErr with
  | some m => .error (.sqlError m)
  | none =>
    match env.beginErr with
    | some m => .error (.sqlError m)
    | none =>
      match planVisits (linkAction env fs) (filepath.rootVisits fs (lit "links")) with
      | .error e => .error e
      | .ok ls =>
        match planVisits (thumbnailAction env fs)
            (filepath.rootVisits fs (lit "thumbnails")) with
        | .error e => .error e
        | .ok ts =>
          match env.commitErr with
          | some m => .error (.sqlError m)
          | none => .ok (ls, ts)

/-- A name that is a single plain path component: no separator, no NUL byte,
not empty, neither `.` nor `..`, and no longer than a file name may be. -/
structure PlainDir (d : GoString) : Prop where
  noSlash : FS.slash ∉ d
  noNul : (0 : Byte) ∉ d
  notEmpty : (d = [] ∨ d = lit ".") = False
  notUp : (d = lit "..") = False
  short : (FS.NAME_MAX < d.length) = False

/-- The text of one member of a JSON object: the key in quotes, a colon, the value. -/
def json.memberText (k : String) (vt : List Char) : List Char :=
  '"' :: (k.data ++ '"' :: ':' :: vt)

/-- The text of a JSON object after its opening brace: the members separated
by commas and the closing brace. -/
def json.objectTail : List (String × List Char) → List Char
  | [] => ['\x7d']
  | [(k, vt)] => json.memberText k vt ++ ['\x7d']
  | (k, vt) :: m :: ms => json.memberText k vt ++ ',' :: json.objectTail (m :: ms)

/-- The value text `vt` scans as the value `v` in front of a comma or a closing brace. -/
def json.ScansAs (vt : List Char) (v : json.Value) : Prop :=
  ∀ fuel c tail, c = ',' ∨ c = '\x7d' →
    json.parseValue (fuel + 1) (vt ++ c :: tail) = some (v, c :: tail)

/-- The string the decoder stores for what the encoder wrote for `s`: every
byte of `s` that is no valid UTF-8 has become the three bytes of U+FFFD. -/
def json.recode (s : GoString) : GoString :=
  ((utf8.runes s.length s).map (·.1)).flatMap utf8.AppendRune

/-- The last `w` decimal digits of `n`, most significant first. -/
def strconv.fixedDigits : Nat → Nat → List Char
  | 0, _ => []
  | w + 1, n => strconv.fixedDigits w (n / 10) ++ [strconv.digitChar (n % 10)]

/-- The zone at the end of an RFC 3339 text, as `appendFormatRFC3339` writes it. -/
def time.zoneText (offset : Int) : List Char :=
  if offset = 0 then ['Z']
  else
    let zone := Int.tdiv offset 60
    (if zone < 0 then '-' else '+') ::
      time.appendInt (zone.natAbs / 60 : Nat) 2 ++ ':' :: time.appendInt (zone.natAbs % 60 : Nat) 2

/-- A timestamp that RFC 3339 can write: a valid `time.Time` with a year from
0 to 9999 and a zone offset of whole minutes, less than a day. -/
def time.Time.representable (t : time.Time) : Prop :=
  t.valid ∧ 0 ≤ t.year ∧ t.year ≤ 9999 ∧
    t.offset % 60 = 0 ∧ -86400 < t.offset ∧ t.offset < 86400

instance (t : time.Time) : Decidable t.representable := by
  unfold time.Time.representable; infer_instance

/-- The text of a file, none for a directory. -/
def Node.text : Node → Option String
  | .file _ c => some c
  | .dir _ _ => none

/-- The error is a value of `errors.New`. -/
def GoErr.isErrorString : GoErr → Bool
  | .errorString _ => true
  | _ => false

/-- The link row of the concrete scenario of the specification. -/
def exampleLink : Link :=
  ⟨lit "a1", lit "/f/a1.png", lit "a1", lit "png", lit "image/png", ⟨2024, 1, 1, 0, 0, 0, 0, 0⟩⟩

/-- A thumbnail row with a payload of four bytes. -/
def exampleThumbnail : Thumbnail :=
  ⟨lit "a1", some [0, 255, 16, 7], lit "image/png", 640, 0⟩

/-- The staging area after the example link was dumped into an empty working directory. -/
def exampleStaging : FS :=
  (dumpMySQL (sql.MySQL.ofRows [exampleLink] []) FS.empty).2

/-- A staging area with one good link file and one malformed thumbnail file. -/
def malformedStaging : FS :=
  exampleStaging.put [lit "thumbnails", lit "bad.json"] (.file true "not json")

/-- A destination that holds a row with the uid of the example link and another name. -/
def keptDestination : sql.DB :=
  ⟨[{ exampleLink with Name := lit "kept" }], []⟩

/-- A working directory that holds an empty links directory and nothing else:
the state after `os.Mkdir("links")` in an empty working directory, and a
staging area without a thumbnails directory. -/
def linksOnlyStaging : FS :=
  .dir true [(lit "links", .dir true [])]

/-- A link row whose uid walks out of the links directory. -/
def traversalLink : Link :=
  { exampleLink with UID := lit "../thumbnails/x" }

/-- A staging area that already holds the thumbnail file `x.json`. -/
def stagingWithThumbnail : FS :=
  .dir true [(lit "thumbnails", .dir true [(lit "x.json", .file true "old")])]

/-- A link row whose uid holds a path separator. -/
def slashLink : Link :=
  { exampleLink with UID := lit "a/b" }

/-- A link row whose uid holds the NUL byte. -/
def nulLink : Link :=
  { exampleLink with UID := [0] }

/-- A link row whose uid is 251 letters long, so that `<uid>.json` has 256 bytes. -/
def longLink : Link :=
  { exampleLink with UID := List.replicate 251 97 }

/-- A link row whose path ends in the byte 0xff, which is no valid UTF-8. -/
def brokenPathLink : Link :=
  { exampleLink with Path := lit "/f/" ++ [255] }

/-- A link row whose uid ends in the byte 0xff: a legal file name, no valid UTF-8. -/
def brokenUidLink : Link :=
  { exampleLink with UID := lit "a" ++ [255] }

/-- A link row dated in the year 10000. -/
def lateLink : Link :=
  { exampleLink with Date := ⟨10000, 1, 1, 0, 0, 0, 0, 0⟩ }

/-- A link row whose zone is thirty seconds east of UTC. -/
def halfMinuteLink : Link :=
  { exampleLink with Date := ⟨2024, 1, 1, 0, 0, 0, 0, 30⟩ }

/-- A link row whose zone is a whole day east of UTC. -/
def dayZoneLink : Link :=
  { exampleLink with Date := ⟨2024, 1, 1, 0, 0, 0, 0, 86400⟩ }

/-- The round trip of one link row through an empty staging area into an empty
destination that answers every call: the dump succeeds, the restore
succeeds, and the destination holds exactly that row. -/
def linkRoundTrip (l : Link) : Prop :=
  (dumpMySQL (sql.MySQL.ofRows [l] []) FS.empty).1 = none ∧
  restorePostgreSQL sql.PgEnv.healthy (dumpMySQL (sql.MySQL.ofRows [l] []) FS.empty).2
    sql.DB.empty = (none, ⟨[l], []⟩)

instance (l : Link) : Decidable (linkRoundTrip l) := by
  unfold linkRoundTrip; infer_instance

/-! ## Lemmas on the walk -/

namespace filepath

theorem runVisits_append {σ : Type} (fn : WalkDirFunc σ) (a b : List Visit) (s : σ) :
    runVisits fn (a ++ b) s =
      match runVisits fn a s with
      | .error e => .error e
      | .ok s1 => runVisits fn b s1 := by
  induction a generalizing s with
  | nil => simp [runVisits]
  | cons v vs ih =>
    simp only [List.cons_append, runVisits]
    cases fn v.1 v.2.1 v.2.2 s with
    | error e => rfl
    | ok s1 => exact ih s1

mutual
theorem walkDir_eq_runVisits {σ : Type} (fn : WalkDirFunc σ) (path : GoString) :
    (d : Node) → (s : σ) → walkDir fn path d s = runVisits fn (visits path d) s
  | .file _ _, s => by
    simp only [walkDir, visits, runVisits]
    cases fn path false none s <;> rfl
  | .dir acc es, s => by
    simp only [walkDir, visits, runVisits]
    cases h : fn path true none s with
    | error e => rfl
    | ok s1 =>
      cases acc with
      | true => simpa using walkEntries_eq_runVisits fn path es s1
      | false =>
        simp only [Bool.false_eq_true, if_false, runVisits]
        cases fn path true _ s1 <;> rfl
theorem walkEntries_eq_runVisits {σ : Type} (fn : WalkDirFunc σ) (path : GoString) :
    (es : List (GoString × Node)) → (s : σ) →
      walkEntries fn path es s = runVisits fn (visitsEntries path es) s
  | [], s => by simp [walkEntries, visitsEntries, runVisits]
  | (name, d1) :: rest, s => by
    simp only [walkEntries, visitsEntries, runVisits_append]
    rw [walkDir_eq_runVisits fn (path ++ lit "/" ++ name) d1 s]
    cases runVisits fn (visits (path ++ lit "/" ++ name) d1) s with
    | error e => rfl
    | ok s1 => exact walkEntries_eq_runVisits fn path rest s1
end

theorem WalkDir_eq_runVisits {σ : Type} (fs : FS) (root : GoString) (fn : WalkDirFunc σ) (s : σ) :
    WalkDir fs root fn s = runVisits fn (rootVisits fs root) s := by
  unfold WalkDir rootVisits
  cases os.Lstat fs root with
  | error e =>
    simp only [runVisits]
    cases fn root false (some e) s <;> rfl
  | ok info => exact walkDir_eq_runVisits fn root info s

end filepath

/-! ## Lemmas on the conflict-tolerant insert -/

namespace sql

theorem mem_insertIfAbsent {α : Type} (key : α → GoString) (rows : List α) (r x : α)
    (h : x ∈ rows) : x ∈ insertIfAbsent key rows r := by
  unfold insertIfAbsent
  split
  · exact h
  · exact List.mem_append_left _ h

theorem mem_foldl_insertIfAbsent {α : Type} (key : α → GoString) (rs : List α) (rows : List α)
    (x : α) (h : x ∈ rows) : x ∈ rs.foldl (insertIfAbsent key) rows := by
  induction rs generalizing rows with
  | nil => exact h
  | cons r rs ih => exact ih _ (mem_insertIfAbsent key rows r x h)

theorem nodup_insertIfAbsent {α : Type} (key : α → GoString) (rows : List α) (r : α)
    (h : (rows.map key).Nodup) : ((insertIfAbsent key rows r).map key).Nodup := by
  unfold insertIfAbsent
  split
  · exact h
  · rename_i hn
    rw [List.map_append, List.nodup_append]
    refine ⟨h, by simp, ?_⟩
    intro a ha hb
    simp only [List.map_cons, List.map_nil, List.mem_singleton] at hb
    simp only [List.mem_map] at ha
    obtain ⟨y, hy, hya⟩ := ha
    apply hn
    simp only [List.any_eq_true, decide_eq_true_eq]
    exact ⟨y, hy, by rw [hya, hb]⟩

theorem nodup_foldl_insertIfAbsent {α : Type} (key : α → GoString) (rs : List α) (rows : List α)
    (h : (rows.map key).Nodup) : ((rs.foldl (insertIfAbsent key) rows).map key).Nodup := by
  induction rs generalizing rows with
  | nil => exact h
  | cons r rs ih => exact ih _ (nodup_insertIfAbsent key rows r h)

theorem key_mem_insertIfAbsent {α : Type} (key : α → GoString) (rows : List α) (r : α) :
    ∃ x ∈ insertIfAbsent key rows r, key x = key r := by
  unfold insertIfAbsent
  split
  · rename_i h
    simp only [List.any_eq_true, decide_eq_true_eq] at h
    exact h
  · exact ⟨r, by simp, rfl⟩

theorem key_mem_foldl_insertIfAbsent {α : Type} (key : α → GoString) (rs : List α)
    (rows : List α) (r : α) (h : r ∈ rs) :
    ∃ x ∈ rs.foldl (insertIfAbsent key) rows, key x = key r := by
  induction rs generalizing rows with
  | nil => cases h
  | cons a rs ih =>
    simp only [List.foldl_cons]
    rcases List.mem_cons.mp h with h1 | h1
    · subst h1
      obtain ⟨x, hx, hk⟩ := key_mem_insertIfAbsent key rows r
      exact ⟨x, mem_foldl_insertIfAbsent key rs _ x hx, hk⟩
    · exact ih _ h1

theorem foldl_insertIfAbsent_of_present {α : Type} (key : α → GoString) (rs : List α)
    (rows : List α) (h : ∀ r ∈ rs, ∃ x ∈ rows, key x = key r) :
    rs.foldl (insertIfAbsent key) rows = rows := by
  induction rs with
  | nil => rfl
  | cons a rs ih =>
    simp only [List.foldl_cons]
    have ha : insertIfAbsent key rows a = rows := by
      unfold insertIfAbsent
      rw [if_pos]
      simp only [List.any_eq_true, decide_eq_true_eq]
      exact h a (List.mem_cons_self _ _)
    rw [ha]
    exact ih (fun r hr => h r (List.mem_cons_of_mem _ hr))

theorem foldl_insertIfAbsent_idem {α : Type} (key : α → GoString) (rs : List α)
    (rows : List α) :
    rs.foldl (insertIfAbsent key) (rs.foldl (insertIfAbsent key) rows) =
      rs.foldl (insertIfAbsent key) rows :=
  foldl_insertIfAbsent_of_present key rs _
    (fun r hr => key_mem_foldl_insertIfAbsent key rs rows r hr)

theorem foldl_insertLink (ls : List Link) (db : DB) :
    ls.foldl DB.insertLink db =
      ⟨ls.foldl (insertIfAbsent (·.UID)) db.links, db.thumbnails⟩ := by
  induction ls generalizing db with
  | nil => rfl
  | cons l ls ih => simp only [List.foldl_cons, ih]; rfl

theorem foldl_insertThumbnail (ts : List Thumbnail) (db : DB) :
    ts.foldl DB.insertThumbnail db =
      ⟨db.links, ts.foldl (insertIfAbsent (·.UID)) db.thumbnails⟩ := by
  induction ts generalizing db with
  | nil => rfl
  | cons t ts ih => simp only [List.foldl_cons, ih]; rfl

end sql

/-! ## The restore as a plan applied to the destination -/

theorem restoreLinkFn_eq (env : sql.PgEnv) (fs : FS) (v : Visit) (c : sql.Conn) (d : sql.DB)
    (h : c.tx = some d) :
    restoreLinkFn env fs v.1 v.2.1 v.2.2 c =
      match linkAction env fs v with
      | .error e => .error e
      | .ok none => .ok c
      | .ok (some l) => .ok { c with tx := some (d.insertLink l) } := by
  unfold restoreLinkFn linkAction
  cases v.2.2 with
  | some e => rfl
  | none =>
    cases v.2.1 with
    | true => rfl
    | false =>
      simp only [Bool.false_eq_true, if_false]
      cases os.Open fs v.1 with
      | error e => rfl
      | ok f =>
        dsimp only
        cases f.ReadAll with
        | error e => rfl
        | ok text =>
          dsimp only
          cases json.DecodeLink text with
          | error e => rfl
          | ok l =>
            simp only [sql.ExecInsertLink, h]
            cases env.linkErr l <;> rfl

theorem restoreThumbnailFn_eq (env : sql.PgEnv) (fs : FS) (v : Visit) (c : sql.Conn)
    (d : sql.DB) (h : c.tx = some d) :
    restoreThumbnailFn env fs v.1 v.2.1 v.2.2 c =
      match thumbnailAction env fs v with
      | .error e => .error e
      | .ok none => .ok c
      | .ok (some t) => .ok { c with tx := some (d.insertThumbnail t) } := by
  unfold restoreThumbnailFn thumbnailAction
  cases v.2.2 with
  | some e => rfl
  | none =>
    cases v.2.1 with
    | true => rfl
    | false =>
      simp only [Bool.false_eq_true, if_false]
      cases os.Open fs v.1 with
      | error e => rfl
      | ok f =>
        dsimp only
        cases f.ReadAll with
        | error e => rfl
        | ok text =>
          dsimp only
          cases json.DecodeThumbnail text with
          | error e => rfl
          | ok t =>
            simp only [sql.ExecInsertThumbnail, h]
            cases env.thumbnailErr t <;> rfl

theorem runVisits_restoreLinkFn (env : sql.PgEnv) (fs : FS) (vs : List Visit) (c : sql.Conn)
    (d : sql.DB) (h : c.tx = some d) :
    filepath.runVisits (restoreLinkFn env fs) vs c =
      match planVisits (linkAction env fs) vs with
      | .error e => .error e
      | .ok ls => .ok { c with tx := some (ls.foldl sql.DB.insertLink d) } := by
  induction vs generalizing c d with
  | nil => simp [filepath.runVisits, planVisits, ← h]
  | cons v vs ih =>
    simp only [filepath.runVisits, planVisits]
    rw [restoreLinkFn_eq env fs v c d h]
    cases linkAction env fs v with
    | error e => rfl
    | ok o =>
      cases o with
      | none =>
        simp only [ih c d h]
        cases planVisits (linkAction env fs) vs <;> simp
      | some l =>
        dsimp only
        rw [ih ⟨c.committed, some (d.insertLink l)⟩ (d.insertLink l) rfl]
        cases planVisits (linkAction env fs) vs <;> simp

theorem runVisits_restoreThumbnailFn (env : sql.PgEnv) (fs : FS) (vs : List Visit)
    (c : sql.Conn) (d : sql.DB) (h : c.tx = some d) :
    filepath.runVisits (restoreThumbnailFn env fs) vs c =
      match planVisits (thumbnailAction env fs) vs with
      | .error e => .error e
      | .ok ts => .ok { c with tx := some (ts.foldl sql.DB.insertThumbnail d) } := by
  induction vs generalizing c d with
  | nil => simp [filepath.runVisits, planVisits, ← h]
  | cons v vs ih =>
    simp only [filepath.runVisits, planVisits]
    rw [restoreThumbnailFn_eq env fs v c d h]
    cases thumbnailAction env fs v with
    | error e => rfl
    | ok o =>
      cases o with
      | none =>
        simp only [ih c d h]
        cases planVisits (thumbnailAction env fs) vs <;> simp
      | some t =>
        dsimp only
        rw [ih ⟨c.committed, some (d.insertThumbnail t)⟩ (d.insertThumbnail t) rfl]
        cases planVisits (thumbnailAction env fs) vs <;> simp

/-- The restore either returns the error of its plan and leaves the destination
as it was, or commits the rows of its plan, each inserted if absent. -/
theorem restorePostgreSQL_eq_plan (env : sql.PgEnv) (fs : FS) (db : sql.DB) :
    restorePostgreSQL env fs db =
      match restorePlan env fs with
      | .error e => (some e, db)
      | .ok (ls, ts) =>
        (none, ts.foldl sql.DB.insertThumbnail (ls.foldl sql.DB.insertLink db)) := by
  unfold restorePostgreSQL restoreConn restorePlan
  cases env.openErr with
  | some m => rfl
  | none =>
    simp only [sql.BeginTx]
    cases hb : env.beginErr with
    | some m => rfl
    | none =>
      simp only [filepath.WalkDir_eq_runVisits]
      rw [runVisits_restoreLinkFn env fs _ _ db rfl]
      cases planVisits (linkAction env fs) (filepath.rootVisits fs (lit "links")) with
      | error e => rfl
      | ok ls =>
        simp only
        rw [runVisits_restoreThumbnailFn env fs _ _ (ls.foldl sql.DB.insertLink db) rfl]
        cases planVisits (thumbnailAction env fs) (filepath.rootVisits fs (lit "thumbnails")) with
        | error e => rfl
        | ok ts =>
          simp only [sql.Commit]
          cases env.commitErr <;> rfl

/-! ## No pipeline returns a value of `errors.New` -/

theorem Lstat_error (fs : FS) (name : GoString) (e : GoErr) (h : os.Lstat fs name = .error e) :
    e.isErrorString = false := by
  unfold os.Lstat at h
  split at h
  · cases h; rfl
  · split at h
    · cases h; rfl
    · cases h

theorem Open_error (fs : FS) (name : GoString) (e : GoErr) (h : os.Open fs name = .error e) :
    e.isErrorString = false := by
  unfold os.Open at h
  repeat' split at h
  all_goals first | (cases h; rfl) | cases h

theorem Create_error (fs : FS) (name : GoString) (e : GoErr) (h : os.Create fs name = .error e) :
    e.isErrorString = false := by
  unfold os.Create at h
  repeat' split at h
  all_goals first | (cases h; rfl) | cases h

theorem ReadAll_error (f : os.File) (e : GoErr) (h : f.ReadAll = .error e) :
    e.isErrorString = false := by
  unfold os.File.ReadAll at h
  split at h
  · cases h
  · cases h; rfl

theorem Mkdir_error (fs : FS) (name : GoString) (e : GoErr) (h : (os.Mkdir fs name).1 = some e) :
    e.isErrorString = false := by
  unfold os.Mkdir at h
  repeat' split at h
  all_goals first | (cases h; rfl) | cases h

theorem readValue_error (text : List Char) (e : GoErr) (h : json.readValue text = .error e) :
    e.isErrorString = false := by
  unfold json.readValue at h
  repeat' split at h
  all_goals first | (cases h; rfl) | cases h

theorem storeString_error (v : json.Value) (old : GoString) (e : GoErr)
    (h : json.storeString v old = .error e) : e.isErrorString = false := by
  unfold json.storeString at h
  repeat' split at h
  all_goals first | (cases h; rfl) | cases h

theorem storeInt_error (v : json.Value) (old : Int) (e : GoErr)
    (h : json.storeInt v old = .error e) : e.isErrorString = false := by
  unfold json.storeInt at h
  repeat' split at h
  all_goals first | (cases h; rfl) | cases h

theorem storeByteElems_error (vs : List json.Value) (e : GoErr)
    (h : json.storeByteElems vs = .error e) : e.isErrorString = false := by
  induction vs with
  | nil => cases h
  | cons v vs ih =>
    unfold json.storeByteElems at h
    repeat' split at h
    all_goals first | (cases h; rfl) | (cases h; exact ih (by assumption)) | cases h

theorem storeBytes_error (v : json.Value) (e : GoErr)
    (h : json.storeBytes v = .error e) : e.isErrorString = false := by
  unfold json.storeBytes at h
  repeat' split at h
  all_goals first | (cases h; rfl) | (cases h; exact storeByteElems_error _ _ (by assumption)) | cases h

theorem storeTime_error (v : json.Value) (old : time.Time) (e : GoErr)
    (h : json.storeTime v old = .error e) : e.isErrorString = false := by
  unfold json.storeTime time.UnmarshalJSON at h
  repeat' split at h
  all_goals first | (cases h; rfl) | cases h

theorem except_map_error {α β : Type} (f : α → β) (x : Except GoErr α) (e : GoErr)
    (h : x.map f = .error e) : x = .error e := by
  cases x with
  | error e2 => simpa [Except.map] using h
  | ok a => simp [Except.map] at h

theorem setLinkField_error (l : Link) (k : List Char) (v : json.Value) (e : GoErr)
    (h : json.setLinkField l k v = .error e) : e.isErrorString = false := by
  unfold json.setLinkField at h
  repeat' split at h
  all_goals first
    | exact storeString_error _ _ _ (except_map_error _ _ _ h)
    | exact storeTime_error _ _ _ (except_map_error _ _ _ h)
    | cases h

theorem setThumbnailField_error (t : Thumbnail) (k : List Char) (v : json.Value) (e : GoErr)
    (h : json.setThumbnailField t k v = .error e) : e.isErrorString = false := by
  unfold json.setThumbnailField at h
  repeat' split at h
  all_goals first
    | exact storeString_error _ _ _ (except_map_error _ _ _ h)
    | exact storeBytes_error _ _ (except_map_error _ _ _ h)
    | exact storeInt_error _ _ _ (except_map_error _ _ _ h)
    | cases h

theorem bindLink_error (ms : List (List Char × json.Value)) (l : Link) (e : GoErr)
    (h : json.bindLink l ms = .error e) : e.isErrorString = false := by
  induction ms generalizing l with
  | nil => cases h
  | cons m ms ih =>
    obtain ⟨k, v⟩ := m
    unfold json.bindLink at h
    split at h
    · rename_i e2 h2
      cases h
      exact setLinkField_error _ _ _ _ h2
    · exact ih _ h

theorem bindThumbnail_error (ms : List (List Char × json.Value)) (t : Thumbnail) (e : GoErr)
    (h : json.bindThumbnail t ms = .error e) : e.isErrorString = false := by
  induction ms generalizing t with
  | nil => cases h
  | cons m ms ih =>
    obtain ⟨k, v⟩ := m
    unfold json.bindThumbnail at h
    split at h
    · rename_i e2 h2
      cases h
      exact setThumbnailField_error _ _ _ _ h2
    · exact ih _ h

theorem DecodeLink_error (text : String) (e : GoErr) (h : json.DecodeLink text = .error e) :
    e.isErrorString = false := by
  unfold json.DecodeLink at h
  split at h
  · rename_i e2 h2
    cases h
    exact readValue_error _ _ h2
  · cases h
  · exact bindLink_error _ _ _ h
  · cases h; rfl

theorem DecodeThumbnail_error (text : String) (e : GoErr)
    (h : json.DecodeThumbnail text = .error e) : e.isErrorString = false := by
  unfold json.DecodeThumbnail at h
  split at h
  · rename_i e2 h2
    cases h
    exact readValue_error _ _ h2
  · cases h
  · exact bindThumbnail_error _ _ _ h
  · cases h; rfl

theorem MarshalJSON_error (t : time.Time) (e : GoErr) (h : time.MarshalJSON t = .error e) :
    e.isErrorString = false := by
  unfold time.MarshalJSON at h
  split at h
  · simp only [Except.error.injEq] at h
    subst h
    rfl
  · simp at h

theorem EncodeLink_error (l : Link) (e : GoErr) (h : json.EncodeLink l = .error e) :
    e.isErrorString = false := by
  unfold json.EncodeLink at h
  split at h
  · rename_i e2 h2
    simp only [Except.error.injEq] at h
    subst h
    unfold json.MarshalLink at h2
    split at h2
    · rename_i e3 h3
      simp only [Except.error.injEq] at h2
      subst h2
      exact MarshalJSON_error _ _ h3
    · simp at h2
  · simp at h

mutual
theorem visits_error (path : GoString) :
    (d : Node) → ∀ v ∈ filepath.visits path d, ∀ e, v.2.2 = some e → e.isErrorString = false
  | .file _ _, v, hv, e, he => by
    simp only [filepath.visits, List.mem_singleton] at hv
    subst hv
    cases he
  | .dir acc es, v, hv, e, he => by
    simp only [filepath.visits, List.mem_cons] at hv
    rcases hv with hv | hv
    · subst hv
      cases he
    · cases acc with
      | true => exact visitsEntries_error path es v (by simpa using hv) e he
      | false =>
        simp only [Bool.false_eq_true, if_false, List.mem_singleton] at hv
        subst hv
        cases he
        rfl
theorem visitsEntries_error (path : GoString) :
    (es : List (GoString × Node)) → ∀ v ∈ filepath.visitsEntries path es, ∀ e,
      v.2.2 = some e → e.isErrorString = false
  | [], v, hv, e, he => by
    simp [filepath.visitsEntries] at hv
  | (name, d1) :: rest, v, hv, e, he => by
    simp only [filepath.visitsEntries, List.mem_append] at hv
    rcases hv with hv | hv
    · exact visits_error (path ++ lit "/" ++ name) d1 v hv e he
    · exact visitsEntries_error path rest v hv e he
end

theorem rootVisits_error (fs : FS) (root : GoString) (v : Visit)
    (hv : v ∈ filepath.rootVisits fs root) (e : GoErr) (he : v.2.2 = some e) :
    e.isErrorString = false := by
  unfold filepath.rootVisits at hv
  split at hv
  · rename_i e2 h2
    simp only [List.mem_singleton] at hv
    subst hv
    cases he
    exact Lstat_error _ _ _ h2
  · exact visits_error root _ v hv e he

theorem linkAction_error (env : sql.PgEnv) (fs : FS) (v : Visit) (e : GoErr)
    (hv : ∀ e2, v.2.2 = some e2 → e2.isErrorString = false)
    (h : linkAction env fs v = .error e) : e.isErrorString = false := by
  unfold linkAction at h
  split at h
  · rename_i e2 h2
    cases h
    exact hv _ h2
  · split at h
    · cases h
    · split at h
      · rename_i e2 h2
        cases h
        exact Open_error _ _ _ h2
      · split at h
        · rename_i e2 h2
          cases h
          exact ReadAll_error _ _ h2
        · split at h
          · rename_i e2 h2
            cases h
            exact DecodeLink_error _ _ h2
          · split at h
            · cases h; rfl
            · cases h

theorem thumbnailAction_error (env : sql.PgEnv) (fs : FS) (v : Visit) (e : GoErr)
    (hv : ∀ e2, v.2.2 = some e2 → e2.isErrorString = false)
    (h : thumbnailAction env fs v = .error e) : e.isErrorString = false := by
  unfold thumbnailAction at h
  split at h
  · rename_i e2 h2
    cases h
    exact hv _ h2
  · split at h
    · cases h
    · split at h
      · rename_i e2 h2
        cases h
        exact Open_error _ _ _ h2
      · split at h
        · rename_i e2 h2
          cases h
          exact ReadAll_error _ _ h2
        · split at h
          · rename_i e2 h2
            cases h
            exact DecodeThumbnail_error _ _ h2
          · split at h
            · cases h; rfl
            · cases h

theorem planVisits_error {α : Type} (act : Visit → Except GoErr (Option α)) (vs : List Visit)
    (e : GoErr)
    (hact : ∀ v ∈ vs, ∀ e2, act v = .error e2 → e2.isErrorString = false)
    (h : planVisits act vs = .error e) : e.isErrorString = false := by
  induction vs with
  | nil => cases h
  | cons v vs ih =>
    unfold planVisits at h
    split at h
    · rename_i e2 h2
      cases h
      exact hact v (List.mem_cons_self _ _) _ h2
    · split at h
      · rename_i e2 h2
        cases h
        exact ih (fun v hv => hact v (List.mem_cons_of_mem _ hv)) h2
      · cases h

theorem restorePlan_error (env : sql.PgEnv) (fs : FS) (e : GoErr)
    (h : restorePlan env fs = .error e) : e.isErrorString = false := by
  unfold restorePlan at h
  split at h
  · cases h; rfl
  · split at h
    · cases h; rfl
    · split at h
      · rename_i e2 h2
        cases h
        exact planVisits_error _ _ _
          (fun v hv e2 h3 => linkAction_error env fs v e2 (rootVisits_error fs _ v hv) h3) h2
      · split at h
        · rename_i e2 h2
          cases h
          exact planVisits_error _ _ _
            (fun v hv e2 h3 => thumbnailAction_error env fs v e2 (rootVisits_error fs _ v hv) h3)
            h2
        · split at h
          · cases h; rfl
          · cases h

theorem restorePostgreSQL_error (env : sql.PgEnv) (fs : FS) (db : sql.DB) (e : GoErr)
    (h : (restorePostgreSQL env fs db).1 = some e) : e.isErrorString = false := by
  rw [restorePostgreSQL_eq_plan] at h
  split at h
  · rename_i e2 h2
    cases h
    exact restorePlan_error env fs _ h2
  · cases h

theorem mkdirLinksCheck_some (err : Option GoErr) (e : GoErr)
    (h : mkdirLinksCheck err = some e) : err = some e := by
  unfold mkdirLinksCheck at h
  split at h
  · cases h
  · split at h
    · exact h
    · cases h

theorem mkdirThumbnailsCheck_some (err : Option GoErr) (e : GoErr)
    (h : mkdirThumbnailsCheck err = some e) : err = some e := by
  unfold mkdirThumbnailsCheck at h
  split at h
  · cases h
  · split at h
    · split at h
      · exact h
      · cases h
    · cases h

theorem dumpLinkRows_error (rows : List (Except String Link)) (fs : FS) (e : GoErr)
    (h : (dumpLinkRows rows fs).1 = some e) : e.isErrorString = false := by
  induction rows generalizing fs with
  | nil => cases h
  | cons r rows ih =>
    cases r with
    | error m => cases h; rfl
    | ok l =>
      unfold dumpLinkRows at h
      split at h
      · rename_i e2 h2
        cases h
        exact Create_error _ _ _ h2
      · split at h
        · rename_i e2 h2
          cases h
          exact EncodeLink_error _ _ h2
        · exact ih _ h

theorem dumpThumbnailRows_error (rows : List (Except String Thumbnail)) (fs : FS) (e : GoErr)
    (h : (dumpThumbnailRows rows fs).1 = some e) : e.isErrorString = false := by
  induction rows generalizing fs with
  | nil => cases h
  | cons r rows ih =>
    cases r with
    | error m => cases h; rfl
    | ok t =>
      unfold dumpThumbnailRows at h
      split at h
      · rename_i e2 h2
        cases h
        exact Create_error _ _ _ h2
      · split at h
        · rename_i e2 h2
          simp [json.EncodeThumbnail] at h2
        · exact ih _ h

theorem dumpLinksPhase_error (my : sql.MySQL) (fs : FS) (e : GoErr)
    (h : (dumpLinksPhase my fs).1 = some e) : e.isErrorString = false := by
  unfold dumpLinksPhase at h
  simp only at h
  split at h
  · rename_i e2 h2
    cases h
    exact Mkdir_error fs (lit "links") _ (mkdirLinksCheck_some _ _ h2)
  · split at h
    · cases h; rfl
    · split at h
      · rename_i e2 fs2 h2
        cases h
        exact dumpLinkRows_error _ _ _ (by rw [h2])
      · split at h
        · cases h; rfl
        · cases h

theorem dumpThumbnailsPhase_error (my : sql.MySQL) (fs : FS) (e : GoErr)
    (h : (dumpThumbnailsPhase my fs).1 = some e) : e.isErrorString = false := by
  unfold dumpThumbnailsPhase at h
  simp only at h
  split at h
  · rename_i e2 h2
    cases h
    exact Mkdir_error fs (lit "thumbnails") _ (mkdirThumbnailsCheck_some _ _ h2)
  · split at h
    · cases h; rfl
    · split at h
      · rename_i e2 fs2 h2
        cases h
        exact dumpThumbnailRows_error _ _ _ (by rw [h2])
      · split at h
        · cases h; rfl
        · cases h

theorem dumpMySQL_error (my : sql.MySQL) (fs : FS) (e : GoErr)
    (h : (dumpMySQL my fs).1 = some e) : e.isErrorString = false := by
  unfold dumpMySQL at h
  split at h
  · cases h; rfl
  · split at h
    · rename_i e2 fs1 h2
      cases h
      exact dumpLinksPhase_error my fs _ (by rw [h2])
    · exact dumpThumbnailsPhase_error _ _ _ h

/-! ## Lemmas on paths and directories -/

namespace FS

theorem splitSlash_of_no_slash (s : GoString) (h : FS.slash ∉ s) : splitSlash s = [s] := by
  induction s with
  | nil => rfl
  | cons c cs ih =>
    have hc : c ≠ FS.slash := fun hc => h (by simp [hc])
    have hcs : FS.slash ∉ cs := fun hcs => h (List.mem_cons_of_mem _ hcs)
    simp [splitSlash, hc, ih hcs]

theorem splitSlash_append (a b : GoString) (h : FS.slash ∉ a) :
    splitSlash (a ++ FS.slash :: b) = a :: splitSlash b := by
  induction a with
  | nil => simp [splitSlash]
  | cons c cs ih =>
    have hc : c ≠ FS.slash := fun hc => h (by simp [hc])
    have hcs : FS.slash ∉ cs := fun hcs => h (List.mem_cons_of_mem _ hcs)
    simp [splitSlash, hc, ih hcs]

theorem components_in_dir (d path : GoString) (name : GoString) (hd : FS.slash ∉ d)
    (hpath : path = d ++ FS.slash :: name) (hname : FS.slash ∉ name) :
    components path = [d, name] := by
  unfold components
  rw [hpath, splitSlash_append _ _ hd, splitSlash_of_no_slash _ hname]

end FS

namespace Node

theorem nameLt_irrefl (a : GoString) : nameLt a a = false := by
  induction a with
  | nil => rfl
  | cons c cs ih => simp [nameLt, ih]

theorem lookup_setEntry_ne (k k2 : GoString) (v : Node) (es : List (GoString × Node))
    (h : k2 ≠ k) : (setEntry k v es).lookup k2 = es.lookup k2 := by
  have hk : (k2 == k) = false := by simpa using h
  induction es with
  | nil => simp [setEntry, List.lookup, hk]
  | cons e es ih =>
    obtain ⟨k', v'⟩ := e
    unfold setEntry
    split
    · simp [List.lookup, hk]
    · split
      · rename_i h1 h2
        subst h2
        simp [List.lookup, hk]
      · simp only [List.lookup, ih]

theorem lookup_put_ne_head (root : Node) (k k2 : GoString) (ks ks2 : List GoString) (v : Node)
    (h : k2 ≠ k) : (root.put (k :: ks) v).lookup (k2 :: ks2) = root.lookup (k2 :: ks2) := by
  cases root with
  | file a c => cases ks <;> rfl
  | dir a es =>
    cases ks with
    | nil => simp only [put, lookup, lookup_setEntry_ne k k2 _ es h]
    | cons k3 ks =>
      simp only [put]
      cases es.lookup k with
      | none => rfl
      | some c => simp only [lookup, lookup_setEntry_ne k k2 _ es h]

end Node
theorem plainDir_links : PlainDir (lit "links") :=
  ⟨by decide, by decide, by decide, by decide, by decide⟩

theorem plainDir_thumbnails : PlainDir (lit "thumbnails") :=
  ⟨by decide, by decide, by decide, by decide, by decide⟩

/-- The name of a staged file: the uid and the extension `.json`. -/
theorem jsonName_ne (u : GoString) :
    (u ++ lit ".json" = [] ∨ u ++ lit ".json" = lit ".") = False ∧
    (u ++ lit ".json" = lit "..") = False := by
  have h5 : (lit ".json").length = 5 := by decide
  have h1 : (lit ".").length = 1 := by decide
  have h2 : (lit "..").length = 2 := by decide
  refine ⟨?_, ?_⟩
  · apply eq_false
    rintro (h | h)
    · have := congrArg List.length h
      simp only [List.length_append, h5, List.length_nil] at this
      omega
    · have := congrArg List.length h
      simp only [List.length_append, h5, h1] at this
      omega
  · apply eq_false
    intro h
    have := congrArg List.length h
    simp only [List.length_append, h5, h2] at this
    omega

theorem resolve_in_dir (fs : FS) (d path : GoString) (u : GoString) (hd : PlainDir d)
    (hpath : path = d ++ FS.slash :: (u ++ lit ".json")) (hu : FS.slash ∉ u)
    (p : List GoString) (h : FS.resolve fs path = .ok p) :
    p = [d, (u ++ lit ".json")] ∧ ∃ el, fs.lookup [d] = some (.dir true el) := by
  have hname : FS.slash ∉ u ++ lit ".json" := by
    intro hm
    rcases List.mem_append.mp hm with hm | hm
    · exact hu hm
    · revert hm; decide
  have hc := FS.components_in_dir d path _ hd.noSlash hpath hname
  obtain ⟨hn1, hn2⟩ := jsonName_ne u
  unfold FS.resolve at h
  split at h
  · cases h
  · simp only [hc, List.dropLast_cons₂, List.dropLast_single, FS.walk, hd.notEmpty, hd.notUp,
      hd.short, if_false, List.nil_append] at h
    cases hl : fs.lookup [d] with
    | none => simp [hl] at h
    | some n =>
      cases n with
      | file a c => simp [hl] at h
      | dir acc el =>
        cases acc with
        | false => simp [hl] at h
        | true =>
          simp only [hl, if_true, List.getLast?_cons_cons, List.getLast?_singleton, hn1, hn2,
            if_false] at h
          split at h
          · cases h
          · cases h
            exact ⟨rfl, el, rfl⟩

theorem resolve_in_dir_ok (fs : FS) (d path : GoString) (u : GoString) (hd : PlainDir d)
    (hpath : path = d ++ FS.slash :: (u ++ lit ".json")) (hu : FS.slash ∉ u)
    (hnul : (0 : Byte) ∉ u)
    (hshort : ((u ++ lit ".json")).length ≤ FS.NAME_MAX)
    (el : List (GoString × Node)) (hl : fs.lookup [d] = some (.dir true el)) :
    FS.resolve fs path = .ok [d, (u ++ lit ".json")] := by
  have hname : FS.slash ∉ u ++ lit ".json" := by
    intro hm
    rcases List.mem_append.mp hm with hm | hm
    · exact hu hm
    · revert hm; decide
  have hc := FS.components_in_dir d path _ hd.noSlash hpath hname
  obtain ⟨hn1, hn2⟩ := jsonName_ne u
  have h0 : (0 : Byte) ∉ path := by
    rw [hpath]
    intro hm
    rcases List.mem_append.mp hm with hm | hm
    · exact hd.noNul hm
    · rcases List.mem_cons.mp hm with hm | hm
      · revert hm; decide
      · rcases List.mem_append.mp hm with hm | hm
        · exact hnul hm
        · revert hm; decide
  have hs : ¬ FS.NAME_MAX < ((u ++ lit ".json")).length := by omega
  unfold FS.resolve
  simp only [h0, if_false, hc, List.dropLast_cons₂, List.dropLast_single, FS.walk, hd.notEmpty,
    hd.notUp, hd.short, List.nil_append, hl, if_true, List.getLast?_cons_cons,
    List.getLast?_singleton, hn1, hn2, hs]
  rfl

theorem resolve_plainDir (es : List (GoString × Node)) (d : GoString) (hd : PlainDir d) :
    FS.resolve (.dir true es) d = .ok [d] := by
  have hc : FS.components d = [d] := by
    unfold FS.components
    rw [FS.splitSlash_of_no_slash _ hd.noSlash]
  unfold FS.resolve
  simp only [hd.noNul, if_false, hc, List.dropLast_single, FS.walk, List.getLast?_singleton,
    hd.notEmpty, hd.notUp, hd.short, Node.lookup]
  rfl

theorem Create_ok (fs : FS) (name : GoString) (w : os.File) (fs1 : FS)
    (h : os.Create fs name = .ok (w, fs1)) :
    FS.resolve fs name = .ok w.path ∧ fs1 = fs.put w.path (.file true "") := by
  unfold os.Create at h
  split at h
  · cases h
  · split at h
    · cases h
      exact ⟨by assumption, rfl⟩
    · split at h
      · cases h
        exact ⟨by assumption, rfl⟩
      · cases h
    · cases h

theorem resolve_plainDir_inv (fs : FS) (d : GoString) (hd : PlainDir d) (p : List GoString)
    (h : FS.resolve fs d = .ok p) : p = [d] := by
  have hc : FS.components d = [d] := by
    unfold FS.components
    rw [FS.splitSlash_of_no_slash _ hd.noSlash]
  unfold FS.resolve at h
  simp only [hd.noNul, if_false, hc, List.dropLast_single, FS.walk, List.getLast?_singleton,
    hd.notEmpty, hd.notUp, hd.short] at h
  split at h
  · cases h; rfl
  · cases h

theorem linkPath_data (u : GoString) :
    lit "links/" ++ u ++ lit ".json" = lit "links" ++ FS.slash :: (u ++ lit ".json") := by
  have h : lit "links/" = lit "links" ++ [FS.slash] := by decide
  rw [h]
  simp

theorem thumbnailPath_data (u : GoString) :
    lit "thumbnails/" ++ u ++ lit ".json" = lit "thumbnails" ++ FS.slash :: (u ++ lit ".json") := by
  have h : lit "thumbnails/" = lit "thumbnails" ++ [FS.slash] := by decide
  rw [h]
  simp

theorem Mkdir_frame (fs : FS) (d k2 : GoString) (ks : List GoString) (hd : PlainDir d)
    (h : k2 ≠ d) : (os.Mkdir fs d).2.lookup (k2 :: ks) = fs.lookup (k2 :: ks) := by
  unfold os.Mkdir
  cases hr : FS.resolve fs d with
  | error e => rfl
  | ok p =>
    rw [resolve_plainDir_inv fs d hd p hr]
    dsimp only
    cases fs.lookup [d] with
    | some n => rfl
    | none => exact Node.lookup_put_ne_head fs d k2 [] ks _ h

theorem Create_frame (fs : FS) (d path : GoString) (u : GoString) (hd : PlainDir d)
    (hpath : path = d ++ FS.slash :: (u ++ lit ".json")) (hu : FS.slash ∉ u)
    (w : os.File) (fs1 : FS) (h : os.Create fs path = .ok (w, fs1)) (k2 : GoString)
    (ks : List GoString) (hk : k2 ≠ d) :
    w.path = [d, (u ++ lit ".json")] ∧
      fs1.lookup (k2 :: ks) = fs.lookup (k2 :: ks) ∧
      ∀ text, (os.File.WriteString fs1 w text).lookup (k2 :: ks) = fs.lookup (k2 :: ks) := by
  obtain ⟨hr, hfs1⟩ := Create_ok fs path w fs1 h
  obtain ⟨hp, _⟩ := resolve_in_dir fs d path u hd hpath hu _ hr
  have h1 : fs1.lookup (k2 :: ks) = fs.lookup (k2 :: ks) := by
    rw [hfs1, hp]
    exact Node.lookup_put_ne_head fs d k2 _ ks _ hk
  refine ⟨hp, h1, ?_⟩
  intro text
  unfold os.File.WriteString
  rw [hp, Node.lookup_put_ne_head fs1 d k2 _ ks _ hk, h1]

theorem dumpLinkRows_frame (rows : List (Except String Link)) (fs : FS)
    (hu : ∀ l, Except.ok l ∈ rows → FS.slash ∉ l.UID) (k2 : GoString) (ks : List GoString)
    (hk : k2 ≠ lit "links") :
    (dumpLinkRows rows fs).2.lookup (k2 :: ks) = fs.lookup (k2 :: ks) := by
  induction rows generalizing fs with
  | nil => rfl
  | cons r rows ih =>
    cases r with
    | error m => rfl
    | ok l =>
      have hl : FS.slash ∉ l.UID := hu l (List.mem_cons_self _ _)
      have hrest : ∀ l, Except.ok l ∈ rows → FS.slash ∉ l.UID :=
        fun l h => hu l (List.mem_cons_of_mem _ h)
      unfold dumpLinkRows
      cases hc : os.Create fs (lit "links/" ++ l.UID ++ lit ".json") with
      | error e => rfl
      | ok p =>
        obtain ⟨w, fs1⟩ := p
        obtain ⟨_, h1, h2⟩ := Create_frame fs (lit "links") _ l.UID plainDir_links
          (linkPath_data l.UID) hl w fs1 hc k2 ks hk
        dsimp only
        cases json.EncodeLink l with
        | error e => exact h1
        | ok text =>
          dsimp only
          rw [ih _ hrest, h2]

theorem dumpThumbnailRows_frame (rows : List (Except String Thumbnail)) (fs : FS)
    (hu : ∀ t, Except.ok t ∈ rows → FS.slash ∉ t.UID) (k2 : GoString) (ks : List GoString)
    (hk : k2 ≠ lit "thumbnails") :
    (dumpThumbnailRows rows fs).2.lookup (k2 :: ks) = fs.lookup (k2 :: ks) := by
  induction rows generalizing fs with
  | nil => rfl
  | cons r rows ih =>
    cases r with
    | error m => rfl
    | ok t =>
      have hl : FS.slash ∉ t.UID := hu t (List.mem_cons_self _ _)
      have hrest : ∀ t, Except.ok t ∈ rows → FS.slash ∉ t.UID :=
        fun t h => hu t (List.mem_cons_of_mem _ h)
      unfold dumpThumbnailRows
      cases hc : os.Create fs (lit "thumbnails/" ++ t.UID ++ lit ".json") with
      | error e => rfl
      | ok p =>
        obtain ⟨w, fs1⟩ := p
        obtain ⟨_, h1, h2⟩ := Create_frame fs (lit "thumbnails") _ t.UID plainDir_thumbnails
          (thumbnailPath_data t.UID) hl w fs1 hc k2 ks hk
        dsimp only
        cases json.EncodeThumbnail t with
        | error e => exact h1
        | ok text =>
          dsimp only
          rw [ih _ hrest, h2]

theorem dumpLinksPhase_frame (my : sql.MySQL) (fs : FS)
    (hu : ∀ lr, my.links = .ok lr → ∀ l, Except.ok l ∈ lr.scans → FS.slash ∉ l.UID)
    (k2 : GoString) (ks : List GoString) (hk : k2 ≠ lit "links") :
    (dumpLinksPhase my fs).2.lookup (k2 :: ks) = fs.lookup (k2 :: ks) := by
  have hm := Mkdir_frame fs (lit "links") k2 ks plainDir_links hk
  unfold dumpLinksPhase
  dsimp only
  cases mkdirLinksCheck (os.Mkdir fs (lit "links")).1 with
  | some e => exact hm
  | none =>
    dsimp only
    cases hq : my.links with
    | error m => exact hm
    | ok lr =>
      dsimp only
      have hr := dumpLinkRows_frame lr.scans (os.Mkdir fs (lit "links")).2 (hu lr hq) k2 ks hk
      rcases hd : dumpLinkRows lr.scans (os.Mkdir fs (lit "links")).2 with ⟨_ | e, fs2⟩
      · rw [hd] at hr
        dsimp only
        cases lr.err <;> exact hr.trans hm
      · rw [hd] at hr
        exact hr.trans hm

theorem dumpThumbnailsPhase_frame (my : sql.MySQL) (fs : FS)
    (hu : ∀ tr, my.thumbnails = .ok tr → ∀ t, Except.ok t ∈ tr.scans → FS.slash ∉ t.UID)
    (k2 : GoString) (ks : List GoString) (hk : k2 ≠ lit "thumbnails") :
    (dumpThumbnailsPhase my fs).2.lookup (k2 :: ks) = fs.lookup (k2 :: ks) := by
  have hm := Mkdir_frame fs (lit "thumbnails") k2 ks plainDir_thumbnails hk
  unfold dumpThumbnailsPhase
  dsimp only
  cases mkdirThumbnailsCheck (os.Mkdir fs (lit "thumbnails")).1 with
  | some e => exact hm
  | none =>
    dsimp only
    cases hq : my.thumbnails with
    | error m => exact hm
    | ok tr =>
      dsimp only
      have hr := dumpThumbnailRows_frame tr.scans (os.Mkdir fs (lit "thumbnails")).2 (hu tr hq) k2 ks hk
      rcases hd : dumpThumbnailRows tr.scans (os.Mkdir fs (lit "thumbnails")).2 with ⟨_ | e, fs2⟩
      · rw [hd] at hr
        dsimp only
        cases tr.err <;> exact hr.trans hm
      · rw [hd] at hr
        exact hr.trans hm

theorem lookup_dir_single (a : Bool) (es : List (GoString × Node)) (k : GoString) :
    Node.lookup (.dir a es) [k] = es.lookup k := by
  simp only [Node.lookup]
  cases es.lookup k <;> rfl

theorem Mkdir_fresh (es : List (GoString × Node)) (d : GoString) (hd : PlainDir d)
    (h : es.lookup d = none) :
    os.Mkdir (.dir true es) d = (none, .dir true (Node.setEntry d (.dir true []) es)) := by
  unfold os.Mkdir
  rw [resolve_plainDir es d hd]
  simp only [lookup_dir_single, h, Node.put]

namespace utf8

theorem toNat_ofNat (n : Nat) (h : n.isValidChar) : (Char.ofNat n).toNat = n := by
  unfold Char.ofNat
  simp only [h, dite_true]
  rfl

theorem byte_val (b : Byte) (n : Nat) (h : n = b.val) : byte n = b := by
  apply Fin.ext
  simp only [byte, h]
  exact Nat.mod_eq_of_lt b.isLt

theorem AppendRune_one (a : Byte) (ha : a.val < 128) : AppendRune (Char.ofNat a.val) = [a] := by
  have hv : (a.val).isValidChar := Or.inl (by omega)
  unfold AppendRune
  rw [toNat_ofNat _ hv]
  simp only [ha, if_true]
  rw [byte_val a _ rfl]

theorem AppendRune_two (a b : Byte) (ha : 194 ≤ a.val) (ha2 : a.val < 224) (hb : 128 ≤ b.val)
    (hb2 : b.val ≤ 191) : AppendRune (Char.ofNat (a.val % 32 * 64 + b.val % 64)) = [a, b] := by
  have hv : (a.val % 32 * 64 + b.val % 64).isValidChar := Or.inl (by omega)
  unfold AppendRune
  rw [toNat_ofNat _ hv]
  have h1 : ¬ (a.val % 32 * 64 + b.val % 64 < 128) := by omega
  have h2 : a.val % 32 * 64 + b.val % 64 < 2048 := by omega
  simp only [h1, h2, if_true, if_false]
  rw [byte_val a _ (by omega), byte_val b _ (by omega)]

theorem AppendRune_three (a b c : Byte) (ha : 224 ≤ a.val) (ha2 : a.val < 240)
    (hb : 128 ≤ b.val) (hb2 : b.val ≤ 191) (hlo : a.val = 224 → 160 ≤ b.val)
    (hhi : a.val = 237 → b.val ≤ 159) (hc : 128 ≤ c.val) (hc2 : c.val ≤ 191) :
    AppendRune (Char.ofNat (a.val % 16 * 4096 + b.val % 64 * 64 + c.val % 64)) = [a, b, c] := by
  have hv : (a.val % 16 * 4096 + b.val % 64 * 64 + c.val % 64).isValidChar := by
    unfold Nat.isValidChar
    omega
  unfold AppendRune
  rw [toNat_ofNat _ hv]
  have h1 : ¬ (a.val % 16 * 4096 + b.val % 64 * 64 + c.val % 64 < 128) := by omega
  have h2 : ¬ (a.val % 16 * 4096 + b.val % 64 * 64 + c.val % 64 < 2048) := by omega
  have h3 : a.val % 16 * 4096 + b.val % 64 * 64 + c.val % 64 < 65536 := by omega
  simp only [h1, h2, h3, if_true, if_false]
  rw [byte_val a _ (by omega), byte_val b _ (by omega), byte_val c _ (by omega)]

theorem AppendRune_four (a b c d : Byte) (ha : 240 ≤ a.val) (ha2 : a.val ≤ 244)
    (hb : 128 ≤ b.val) (hb2 : b.val ≤ 191) (hlo : a.val = 240 → 144 ≤ b.val)
    (hhi : a.val = 244 → b.val ≤ 143) (hc : 128 ≤ c.val) (hc2 : c.val ≤ 191)
    (hd : 128 ≤ d.val) (hd2 : d.val ≤ 191) :
    AppendRune (Char.ofNat (a.val % 8 * 262144 + b.val % 64 * 4096 + c.val % 64 * 64 +
      d.val % 64)) = [a, b, c, d] := by
  have hv : (a.val % 8 * 262144 + b.val % 64 * 4096 + c.val % 64 * 64 +
      d.val % 64).isValidChar := by
    unfold Nat.isValidChar
    omega
  unfold AppendRune
  rw [toNat_ofNat _ hv]
  have h1 : ¬ (a.val % 8 * 262144 + b.val % 64 * 4096 + c.val % 64 * 64 + d.val % 64 < 128) := by
    omega
  have h2 : ¬ (a.val % 8 * 262144 + b.val % 64 * 4096 + c.val % 64 * 64 + d.val % 64 < 2048) := by
    omega
  have h3 : ¬ (a.val % 8 * 262144 + b.val % 64 * 4096 + c.val % 64 * 64 + d.val % 64 < 65536) := by
    omega
  simp only [h1, h2, h3, if_false]
  rw [byte_val a _ (by omega), byte_val b _ (by omega), byte_val c _ (by omega),
    byte_val d _ (by omega)]

theorem width_cases (s0 : Byte) :
    (s0.val < 224 ∧ width s0 = 2) ∨ (224 ≤ s0.val ∧ s0.val < 240 ∧ width s0 = 3) ∨
      (240 ≤ s0.val ∧ width s0 = 4) := by
  unfold width
  split_ifs <;> omega

theorem accept_facts (s0 : Byte) :
    128 ≤ acceptLo s0 ∧ acceptHi s0 ≤ 191 ∧ (s0.val = 224 → acceptLo s0 = 160) ∧
      (s0.val = 240 → acceptLo s0 = 144) ∧ (s0.val = 237 → acceptHi s0 = 159) ∧
      (s0.val = 244 → acceptHi s0 = 143) := by
  unfold acceptLo acceptHi
  split_ifs <;> omega

/-- A rune that `DecodeRune` read from valid bytes is encoded as those bytes. -/
theorem AppendRune_DecodeRune (s0 : Byte) (rest : GoString)
    (h : ¬ ((DecodeRune (s0 :: rest)).1 = RuneError ∧ (DecodeRune (s0 :: rest)).2 = 1)) :
    AppendRune (DecodeRune (s0 :: rest)).1 = (s0 :: rest).take (DecodeRune (s0 :: rest)).2 := by
  revert h
  unfold DecodeRune
  by_cases h1 : s0.val < 128
  · intro _
    simp only [h1, if_true, List.take_succ_cons, List.take_zero]
    exact AppendRune_one s0 h1
  simp only [h1, if_false]
  by_cases h2 : s0.val < 194 ∨ 244 < s0.val
  · simp only [h2, if_true]
    intro h
    exact absurd ⟨trivial, trivial⟩ h
  simp only [h2, if_false]
  by_cases h3 : rest.length + 1 < width s0
  · simp only [h3, if_true]
    intro h
    exact absurd ⟨trivial, trivial⟩ h
  simp only [h3, if_false]
  have hw := width_cases s0
  obtain ⟨a1, a2, a3, a4, a5, a6⟩ := accept_facts s0
  cases rest with
  | nil => intro h; exact absurd ⟨rfl, rfl⟩ h
  | cons s1 r1 =>
    dsimp only
    by_cases h4 : s1.val < acceptLo s0 ∨ acceptHi s0 < s1.val
    · simp only [h4, if_true]
      intro h
      exact absurd ⟨trivial, trivial⟩ h
    simp only [h4, if_false]
    by_cases h5 : width s0 ≤ 2
    · simp only [h5, if_true, List.take_succ_cons, List.take_zero]
      intro _
      exact AppendRune_two s0 s1 (by omega) (by omega) (by omega) (by omega)
    simp only [h5, if_false]
    cases r1 with
    | nil => intro h; exact absurd ⟨rfl, rfl⟩ h
    | cons s2 r2 =>
      dsimp only
      by_cases h6 : s2.val < 128 ∨ 191 < s2.val
      · simp only [h6, if_true]
        intro h
        exact absurd ⟨trivial, trivial⟩ h
      simp only [h6, if_false]
      by_cases h7 : width s0 ≤ 3
      · simp only [h7, if_true, List.take_succ_cons, List.take_zero]
        intro _
        exact AppendRune_three s0 s1 s2 (by omega) (by omega) (by omega) (by omega) (by omega)
          (by omega) (by omega) (by omega)
      simp only [h7, if_false]
      cases r2 with
      | nil => intro h; exact absurd ⟨rfl, rfl⟩ h
      | cons s3 r3 =>
        dsimp only
        by_cases h8 : s3.val < 128 ∨ 191 < s3.val
        · simp only [h8, if_true]
          intro h
          exact absurd ⟨trivial, trivial⟩ h
        simp only [h8, if_false, List.take_succ_cons, List.take_zero]
        intro _
        exact AppendRune_four s0 s1 s2 s3 (by omega) (by omega) (by omega) (by omega) (by omega)
          (by omega) (by omega) (by omega) (by omega) (by omega)

theorem DecodeRune_size_pos (s0 : Byte) (rest : GoString) :
    1 ≤ (DecodeRune (s0 :: rest)).2 := by
  unfold DecodeRune
  by_cases h1 : s0.val < 128
  · simp only [h1, if_true, le_refl]
  simp only [h1, if_false]
  by_cases h2 : s0.val < 194 ∨ 244 < s0.val
  · simp only [h2, if_true, le_refl]
  simp only [h2, if_false]
  by_cases h3 : rest.length + 1 < width s0
  · simp only [h3, if_true, le_refl]
  simp only [h3, if_false]
  cases rest with
  | nil => exact le_refl _
  | cons s1 r1 =>
    dsimp only
    by_cases h4 : s1.val < acceptLo s0 ∨ acceptHi s0 < s1.val
    · simp only [h4, if_true, le_refl]
    simp only [h4, if_false]
    by_cases h5 : width s0 ≤ 2
    · simp only [h5, if_true]
      omega
    simp only [h5, if_false]
    cases r1 with
    | nil => exact le_refl _
    | cons s2 r2 =>
      dsimp only
      by_cases h6 : s2.val < 128 ∨ 191 < s2.val
      · simp only [h6, if_true, le_refl]
      simp only [h6, if_false]
      by_cases h7 : width s0 ≤ 3
      · simp only [h7, if_true]
        omega
      simp only [h7, if_false]
      cases r2 with
      | nil => exact le_refl _
      | cons s3 r3 =>
        dsimp only
        by_cases h8 : s3.val < 128 ∨ 191 < s3.val
        · simp only [h8, if_true, le_refl]
        simp only [h8, if_false]
        omega

theorem runes_cons (fuel : Nat) (b : Byte) (rest : GoString) :
    runes (fuel + 1) (b :: rest) =
      DecodeRune (b :: rest) :: runes fuel ((b :: rest).drop (DecodeRune (b :: rest)).2) := rfl

/-- Decoding a valid string rune by rune and encoding the runes gives the string back. -/
theorem flatMap_AppendRune_runes (fuel : Nat) :
    ∀ s : GoString, s.length ≤ fuel →
      (∀ d ∈ runes fuel s, ¬ (d.1 = RuneError ∧ d.2 = 1)) →
      ((runes fuel s).map (·.1)).flatMap AppendRune = s := by
  induction fuel with
  | zero =>
    intro s hs _
    have : s = [] := List.eq_nil_of_length_eq_zero (by omega)
    subst this
    rfl
  | succ fuel ih =>
    intro s hs hv
    cases s with
    | nil => rfl
    | cons b rest =>
      rw [runes_cons] at hv ⊢
      have hd := hv _ (List.mem_cons_self _ _)
      have hpos := DecodeRune_size_pos b rest
      have hlen : ((b :: rest).drop (DecodeRune (b :: rest)).2).length ≤ fuel := by
        rw [List.length_drop]
        simp only [List.length_cons] at hs ⊢
        omega
      have hrest := ih _ hlen (fun d hdm => hv d (List.mem_cons_of_mem _ hdm))
      simp only [List.map_cons, List.flatMap_cons]
      rw [hrest, AppendRune_DecodeRune b rest hd]
      exact List.take_append_drop _ _

theorem DecodeRune_size_le (s0 : Byte) (rest : GoString) :
    (DecodeRune (s0 :: rest)).2 ≤ (s0 :: rest).length := by
  unfold DecodeRune
  have hw := width_cases s0
  by_cases h1 : s0.val < 128
  · simp only [h1, if_true, List.length_cons]
    omega
  simp only [h1, if_false]
  by_cases h2 : s0.val < 194 ∨ 244 < s0.val
  · simp only [h2, if_true, List.length_cons]
    omega
  simp only [h2, if_false]
  by_cases h3 : rest.length + 1 < width s0
  · simp only [h3, if_true, List.length_cons]
    omega
  simp only [h3, if_false]
  cases rest with
  | nil => simp
  | cons s1 r1 =>
    dsimp only
    by_cases h4 : s1.val < acceptLo s0 ∨ acceptHi s0 < s1.val
    · simp only [h4, if_true, List.length_cons]
      omega
    simp only [h4, if_false]
    by_cases h5 : width s0 ≤ 2
    · simp only [h5, if_true, List.length_cons]
      omega
    simp only [h5, if_false]
    cases r1 with
    | nil => simp
    | cons s2 r2 =>
      dsimp only
      by_cases h6 : s2.val < 128 ∨ 191 < s2.val
      · simp only [h6, if_true, List.length_cons]
        omega
      simp only [h6, if_false]
      by_cases h7 : width s0 ≤ 3
      · simp only [h7, if_true, List.length_cons]
        omega
      simp only [h7, if_false]
      cases r2 with
      | nil => simp
      | cons s3 r3 =>
        dsimp only
        by_cases h8 : s3.val < 128 ∨ 191 < s3.val
        · simp only [h8, if_true, List.length_cons]
          omega
        simp only [h8, if_false, List.length_cons]
        omega

/-- The fuel of `runes` suffices: the widths of the runes of a string add up
to its length, no byte is left over. -/
theorem sum_width_runes (fuel : Nat) :
    ∀ s : GoString, s.length ≤ fuel → ((runes fuel s).map (·.2)).sum = s.length := by
  induction fuel with
  | zero =>
    intro s hs
    have : s = [] := List.eq_nil_of_length_eq_zero (by omega)
    subst this
    rfl
  | succ fuel ih =>
    intro s hs
    cases s with
    | nil => rfl
    | cons b rest =>
      have hpos := DecodeRune_size_pos b rest
      have hle := DecodeRune_size_le b rest
      have hlen : ((b :: rest).drop (DecodeRune (b :: rest)).2).length ≤ fuel := by
        rw [List.length_drop]
        simp only [List.length_cons] at hs ⊢
        omega
      rw [runes_cons, List.map_cons, List.sum_cons, ih _ hlen, List.length_drop]
      omega

theorem valid_iff (s : GoString) :
    ValidString s = true ↔ ∀ d ∈ runes s.length s, ¬ (d.1 = RuneError ∧ d.2 = 1) := by
  unfold ValidString
  simp only [List.all_eq_true, Bool.not_eq_true', Bool.and_eq_false_imp, decide_eq_true_eq,
    decide_eq_false_iff_not, not_and]

end utf8

/-! ## Lemmas on the JSON codec -/

namespace json

theorem hexVal_hexChar : ∀ k : Fin 16, hexVal (hexChar k.val) = some k.val := by decide

theorem hexVal_hexChar_nat (k : Nat) (h : k < 16) : hexVal (hexChar k) = some k :=
  hexVal_hexChar ⟨k, h⟩

theorem char_eq_of_toNat {c d : Char} (h : c.toNat = d.toNat) : c = d := by
  apply Char.ext
  apply UInt32.ext
  exact h

/-- What the encoder writes for one character scans as part of a string literal. -/
theorem scanString_escapeRune (c : Char) (tail raw out : List Char)
    (h : scanString tail = some (raw, out)) :
    scanString (escapeRune c ++ tail) = some (escapeRune c ++ raw, out) := by
  unfold escapeRune
  split
  · rename_i hc
    rcases hc with hc | hc <;> subst hc <;> rw [scanString.eq_def] <;> simp [h]
  · split
    · rename_i hc; subst hc; rw [scanString.eq_def]; simp [h]
    · split
      · rename_i hc; subst hc; rw [scanString.eq_def]; simp [h]
      · split
        · rename_i hc; subst hc; rw [scanString.eq_def]; simp [h]
        · split
          · rename_i hc; subst hc; rw [scanString.eq_def]; simp [h]
          · split
            · rename_i hc; subst hc; rw [scanString.eq_def]; simp [h]
            · split
              · rename_i hc
                have h16 : c.toNat / 16 < 16 := by
                  rcases hc with hc | hc | hc | hc
                  · omega
                  · subst hc; decide
                  · subst hc; decide
                  · subst hc; decide
                have h1 := hexVal_hexChar_nat (c.toNat / 16) h16
                have h2 := hexVal_hexChar_nat (c.toNat % 16) (Nat.mod_lt _ (by decide))
                have h0 : hexVal '0' = some 0 := by decide
                rw [scanString.eq_def]; simp [h, h0, h1, h2]
              · split
                · rename_i hc
                  have h2 := hexVal_hexChar_nat (c.toNat % 16) (Nat.mod_lt _ (by decide))
                  have h0 : hexVal '0' = some 0 := by decide
                  have h22 : hexVal '2' = some 2 := by decide
                  rw [scanString.eq_def]; simp [h, h0, h22, h2]
                · rename_i n1 n2 n3 n4 n5 n6 n7 n8
                  have hq : c ≠ '"' := fun hh => n1 (Or.inl hh)
                  have hb : c ≠ '\\' := fun hh => n1 (Or.inr hh)
                  have h32 : ¬ c.toNat < 32 := fun hh => n7 (Or.inl hh)
                  rw [scanString.eq_def]; simp [h, hq, hb, h32]

theorem unquote_escapeRune (c : Char) (m : Nat) (tail : List Char) :
    unquote (m + 1) (escapeRune c ++ tail) = c :: unquote m tail := by
  unfold escapeRune
  split
  · rename_i hc
    rcases hc with hc | hc <;> subst hc <;> rw [unquote.eq_def] <;> simp [unescape]
  · split
    · rename_i hc; subst hc; rw [unquote.eq_def]; simp [unescape]
    · split
      · rename_i hc; subst hc; rw [unquote.eq_def]; simp [unescape]
      · split
        · rename_i hc; subst hc; rw [unquote.eq_def]; simp [unescape]
        · split
          · rename_i hc; subst hc; rw [unquote.eq_def]; simp [unescape]
          · split
            · rename_i hc; subst hc; rw [unquote.eq_def]; simp [unescape]
            · split
              · rename_i hc
                have hlt : c.toNat < 64 := by
                  rcases hc with hc | hc | hc | hc
                  · omega
                  · subst hc; decide
                  · subst hc; decide
                  · subst hc; decide
                have h1 := hexVal_hexChar_nat (c.toNat / 16) (by omega)
                have h2 := hexVal_hexChar_nat (c.toNat % 16) (Nat.mod_lt _ (by decide))
                have h0 : hexVal '0' = some 0 := by decide
                have hv : c.toNat / 16 * 16 + c.toNat % 16 = c.toNat := by omega
                have hs : ¬ (55296 ≤ c.toNat ∧ c.toNat < 57344) := by omega
                rw [unquote.eq_def]
                simp [getu4, h0, h1, h2, hv, hs, Char.ofNat_toNat]
              · split
                · rename_i hc
                  have h2 := hexVal_hexChar_nat (c.toNat % 16) (Nat.mod_lt _ (by decide))
                  have h0 : hexVal '0' = some 0 := by decide
                  have h22 : hexVal '2' = some 2 := by decide
                  have hv : 8224 + c.toNat % 16 = c.toNat := by omega
                  have hs : ¬ (55296 ≤ c.toNat ∧ c.toNat < 57344) := by omega
                  rw [unquote.eq_def]
                  simp [getu4, h0, h22, h2, hv, hs, Char.ofNat_toNat]
                · rename_i n1 n2 n3 n4 n5 n6 n7 n8
                  have hb : c ≠ '\\' := fun hh => n1 (Or.inr hh)
                  rw [unquote.eq_def]
                  simp [hb]

theorem scanString_flatMap (s tail : List Char) :
    scanString (s.flatMap escapeRune ++ '"' :: tail) = some (s.flatMap escapeRune, tail) := by
  induction s with
  | nil =>
    rw [scanString.eq_def]
    simp
  | cons c cs ih =>
    simp only [List.flatMap_cons, List.append_assoc]
    exact scanString_escapeRune c _ _ _ ih

theorem unquote_flatMap (s : List Char) (n : Nat) (h : s.length ≤ n) :
    unquote n (s.flatMap escapeRune) = s := by
  induction s generalizing n with
  | nil =>
    rw [unquote.eq_def]
    cases n <;> simp
  | cons c cs ih =>
    obtain ⟨m, rfl⟩ : ∃ m, n = m + 1 := ⟨n - 1, by simp at h; omega⟩
    simp only [List.flatMap_cons]
    rw [unquote_escapeRune, ih m (by simp at h; omega)]

theorem escapeRune_length (c : Char) : 1 ≤ (escapeRune c).length := by
  unfold escapeRune
  repeat' split
  all_goals simp

theorem length_le_flatMap (s : List Char) : s.length ≤ (s.flatMap escapeRune).length := by
  induction s with
  | nil => simp
  | cons c cs ih =>
    simp only [List.flatMap_cons, List.length_append, List.length_cons]
    have := escapeRune_length c
    omega

/-- The scanner reads back a text written character by character in quotes. -/
theorem parseValue_quoteText (cs : List Char) (fuel : Nat) (tail : List Char) :
    parseValue (fuel + 1) ('"' :: (cs.flatMap escapeRune ++ '"' :: tail)) =
      some (.string (cs.flatMap escapeRune) cs, tail) := by
  rw [parseValue.eq_def]
  have hsp : skipSpace ('"' :: (cs.flatMap escapeRune ++ '"' :: tail)) =
      '"' :: (cs.flatMap escapeRune ++ '"' :: tail) := by
    rw [skipSpace.eq_def]
    simp [isSpace]
  have hq := unquote_flatMap cs _ (length_le_flatMap cs)
  simp [hsp, scanString_flatMap]
  simpa using hq

/-- What the encoder writes for one step over a Go string scans as part of a
string literal. -/
theorem scanString_escapeDecoded (d : Char × Nat) (tail raw out : List Char)
    (h : scanString tail = some (raw, out)) :
    scanString (escapeDecoded d ++ tail) = some (escapeDecoded d ++ raw, out) := by
  unfold escapeDecoded
  split
  · have hf : hexVal 'f' = some 15 := by decide
    have hd : hexVal 'd' = some 13 := by decide
    rw [scanString.eq_def]
    simp [h, hf, hd]
  · exact scanString_escapeRune d.1 tail raw out h

theorem unquote_escapeDecoded (d : Char × Nat) (m : Nat) (tail : List Char) :
    unquote (m + 1) (escapeDecoded d ++ tail) = d.1 :: unquote m tail := by
  unfold escapeDecoded
  split
  · rename_i hc
    have hf : hexVal 'f' = some 15 := by decide
    have hd : hexVal 'd' = some 13 := by decide
    rw [hc.1, unquote.eq_def]
    simp [getu4, hf, hd, utf8.RuneError]
  · exact unquote_escapeRune d.1 m tail

theorem scanString_decoded (ds : List (Char × Nat)) (tail : List Char) :
    scanString (ds.flatMap escapeDecoded ++ '"' :: tail) =
      some (ds.flatMap escapeDecoded, tail) := by
  induction ds with
  | nil =>
    rw [scanString.eq_def]
    simp
  | cons d ds ih =>
    simp only [List.flatMap_cons, List.append_assoc]
    exact scanString_escapeDecoded d _ _ _ ih

theorem unquote_decoded (ds : List (Char × Nat)) (n : Nat) (h : ds.length ≤ n) :
    unquote n (ds.flatMap escapeDecoded) = ds.map (·.1) := by
  induction ds generalizing n with
  | nil =>
    rw [unquote.eq_def]
    cases n <;> simp
  | cons d ds ih =>
    obtain ⟨m, rfl⟩ : ∃ m, n = m + 1 := ⟨n - 1, by simp at h; omega⟩
    simp only [List.flatMap_cons, List.map_cons]
    rw [unquote_escapeDecoded, ih m (by simp at h; omega)]

theorem escapeDecoded_length (d : Char × Nat) : 1 ≤ (escapeDecoded d).length := by
  unfold escapeDecoded
  split
  · simp
  · exact escapeRune_length d.1

theorem length_le_flatMap_decoded (ds : List (Char × Nat)) :
    ds.length ≤ (ds.flatMap escapeDecoded).length := by
  induction ds with
  | nil => simp
  | cons d ds ih =>
    simp only [List.flatMap_cons, List.length_append, List.length_cons]
    have := escapeDecoded_length d
    omega

theorem escapeString_eq (fuel : Nat) :
    ∀ s : GoString, escapeString fuel s = (utf8.runes fuel s).flatMap escapeDecoded := by
  induction fuel with
  | zero => intro s; cases s <;> rfl
  | succ fuel ih =>
    intro s
    cases s with
    | nil => rfl
    | cons b rest =>
      rw [utf8.runes_cons, List.flatMap_cons, ← ih]
      rfl

/-- The scanner reads back a string the encoder wrote: the characters are the
runes of the Go string, `RuneError` for every byte that is no valid UTF-8. -/
theorem parseValue_quote (s : GoString) (fuel : Nat) (tail : List Char) :
    parseValue (fuel + 1) (quote s ++ tail) =
      some (.string (escapeString s.length s) ((utf8.runes s.length s).map (·.1)), tail) := by
  unfold quote
  rw [parseValue.eq_def, escapeString_eq]
  simp only [List.cons_append, List.append_assoc, List.singleton_append]
  have hsp : skipSpace ('"' :: ((utf8.runes s.length s).flatMap escapeDecoded ++ '"' :: tail)) =
      '"' :: ((utf8.runes s.length s).flatMap escapeDecoded ++ '"' :: tail) := by
    rw [skipSpace.eq_def]
    simp [isSpace]
  have hq := unquote_decoded (utf8.runes s.length s) _
    (length_le_flatMap_decoded (utf8.runes s.length s))
  simp [hsp, scanString_decoded]
  simpa using hq

end json

namespace json

theorem skipSpace_of_not_space (c : Char) (cs : List Char) (h : isSpace c = false) :
    skipSpace (c :: cs) = c :: cs := by
  rw [skipSpace.eq_def]
  simp [h]

theorem scanString_plain (k tail : List Char) (hk : k.flatMap escapeRune = k) :
    scanString (k ++ '"' :: tail) = some (k, tail) := by
  have h := scanString_flatMap k tail
  rw [hk] at h
  exact h

theorem unquote_plain (k : List Char) (hk : k.flatMap escapeRune = k) :
    unquote k.length k = k := by
  have h := unquote_flatMap k k.length (le_refl _)
  rw [hk] at h
  exact h

theorem parseMembers_member (k : String) (vt : List Char) (v : Value) (F : Nat) (c : Char)
    (tail : List Char) (hk : k.data.flatMap escapeRune = k.data) (hv : ScansAs vt v)
    (hc : c = ',' ∨ c = '\x7d') :
    parseMembers (F + 2) (memberText k vt ++ c :: tail) =
      if c = ',' then
        match parseMembers (F + 1) (skipSpace tail) with
        | none => none
        | some (ms, out) => some ((k.data, v) :: ms, out)
      else some ([(k.data, v)], tail) := by
  unfold memberText
  rw [parseMembers.eq_def]
  simp only [List.cons_append, List.append_assoc]
  have h1 := scanString_plain k.data (':' :: (vt ++ c :: tail)) hk
  have h2 : skipSpace (':' :: (vt ++ c :: tail)) = ':' :: (vt ++ c :: tail) :=
    skipSpace_of_not_space _ _ (by decide)
  have h3 := hv F c tail hc
  have h4 : skipSpace (c :: tail) = c :: tail := by
    rcases hc with hc | hc <;> subst hc <;> exact skipSpace_of_not_space _ _ (by decide)
  have h5 : unquote k.length k.data = k.data := unquote_plain k.data hk
  rcases hc with hc | hc
  · subst hc
    simp [h1, h2, h3, h4, h5]
  · subst hc
    simp [h1, h2, h3, h4, h5]

theorem parseMembers_objectTail :
    ∀ (fields : List (String × List Char × Value)) (fuel : Nat) (tail : List Char),
      fields ≠ [] →
      (∀ f ∈ fields, f.1.data.flatMap escapeRune = f.1.data ∧ ScansAs f.2.1 f.2.2) →
      parseMembers (fuel + fields.length + 1)
          (objectTail (fields.map (fun f => (f.1, f.2.1))) ++ tail) =
        some (fields.map (fun f => (f.1.data, f.2.2)), tail)
  | [], _, _, hne, _ => absurd rfl hne
  | [(k, vt, v)], fuel, tail, _, h => by
    obtain ⟨hk, hv⟩ := h (k, vt, v) (List.mem_singleton.mpr rfl)
    simp only [List.map_cons, List.map_nil, objectTail, List.length_singleton,
      List.append_assoc, List.singleton_append]
    rw [parseMembers_member k vt v fuel '\x7d' tail hk hv (Or.inr rfl)]
    simp
  | (k, vt, v) :: m :: ms, fuel, tail, _, h => by
    obtain ⟨hk, hv⟩ := h (k, vt, v) (List.mem_cons_self _ _)
    have ih := parseMembers_objectTail (m :: ms) fuel tail (by simp)
      (fun f hf => h f (List.mem_cons_of_mem _ hf))
    simp only [List.map_cons, objectTail, List.length_cons, List.append_assoc,
      List.cons_append] at ih ⊢
    rw [show fuel + (ms.length + 1 + 1) + 1 = (fuel + ms.length + 1) + 2 by omega,
      parseMembers_member k vt v _ ',' _ hk hv (Or.inl rfl)]
    have hsp : ∀ rest, skipSpace (memberText m.1 m.2.1 ++ rest) = memberText m.1 m.2.1 ++ rest := by
      intro rest
      unfold memberText
      exact skipSpace_of_not_space _ _ (by decide)
    cases ms with
    | nil =>
      simp only [objectTail, List.append_assoc, List.length_nil] at ih ⊢
      rw [hsp]
      rw [show fuel + 0 + 1 + 1 = fuel + (0 + 1) + 1 by omega, ih]
      simp
    | cons m2 ms2 =>
      simp only [objectTail, List.append_assoc, List.length_cons, List.map_cons,
        List.cons_append] at ih ⊢
      rw [hsp]
      rw [show fuel + (ms2.length + 1) + 1 + 1 = fuel + (ms2.length + 1 + 1) + 1 by omega, ih]
      simp

/-- The scanner reads back an object written member by member. -/
theorem parseValue_object (fields : List (String × List Char × Value)) (fuel : Nat)
    (tail : List Char) (hne : fields ≠ [])
    (h : ∀ f ∈ fields, f.1.data.flatMap escapeRune = f.1.data ∧ ScansAs f.2.1 f.2.2) :
    parseValue (fuel + fields.length + 2)
        ('\x7b' :: (objectTail (fields.map (fun f => (f.1, f.2.1))) ++ tail)) =
      some (.object (fields.map (fun f => (f.1.data, f.2.2))), tail) := by
  have hm := parseMembers_objectTail fields fuel tail hne h
  obtain ⟨f0, rest, rfl⟩ := List.exists_cons_of_ne_nil hne
  have hhead : ∃ r, objectTail ((f0 :: rest).map (fun f => (f.1, f.2.1))) ++ tail = '"' :: r := by
    cases rest with
    | nil => exact ⟨_, rfl⟩
    | cons m ms => exact ⟨_, rfl⟩
  obtain ⟨r, hr⟩ := hhead
  rw [hr] at hm ⊢
  rw [parseValue.eq_def]
  have h1 : skipSpace ('\x7b' :: '"' :: r) = '\x7b' :: '"' :: r :=
    skipSpace_of_not_space _ _ (by decide)
  have h2 : skipSpace ('"' :: r) = '"' :: r := skipSpace_of_not_space _ _ (by decide)
  simp only [List.length_cons] at hm
  simp [h1, h2, hm]

theorem scansAs_quote (s : GoString) :
    ScansAs (quote s) (.string (escapeString s.length s) ((utf8.runes s.length s).map (·.1))) :=
  fun fuel _ _ _ => parseValue_quote s fuel _

theorem scansAs_quoteText (cs : List Char) :
    ScansAs ('"' :: (cs.flatMap escapeRune ++ ['"'])) (.string (cs.flatMap escapeRune) cs) := by
  intro fuel c tail _
  have h := parseValue_quoteText cs fuel (c :: tail)
  simpa using h

end json

namespace strconv

theorem digitChar_facts : ∀ d : Fin 10,
    isDigit (digitChar d.val) = true ∧ (digitChar d.val).toNat - 48 = d.val ∧
    (d.val ≠ 0 → digitChar d.val ≠ '0') := by decide

theorem isDigit_digitChar (d : Nat) (h : d < 10) : isDigit (digitChar d) = true :=
  (digitChar_facts ⟨d, h⟩).1

theorem toNat_digitChar (d : Nat) (h : d < 10) : (digitChar d).toNat - 48 = d :=
  (digitChar_facts ⟨d, h⟩).2.1

theorem digitChar_ne_zero (d : Nat) (h : d < 10) (h0 : d ≠ 0) : digitChar d ≠ '0' :=
  (digitChar_facts ⟨d, h⟩).2.2 h0

theorem digitsValue_append_singleton (s : List Char) (c : Char) :
    digitsValue (s ++ [c]) = digitsValue s * 10 + (c.toNat - 48) := by
  simp [digitsValue, List.foldl_append]

theorem digitsValue_decimal (fuel n : Nat) (h : n < fuel) : digitsValue (decimal fuel n) = n := by
  induction fuel generalizing n with
  | zero => omega
  | succ f ih =>
    unfold decimal
    split
    · rename_i h10
      simp [digitsValue, toNat_digitChar n h10]
    · rw [digitsValue_append_singleton, ih (n / 10) (by omega),
        toNat_digitChar _ (Nat.mod_lt _ (by decide))]
      omega

theorem all_isDigit_decimal (fuel n : Nat) : (decimal fuel n).all isDigit = true := by
  induction fuel generalizing n with
  | zero => rfl
  | succ f ih =>
    unfold decimal
    split
    · rename_i h10
      simp [isDigit_digitChar n h10]
    · simp only [List.all_append, ih, List.all_cons, List.all_nil, Bool.and_true, Bool.true_and]
      exact isDigit_digitChar _ (Nat.mod_lt _ (by decide))

theorem decimal_head (fuel n : Nat) (h : n < fuel) :
    ∃ c cs, decimal fuel n = c :: cs ∧ (0 < n → c ≠ '0') ∧ (n = 0 → c = '0' ∧ cs = []) := by
  induction fuel generalizing n with
  | zero => omega
  | succ f ih =>
    unfold decimal
    split
    · rename_i h10
      refine ⟨_, [], rfl, fun h0 => digitChar_ne_zero n h10 (by omega), fun h0 => ?_⟩
      subst h0
      exact ⟨rfl, rfl⟩
    · obtain ⟨c, cs, h1, h2, _⟩ := ih (n / 10) (by omega)
      rw [h1]
      exact ⟨c, cs ++ [digitChar (n % 10)], by simp, fun _ => h2 (by omega),
        fun h0 => by omega⟩

theorem takeWhile_append_stop (p : Char → Bool) (l : List Char) (c : Char) (t : List Char)
    (hl : l.all p = true) (hc : p c = false) :
    (l ++ c :: t).takeWhile p = l ∧ (l ++ c :: t).dropWhile p = c :: t := by
  induction l with
  | nil => simp [List.takeWhile, List.dropWhile, hc]
  | cons a l ih =>
    simp only [List.all_cons, Bool.and_eq_true] at hl
    obtain ⟨h1, h2⟩ := ih hl.2
    simp [List.takeWhile, List.dropWhile, hl.1, h1, h2]

theorem isDigit_false_of_delim (c : Char) (hc : c = ',' ∨ c = '\x7d') :
    isDigit c = false ∧ c ≠ '.' ∧ c ≠ 'e' ∧ c ≠ 'E' := by
  rcases hc with hc | hc <;> subst hc <;> decide

theorem isDigit_ne (c : Char) (h : isDigit c = true) :
    c ≠ '-' ∧ c ≠ '+' ∧ c ≠ '\x7b' ∧ c ≠ '[' ∧ c ≠ '"' ∧ json.isSpace c = false := by
  have h2 : 48 ≤ c.toNat ∧ c.toNat ≤ 57 := by
    simp only [isDigit, decide_eq_true_eq] at h
    exact ⟨h.1, h.2⟩
  refine ⟨?_, ?_, ?_, ?_, ?_, ?_⟩
  · rintro rfl; revert h2; decide
  · rintro rfl; revert h2; decide
  · rintro rfl; revert h2; decide
  · rintro rfl; revert h2; decide
  · rintro rfl; revert h2; decide
  · simp only [json.isSpace, Bool.or_eq_false_iff, decide_eq_false_iff_not]
    refine ⟨⟨⟨?_, ?_⟩, ?_⟩, ?_⟩ <;> (rintro rfl; revert h2; decide)

end strconv

namespace json

theorem scanNumber_FormatInt (x : Int) (c : Char) (tail : List Char)
    (hc : c = ',' ∨ c = '\x7d') :
    scanNumber (strconv.FormatInt x ++ c :: tail) = some (strconv.FormatInt x, c :: tail) := by
  obtain ⟨hd, hdot, he, hE⟩ := strconv.isDigit_false_of_delim c hc
  obtain ⟨c0, cs0, h1, h2, h3⟩ := strconv.decimal_head (x.natAbs + 1) x.natAbs (by omega)
  have hall := strconv.all_isDigit_decimal (x.natAbs + 1) x.natAbs
  rw [h1] at hall
  simp only [List.all_cons, Bool.and_eq_true] at hall
  obtain ⟨hc0, hcs0⟩ := hall
  obtain ⟨hm, _, _, _, _, _⟩ := strconv.isDigit_ne c0 hc0
  obtain ⟨ht, hdr⟩ := strconv.takeWhile_append_stop strconv.isDigit cs0 c tail hcs0 hd
  have hint : scanInt (c0 :: (cs0 ++ c :: tail)) = some (c0 :: cs0, c :: tail) := by
    unfold scanInt
    by_cases hz : c0 = '0'
    · have hn : x.natAbs = 0 := by
        by_contra hne
        exact h2 (by omega) hz
      obtain ⟨_, hnil⟩ := h3 hn
      subst hnil
      simp [hz]
    · simp [hz, hc0, ht, hdr]
  have hfrac : scanFrac (c :: tail) = some ([], c :: tail) := by
    unfold scanFrac
    simp [hdot]
  have hexp : scanExp (c :: tail) = some ([], c :: tail) := by
    unfold scanExp
    simp [he, hE]
  unfold scanNumber strconv.FormatInt strconv.FormatUint
  by_cases hx : x < 0
  · simp [hx, h1, hint, hfrac, hexp]
  · simp [hx, h1, hm, hint, hfrac, hexp]

theorem scansAs_FormatInt (x : Int) :
    ScansAs (strconv.FormatInt x) (.number (strconv.FormatInt x)) := by
  intro fuel c tail hc
  have hs := scanNumber_FormatInt x c tail hc
  obtain ⟨c0, cs0, h1, _, _⟩ := strconv.decimal_head (x.natAbs + 1) x.natAbs (by omega)
  have hall := strconv.all_isDigit_decimal (x.natAbs + 1) x.natAbs
  rw [h1] at hall
  simp only [List.all_cons, Bool.and_eq_true] at hall
  obtain ⟨hm, hp, hb, hk, hq, hsp⟩ := strconv.isDigit_ne c0 hall.1
  rw [parseValue.eq_def]
  by_cases hx : x < 0
  · have hf : strconv.FormatInt x = '-' :: c0 :: cs0 := by
      simp [strconv.FormatInt, strconv.FormatUint, hx, h1]
    rw [hf] at hs ⊢
    have hsk : skipSpace ('-' :: c0 :: cs0 ++ c :: tail) = '-' :: c0 :: cs0 ++ c :: tail :=
      skipSpace_of_not_space _ _ (by decide)
    simp only [hsk]
    simp only [List.cons_append] at hs ⊢
    simp [hs]
  · have hf : strconv.FormatInt x = c0 :: cs0 := by
      simp [strconv.FormatInt, strconv.FormatUint, hx, h1]
    rw [hf] at hs ⊢
    have hsk : skipSpace (c0 :: cs0 ++ c :: tail) = c0 :: cs0 ++ c :: tail :=
      skipSpace_of_not_space _ _ hsp
    simp only [hsk]
    simp only [List.cons_append] at hs ⊢
    simp [hs, hb, hk, hq, hall.1]

theorem ParseInt64_FormatInt (x : Int) (h1 : -(2 ^ 63 : Int) ≤ x) (h2 : x < 2 ^ 63) :
    strconv.ParseInt64 (strconv.FormatInt x) = some x := by
  obtain ⟨c0, cs0, hd, _, _⟩ := strconv.decimal_head (x.natAbs + 1) x.natAbs (by omega)
  have hall := strconv.all_isDigit_decimal (x.natAbs + 1) x.natAbs
  have hval := strconv.digitsValue_decimal (x.natAbs + 1) x.natAbs (by omega)
  rw [hd] at hall hval
  have hpd : strconv.parseDigits (c0 :: cs0) = some x.natAbs := by
    unfold strconv.parseDigits
    rw [hval]
    simp only [hall, not_true_eq_false, or_false, reduceCtorEq, if_false]
  simp only [List.all_cons, Bool.and_eq_true] at hall
  obtain ⟨hm, hp, _, _, _, _⟩ := strconv.isDigit_ne c0 hall.1
  unfold strconv.ParseInt64 strconv.FormatInt strconv.FormatUint
  by_cases hx : x < 0
  · simp only [hx, if_true, hd, hpd]
    have hle : x.natAbs ≤ 2 ^ 63 := by omega
    simp only [hle, if_true, Option.some.injEq]
    omega
  · simp only [hx, if_false, hd, hm, hp, hpd]
    have hlt : x.natAbs < 2 ^ 63 := by omega
    simp only [hlt, if_true, Option.some.injEq]
    omega

end json

namespace base64

theorem dec_enc : ∀ n : Fin 64,
    dec (enc n.val) = some n.val ∧ enc n.val ≠ '=' ∧ enc n.val ≠ '\r' ∧ enc n.val ≠ '\n' := by
  decide

theorem dec_enc_nat (n : Nat) (h : n < 64) : dec (enc n) = some n := (dec_enc ⟨n, h⟩).1

theorem enc_ne_pad (n : Nat) (h : n < 64) : enc n ≠ '=' := (dec_enc ⟨n, h⟩).2.1

theorem enc_keep (n : Nat) (h : n < 64) :
    decide (enc n ≠ '\r' ∧ enc n ≠ '\n') = true := by
  have := dec_enc ⟨n, h⟩
  simp [this.2.2.1, this.2.2.2]

theorem byte_eq (n : Nat) (a : Byte) (h : n = a.val) : byte n = a := by
  apply Fin.ext
  simp only [byte]
  rw [h]
  exact Nat.mod_eq_of_lt a.isLt

theorem decodeQuanta_EncodeToString : ∀ bs : List Byte,
    decodeQuanta (EncodeToString bs) = some bs
  | [] => rfl
  | [a] => by
    have ha := a.isLt
    simp only [EncodeToString, decodeQuanta, dec_enc_nat (a.val / 4) (by omega),
      dec_enc_nat (a.val % 4 * 16) (by omega)]
    simp
    exact byte_eq _ _ (by omega)
  | [a, b] => by
    have ha := a.isLt
    have hb := b.isLt
    simp only [EncodeToString, decodeQuanta, dec_enc_nat (a.val / 4) (by omega),
      dec_enc_nat (a.val % 4 * 16 + b.val / 16) (by omega),
      dec_enc_nat (b.val % 16 * 4) (by omega)]
    simp [enc_ne_pad (b.val % 16 * 4) (by omega)]
    exact ⟨byte_eq _ _ (by omega), byte_eq _ _ (by omega)⟩
  | a :: b :: c :: rest => by
    have ha := a.isLt
    have hb := b.isLt
    have hc := c.isLt
    have ih := decodeQuanta_EncodeToString rest
    simp only [EncodeToString, decodeQuanta, dec_enc_nat (a.val / 4) (by omega),
      dec_enc_nat (a.val % 4 * 16 + b.val / 16) (by omega),
      dec_enc_nat (b.val % 16 * 4 + c.val / 64) (by omega),
      dec_enc_nat (c.val % 64) (by omega), ih]
    simp [enc_ne_pad (b.val % 16 * 4 + c.val / 64) (by omega),
      enc_ne_pad (c.val % 64) (by omega)]
    exact ⟨byte_eq _ _ (by omega), byte_eq _ _ (by omega), byte_eq _ _ (by omega)⟩

theorem filter_EncodeToString : ∀ bs : List Byte,
    (EncodeToString bs).filter (fun c => c ≠ '\r' ∧ c ≠ '\n') = EncodeToString bs
  | [] => rfl
  | [a] => by
    have ha := a.isLt
    simp only [EncodeToString, List.filter, enc_keep (a.val / 4) (by omega),
      enc_keep (a.val % 4 * 16) (by omega)]
    rfl
  | [a, b] => by
    have ha := a.isLt
    have hb := b.isLt
    simp only [EncodeToString, List.filter, enc_keep (a.val / 4) (by omega),
      enc_keep (a.val % 4 * 16 + b.val / 16) (by omega),
      enc_keep (b.val % 16 * 4) (by omega)]
    rfl
  | a :: b :: c :: rest => by
    have ha := a.isLt
    have hb := b.isLt
    have hc := c.isLt
    have ih := filter_EncodeToString rest
    simp only [EncodeToString, List.filter, enc_keep (a.val / 4) (by omega),
      enc_keep (a.val % 4 * 16 + b.val / 16) (by omega),
      enc_keep (b.val % 16 * 4 + c.val / 64) (by omega),
      enc_keep (c.val % 64) (by omega), ih]

/-- Decoding the base64 text of a byte sequence gives the byte sequence back. -/
theorem DecodeString_EncodeToString (bs : List Byte) :
    DecodeString (EncodeToString bs) = some bs := by
  unfold DecodeString
  rw [filter_EncodeToString, decodeQuanta_EncodeToString]

theorem escapeRune_enc : ∀ n : Fin 64, json.escapeRune (enc n.val) = [enc n.val] := by decide

theorem escapeRune_enc_nat (n : Nat) (h : n < 64) : json.escapeRune (enc n) = [enc n] :=
  escapeRune_enc ⟨n, h⟩

theorem escapeRune_pad : json.escapeRune '=' = ['='] := by decide

theorem EncodeToString_plain : ∀ bs : List Byte,
    (EncodeToString bs).flatMap json.escapeRune = EncodeToString bs
  | [] => rfl
  | [a] => by
    have ha := a.isLt
    simp only [EncodeToString, List.flatMap_cons, List.flatMap_nil,
      escapeRune_enc_nat (a.val / 4) (by omega), escapeRune_enc_nat (a.val % 4 * 16) (by omega),
      escapeRune_pad]
    rfl
  | [a, b] => by
    have ha := a.isLt
    have hb := b.isLt
    simp only [EncodeToString, List.flatMap_cons, List.flatMap_nil,
      escapeRune_enc_nat (a.val / 4) (by omega),
      escapeRune_enc_nat (a.val % 4 * 16 + b.val / 16) (by omega),
      escapeRune_enc_nat (b.val % 16 * 4) (by omega), escapeRune_pad]
    rfl
  | a :: b :: c :: rest => by
    have ha := a.isLt
    have hb := b.isLt
    have hc := c.isLt
    have ih := EncodeToString_plain rest
    simp only [EncodeToString, List.flatMap_cons,
      escapeRune_enc_nat (a.val / 4) (by omega),
      escapeRune_enc_nat (a.val % 4 * 16 + b.val / 16) (by omega),
      escapeRune_enc_nat (b.val % 16 * 4 + c.val / 64) (by omega),
      escapeRune_enc_nat (c.val % 64) (by omega), ih]
    rfl

end base64

namespace json

theorem scansAs_null : ScansAs "null".data .null := by
  intro fuel c tail _
  rw [parseValue.eq_def]
  have hsk : skipSpace ("null".data ++ c :: tail) = 'n' :: 'u' :: 'l' :: 'l' :: c :: tail :=
    skipSpace_of_not_space _ _ (by decide)
  have hd : strconv.isDigit 'n' = false := by decide
  simp only [hsk]
  simp [expect, hd]

/-- The JSON value the scanner finds for an encoded byte slice. -/
theorem scansAs_encodeBytes (d : Option (List Byte)) :
    ScansAs (encodeBytes d)
      (match d with
        | none => .null
        | some bs => .string (base64.EncodeToString bs) (base64.EncodeToString bs)) := by
  cases d with
  | none => exact scansAs_null
  | some bs =>
    have h := scansAs_quoteText (base64.EncodeToString bs)
    simp only [base64.EncodeToString_plain] at h
    exact h

theorem storeBytes_encodeBytes (d : Option (List Byte)) :
    storeBytes (match d with
        | none => .null
        | some bs => .string (base64.EncodeToString bs) (base64.EncodeToString bs)) = .ok d := by
  cases d with
  | none => rfl
  | some bs => simp [storeBytes, base64.DecodeString_EncodeToString]

theorem objectTail_length (f : String × List Char) (fs : List (String × List Char)) :
    3 ≤ (objectTail (f :: fs)).length := by
  obtain ⟨k, vt⟩ := f
  cases fs with
  | nil =>
    simp only [objectTail, memberText, List.cons_append, List.length_cons, List.length_append,
      List.length_singleton]
    omega
  | cons m ms =>
    simp only [objectTail, memberText, List.cons_append, List.length_cons, List.length_append]
    omega

/-- The decoder reads the first value of a text that is one object written
member by member and followed by anything. -/
theorem readValue_object (fields : List (String × List Char × Value)) (tail : List Char)
    (hne : fields ≠ []) (hlen : fields.length ≤ 8)
    (h : ∀ f ∈ fields, f.1.data.flatMap escapeRune = f.1.data ∧ ScansAs f.2.1 f.2.2) :
    readValue ('\x7b' :: (objectTail (fields.map (fun f => (f.1, f.2.1))) ++ tail)) =
      .ok (.object (fields.map (fun f => (f.1.data, f.2.2)))) := by
  unfold readValue
  have hsk : skipSpace ('\x7b' :: (objectTail (fields.map (fun f => (f.1, f.2.1))) ++ tail)) =
      '\x7b' :: (objectTail (fields.map (fun f => (f.1, f.2.1))) ++ tail) :=
    skipSpace_of_not_space _ _ (by decide)
  rw [hsk]
  dsimp only
  obtain ⟨f0, rest, rfl⟩ := List.exists_cons_of_ne_nil hne
  have hl := objectTail_length (f0.1, f0.2.1) (rest.map (fun f => (f.1, f.2.1)))
  obtain ⟨fuel, hf⟩ : ∃ fuel,
      2 * (objectTail ((f0 :: rest).map (fun f => (f.1, f.2.1))) ++ tail).length + 4 =
        fuel + (f0 :: rest).length + 2 := by
    refine ⟨2 * (objectTail ((f0 :: rest).map (fun f => (f.1, f.2.1))) ++ tail).length + 4 -
      ((f0 :: rest).length + 2), ?_⟩
    simp only [List.map_cons, List.length_append] at hl ⊢
    omega
  rw [hf, parseValue_object (f0 :: rest) fuel tail hne h]

/-- The text the encoder writes for a thumbnail, member by member. -/
theorem MarshalThumbnail_eq (t : Thumbnail) :
    MarshalThumbnail t =
      '\x7b' :: objectTail [("uid", quote t.UID), ("data", encodeBytes t.Data),
        ("mime", quote t.MIME), ("width", strconv.FormatInt t.Width),
        ("height", strconv.FormatInt t.Height)] := by
  simp only [MarshalThumbnail, objectTail, memberText, List.append_assoc, List.cons_append]
  rfl

end json

namespace strconv

theorem digitChar_zero : digitChar 0 = '0' := by decide

theorem fixedDigits_zero (w : Nat) : fixedDigits w 0 = List.replicate w '0' := by
  induction w with
  | zero => rfl
  | succ w ih =>
    simp only [fixedDigits, Nat.zero_div, Nat.zero_mod, ih, digitChar_zero]
    exact (List.replicate_succ' ..).symm

theorem length_decimal_le (fuel n w : Nat) (hw : 1 ≤ w) (hn : n < 10 ^ w) (hf : n < fuel) :
    (decimal fuel n).length ≤ w := by
  induction fuel generalizing n w with
  | zero => omega
  | succ f ih =>
    unfold decimal
    split
    · simpa using hw
    · rename_i h10
      obtain ⟨v, rfl⟩ : ∃ v, w = v + 1 := ⟨w - 1, by omega⟩
      have hv : 1 ≤ v := by
        by_contra hc
        have : v = 0 := by omega
        subst this
        simp at hn
        omega
      have := ih (n / 10) v hv (by rw [pow_succ] at hn; omega) (by omega)
      simp only [List.length_append, List.length_singleton]
      omega

theorem pad_decimal (w fuel n : Nat) (hw : 1 ≤ w) (hn : n < 10 ^ w) (hf : n < fuel) :
    List.replicate (w - (decimal fuel n).length) '0' ++ decimal fuel n = fixedDigits w n := by
  induction w generalizing n fuel with
  | zero => omega
  | succ v ih =>
    obtain ⟨f, rfl⟩ : ∃ f, fuel = f + 1 := ⟨fuel - 1, by omega⟩
    unfold decimal
    split
    · rename_i h10
      simp only [List.length_singleton, Nat.add_sub_cancel, fixedDigits]
      rw [Nat.div_eq_of_lt h10, Nat.mod_eq_of_lt h10, fixedDigits_zero]
    · rename_i h10
      have hv : 1 ≤ v := by
        by_contra hc
        have : v = 0 := by omega
        subst this
        simp at hn
        omega
      have hlen := length_decimal_le f (n / 10) v hv (by rw [pow_succ] at hn; omega) (by omega)
      have h := ih f (n / 10) hv (by rw [pow_succ] at hn; omega) (by omega)
      simp only [List.length_append, List.length_singleton, fixedDigits]
      rw [← h, show v + 1 - ((decimal f (n / 10)).length + 1) = v - (decimal f (n / 10)).length
        by omega, List.append_assoc]

theorem digitsValue_fixedDigits (w n : Nat) : digitsValue (fixedDigits w n) = n % 10 ^ w := by
  induction w generalizing n with
  | zero => simp [fixedDigits, digitsValue, Nat.mod_one]
  | succ w ih =>
    simp only [fixedDigits]
    rw [digitsValue_append_singleton, ih, toNat_digitChar _ (Nat.mod_lt _ (by decide)), pow_succ,
      Nat.mul_comm (10 ^ w) 10, Nat.mod_mul]
    omega

theorem all_isDigit_fixedDigits (w n : Nat) : (fixedDigits w n).all isDigit = true := by
  induction w generalizing n with
  | zero => rfl
  | succ w ih =>
    simp only [fixedDigits, List.all_append, ih, List.all_cons, List.all_nil, Bool.and_true,
      Bool.true_and]
    exact isDigit_digitChar _ (Nat.mod_lt _ (by decide))

theorem length_fixedDigits (w n : Nat) : (fixedDigits w n).length = w := by
  induction w generalizing n with
  | zero => rfl
  | succ w ih => simp [fixedDigits, ih]

end strconv

namespace time

theorem appendInt_nat (n w : Nat) (hw : 1 ≤ w) (hn : n < 10 ^ w) :
    appendInt (n : Int) w = strconv.fixedDigits w n := by
  unfold appendInt strconv.FormatUint
  have h0 : ¬ ((n : Int) < 0) := by omega
  simp only [h0, if_false, List.nil_append, Int.natAbs_ofNat]
  exact strconv.pad_decimal w (n + 1) n hw hn (by omega)

theorem parseUint_fixedDigits (w n lo hi : Nat) (hn : n < 10 ^ w) (hlo : lo ≤ n) (hhi : n ≤ hi) :
    parseUint (strconv.fixedDigits w n) lo hi = some n := by
  unfold parseUint
  rw [strconv.all_isDigit_fixedDigits, strconv.digitsValue_fixedDigits, Nat.mod_eq_of_lt hn]
  have h1 : ¬ (n < lo ∨ hi < n) := by omega
  simp [h1]

theorem digitsValue_cons (c : Char) (cs : List Char) :
    strconv.digitsValue (c :: cs) = (c.toNat - 48) * 10 ^ cs.length + strconv.digitsValue cs := by
  unfold strconv.digitsValue
  have h : ∀ (l : List Char) (a : Nat),
      l.foldl (fun acc c => acc * 10 + (c.toNat - 48)) a =
        a * 10 ^ l.length + l.foldl (fun acc c => acc * 10 + (c.toNat - 48)) 0 := by
    intro l
    induction l with
    | nil => intro a; simp
    | cons d l ih =>
      intro a
      simp only [List.foldl_cons, List.length_cons]
      rw [ih (a * 10 + (d.toNat - 48)), ih (0 * 10 + (d.toNat - 48))]
      ring
  simp only [List.foldl_cons]
  rw [h cs]
  simp

theorem length_trimZeros_le (ds : List Char) : (trimZeros ds).length ≤ ds.length := by
  induction ds with
  | nil => simp [trimZeros]
  | cons c cs ih =>
    unfold trimZeros
    split
    · split <;> simp
    · simp only [List.length_cons]
      omega

theorem all_trimZeros (p : Char → Bool) (ds : List Char) (h : ds.all p = true) :
    (trimZeros ds).all p = true := by
  induction ds with
  | nil => simp [trimZeros]
  | cons c cs ih =>
    simp only [List.all_cons, Bool.and_eq_true] at h
    unfold trimZeros
    split
    · split
      · rfl
      · simp [h.1]
    · have := ih h.2
      simp [h.1, this]

theorem digitsValue_nil : strconv.digitsValue [] = 0 := rfl

theorem digitsValue_singleton (c : Char) : strconv.digitsValue [c] = c.toNat - 48 := by
  simp [strconv.digitsValue]

theorem digitsValue_trimZeros (ds : List Char) :
    strconv.digitsValue (trimZeros ds) * 10 ^ (ds.length - (trimZeros ds).length) =
      strconv.digitsValue ds := by
  induction ds with
  | nil => simp [trimZeros, digitsValue_nil]
  | cons c cs ih =>
    have hle := length_trimZeros_le cs
    rw [digitsValue_cons c cs]
    unfold trimZeros
    split
    · rename_i heq
      rw [heq] at ih
      have h0 : strconv.digitsValue cs = 0 := by
        rw [← ih, digitsValue_nil]
        simp
      split
      · rename_i hc
        subst hc
        rw [digitsValue_nil, h0]
        simp
      · rw [digitsValue_singleton, h0]
        simp
    · rw [digitsValue_cons c (trimZeros cs)]
      simp only [List.length_cons]
      rw [← ih, show cs.length + 1 - ((trimZeros cs).length + 1) =
        cs.length - (trimZeros cs).length by omega, add_mul, mul_assoc, ← pow_add,
        show (trimZeros cs).length + (cs.length - (trimZeros cs).length) = cs.length by omega]

theorem trimZeros_ne_nil (ds : List Char) (h : strconv.digitsValue ds ≠ 0) :
    trimZeros ds ≠ [] := by
  intro hnil
  have := digitsValue_trimZeros ds
  rw [hnil, digitsValue_nil] at this
  simp at this
  exact h this.symm

end time

namespace time

theorem fixedDigits_two (n : Nat) :
    strconv.fixedDigits 2 n = [strconv.digitChar (n / 10 % 10), strconv.digitChar (n % 10)] := by
  simp [strconv.fixedDigits]

theorem fixedDigits_four (n : Nat) :
    strconv.fixedDigits 4 n =
      [strconv.digitChar (n / 10 / 10 / 10 % 10), strconv.digitChar (n / 10 / 10 % 10),
        strconv.digitChar (n / 10 % 10), strconv.digitChar (n % 10)] := by
  simp [strconv.fixedDigits]

theorem appendNano_cases (nsec : Nat) (hns : nsec < 1000000000) :
    (nsec = 0 ∧ appendNano nsec = []) ∨
    (∃ f T, appendNano nsec = '.' :: f :: T ∧ strconv.isDigit f = true ∧
      T.all strconv.isDigit = true ∧ (f :: T).length ≤ 9 ∧
      strconv.digitsValue (f :: T) * 10 ^ (9 - (f :: T).length) = nsec) := by
  by_cases h0 : nsec = 0
  · exact Or.inl ⟨h0, by simp [appendNano, h0]⟩
  · right
    have hfix : appendInt (nsec : Int) 9 = strconv.fixedDigits 9 nsec :=
      appendInt_nat nsec 9 (by omega) (by omega)
    have hval : strconv.digitsValue (strconv.fixedDigits 9 nsec) = nsec := by
      rw [strconv.digitsValue_fixedDigits, Nat.mod_eq_of_lt (by omega)]
    have hne := trimZeros_ne_nil (strconv.fixedDigits 9 nsec) (by rw [hval]; exact h0)
    have hall := all_trimZeros strconv.isDigit _ (strconv.all_isDigit_fixedDigits 9 nsec)
    have hlen := length_trimZeros_le (strconv.fixedDigits 9 nsec)
    have htv := digitsValue_trimZeros (strconv.fixedDigits 9 nsec)
    rw [strconv.length_fixedDigits] at hlen htv
    rw [hval] at htv
    obtain ⟨f, T, hfT⟩ := List.exists_cons_of_ne_nil hne
    rw [hfT] at hall hlen htv
    simp only [List.all_cons, Bool.and_eq_true] at hall
    refine ⟨f, T, ?_, hall.1, hall.2, hlen, htv⟩
    simp only [appendNano, h0, if_false, hfix, hfT]

theorem appendFormatRFC3339_zone (t : Time) :
    ∃ pre, appendFormatRFC3339 t = pre ++ zoneText t.offset := ⟨_, rfl⟩

theorem zoneText_cases (off : Int) (h1 : off % 60 = 0) (h2 : -86400 < off) (h3 : off < 86400) :
    (off = 0 ∧ zoneText off = ['Z']) ∨
    ∃ sg hh mm, zoneText off = sg :: (strconv.fixedDigits 2 hh ++ ':' :: strconv.fixedDigits 2 mm) ∧
      (sg = '-' ∨ sg = '+') ∧ hh ≤ 23 ∧ mm ≤ 59 ∧
      off = (if sg = '-' then -(((hh * 60 + mm) * 60 : Nat) : Int)
        else (((hh * 60 + mm) * 60 : Nat) : Int)) := by
  by_cases h0 : off = 0
  · exact Or.inl ⟨h0, by simp [zoneText, h0]⟩
  · right
    have hz : Int.tdiv off 60 = off / 60 := Int.tdiv_eq_ediv_of_dvd (Int.dvd_of_emod_eq_zero h1)
    refine ⟨if off / 60 < 0 then '-' else '+', (off / 60).natAbs / 60, (off / 60).natAbs % 60,
      ?_, ?_, by omega, by omega, ?_⟩
    · unfold zoneText
      simp only [h0, if_false, hz]
      rw [appendInt_nat _ 2 (by omega) (by omega), appendInt_nat _ 2 (by omega) (by omega)]
      rfl
    · by_cases hn : off / 60 < 0 <;> simp [hn]
    · by_cases hn : off / 60 < 0
      · simp only [hn, if_true]
        omega
      · simp only [hn, if_false, show ¬ ('+' = '-') by decide]
        omega

theorem parseZone_zoneText (off : Int) (h1 : off % 60 = 0) (h2 : -86400 < off)
    (h3 : off < 86400) : parseZone (zoneText off) = some off := by
  rcases zoneText_cases off h1 h2 h3 with ⟨h0, hz⟩ | ⟨sg, hh, mm, hz, hsg, hhh, hmm, hoff⟩
  · rw [hz, h0]
    decide
  · rw [hz]
    have ph := parseUint_fixedDigits 2 hh 0 23 (by omega) (by omega) hhh
    have pm := parseUint_fixedDigits 2 mm 0 59 (by omega) (by omega) hmm
    simp only [fixedDigits_two] at ph pm ⊢
    simp only [List.cons_append, List.nil_append]
    unfold parseZone
    simp only [ph, pm, hsg, and_self, if_true]
    rw [hoff]

theorem zoneText_head (off : Int) (h1 : off % 60 = 0) (h2 : -86400 < off) (h3 : off < 86400) :
    ∃ c rest, zoneText off = c :: rest ∧ strconv.isDigit c = false ∧ c ≠ '.' := by
  rcases zoneText_cases off h1 h2 h3 with ⟨_, hz⟩ | ⟨sg, hh, mm, hz, hsg, _, _, _⟩
  · exact ⟨'Z', [], hz, by decide, by decide⟩
  · refine ⟨sg, _, hz, ?_, ?_⟩
    · rcases hsg with h | h <;> subst h <;> decide
    · rcases hsg with h | h <;> subst h <;> decide


/-- The text of a representable timestamp: fixed-width fields, the fraction, the zone. -/
theorem appendFormatRFC3339_eq (t : Time) (y : Nat) (hy : t.year = (y : Int))
    (h : t.representable) :
    appendFormatRFC3339 t =
      strconv.fixedDigits 4 y ++ '-' :: (strconv.fixedDigits 2 t.month ++ '-' ::
        (strconv.fixedDigits 2 t.day ++ 'T' :: (strconv.fixedDigits 2 t.hour ++ ':' ::
          (strconv.fixedDigits 2 t.minute ++ ':' :: (strconv.fixedDigits 2 t.second ++
            (appendNano t.nsec ++ zoneText t.offset)))))) := by
  obtain ⟨⟨hm1, hm2, hd1, hd2, hh, hmi, hs, hns⟩, hy0, hy1, _⟩ := h
  have hd3 : t.day ≤ 31 := by
    have : daysIn t.month t.year ≤ 31 := by
      unfold daysIn
      repeat' split
      all_goals omega
    omega
  obtain ⟨pre, hpre⟩ := appendFormatRFC3339_zone t
  have hz : zoneText t.offset = (if t.offset = 0 then ['Z']
     else
      let zone := Int.tdiv t.offset 60
      (if zone < 0 then '-' else '+') ::
        appendInt (zone.natAbs / 60 : Nat) 2 ++ ':' :: appendInt (zone.natAbs % 60 : Nat) 2) := rfl
  unfold appendFormatRFC3339
  rw [← hz, hy, appendInt_nat y 4 (by omega) (by omega),
    appendInt_nat t.month 2 (by omega) (by omega),
    appendInt_nat t.day 2 (by omega) (by omega), appendInt_nat t.hour 2 (by omega) (by omega),
    appendInt_nat t.minute 2 (by omega) (by omega),
    appendInt_nat t.second 2 (by omega) (by omega)]
  simp only [List.append_assoc, List.cons_append]

/-- Parsing the text of a representable timestamp gives the timestamp back. -/
theorem parseRFC3339_appendFormat (t : Time) (h : t.representable) :
    parseRFC3339 (appendFormatRFC3339 t) = some t := by
  obtain ⟨y, hy⟩ : ∃ y : Nat, t.year = (y : Int) := ⟨t.year.toNat, by
    have := h.2.1
    omega⟩
  rw [appendFormatRFC3339_eq t y hy h]
  obtain ⟨⟨hm1, hm2, hd1, hd2, hh, hmi, hs, hns⟩, hy0, hy1, ho1, ho2, ho3⟩ := h
  have hd3 : t.day ≤ 31 := by
    have : daysIn t.month t.year ≤ 31 := by
      unfold daysIn
      repeat' split
      all_goals omega
    omega
  have py := parseUint_fixedDigits 4 y 0 9999 (by omega) (by omega) (by omega)
  have pm := parseUint_fixedDigits 2 t.month 1 12 (by omega) hm1 hm2
  have pd := parseUint_fixedDigits 2 t.day 1 (daysIn t.month (y : Int)) (by omega) hd1
    (by rw [← hy]; exact hd2)
  have ph := parseUint_fixedDigits 2 t.hour 0 23 (by omega) (by omega) hh
  have pmi := parseUint_fixedDigits 2 t.minute 0 59 (by omega) (by omega) hmi
  have ps := parseUint_fixedDigits 2 t.second 0 59 (by omega) (by omega) hs
  have pz := parseZone_zoneText t.offset ho1 ho2 ho3
  obtain ⟨c, zrest, hzc, hcd, hcp⟩ := zoneText_head t.offset ho1 ho2 ho3
  simp only [fixedDigits_four, fixedDigits_two] at py pm pd ph pmi ps ⊢
  simp only [List.cons_append, List.nil_append]
  unfold parseRFC3339
  simp only [py, pm, pd, ph, pmi, ps, and_self, if_true]
  rcases appendNano_cases t.nsec hns with ⟨hz, hnano⟩ | ⟨f, T, hnano, hf, hT, hlen, hval⟩
  · rw [hnano]
    simp only [List.nil_append]
    rw [hzc] at pz ⊢
    cases zrest with
    | nil =>
      simp only [pz, if_true]
      cases t
      simp_all
    | cons f rest2 =>
      simp only [hcp, false_and, if_false, pz, if_true]
      cases t
      simp_all
  · rw [hnano, hzc]
    obtain ⟨htw, hdw⟩ := strconv.takeWhile_append_stop strconv.isDigit T c zrest hT hcd
    have htake : (f :: T).take 9 = f :: T := List.take_of_length_le hlen
    rw [hzc] at pz
    simp only [List.cons_append, hf, and_self, if_true, List.takeWhile_cons, List.dropWhile_cons,
      htw, hdw, pz, parseNanoseconds, htake, hval]
    cases t
    simp_all

end time

namespace json

theorem toNat_digitChar_add : ∀ d : Fin 10,
    (strconv.digitChar d.val).toNat = 48 + d.val ∧
    escapeRune (strconv.digitChar d.val) = [strconv.digitChar d.val] := by decide

theorem escapeRune_of_isDigit (c : Char) (h : strconv.isDigit c = true) : escapeRune c = [c] := by
  have h2 : 48 ≤ c.toNat ∧ c.toNat ≤ 57 := by
    simp only [strconv.isDigit, decide_eq_true_eq] at h
    exact ⟨h.1, h.2⟩
  have hd := toNat_digitChar_add ⟨c.toNat - 48, by omega⟩
  have hc : c = strconv.digitChar (c.toNat - 48) := by
    apply char_eq_of_toNat
    rw [hd.1]
    simp only
    omega
  rw [hc]
  exact hd.2

theorem flatMap_escapeRune_of_all (l : List Char) (h : ∀ c ∈ l, escapeRune c = [c]) :
    l.flatMap escapeRune = l := by
  induction l with
  | nil => rfl
  | cons c cs ih =>
    simp only [List.flatMap_cons, h c (List.mem_cons_self _ _),
      ih (fun d hd => h d (List.mem_cons_of_mem _ hd))]
    rfl

theorem plain_of_all_isDigit (l : List Char) (h : l.all strconv.isDigit = true) :
    ∀ c ∈ l, escapeRune c = [c] := by
  intro c hc
  exact escapeRune_of_isDigit c (List.all_eq_true.mp h c hc)

theorem zoneText_plain (off : Int) (h1 : off % 60 = 0) (h2 : -86400 < off) (h3 : off < 86400) :
    ∀ c ∈ time.zoneText off, escapeRune c = [c] := by
  have hfix : ∀ w n, ∀ c ∈ strconv.fixedDigits w n, escapeRune c = [c] :=
    fun w n => plain_of_all_isDigit _ (strconv.all_isDigit_fixedDigits w n)
  rcases time.zoneText_cases off h1 h2 h3 with ⟨_, hz⟩ | ⟨sg, hh, mm, hz, hsg, _, _, _⟩
  · rw [hz]
    intro c hc
    simp only [List.mem_singleton] at hc
    subst hc
    decide
  · rw [hz]
    intro c hc
    simp only [List.mem_append, List.mem_cons] at hc
    rcases hc with hc | hc | hc | hc
    · subst hc
      rcases hsg with h | h <;> subst h <;> decide
    · exact hfix _ _ c hc
    · subst hc; decide
    · exact hfix _ _ c hc

/-- The text of a representable timestamp holds no character the encoder escapes. -/
theorem appendFormatRFC3339_plain (t : time.Time) (h : t.representable) :
    (time.appendFormatRFC3339 t).flatMap escapeRune = time.appendFormatRFC3339 t := by
  obtain ⟨y, hy⟩ : ∃ y : Nat, t.year = (y : Int) := ⟨t.year.toNat, by
    have := h.2.1
    omega⟩
  rw [time.appendFormatRFC3339_eq t y hy h]
  apply flatMap_escapeRune_of_all
  have hfix : ∀ w n, ∀ c ∈ strconv.fixedDigits w n, escapeRune c = [c] :=
    fun w n => plain_of_all_isDigit _ (strconv.all_isDigit_fixedDigits w n)
  have hzone := zoneText_plain t.offset h.2.2.2.1 h.2.2.2.2.1 h.2.2.2.2.2
  have hnano : ∀ c ∈ time.appendNano t.nsec, escapeRune c = [c] := by
    rcases time.appendNano_cases t.nsec h.1.2.2.2.2.2.2.2 with ⟨_, hn⟩ | ⟨f, T, hn, hf, hT, _, _⟩
    · rw [hn]
      intro c hc
      cases hc
    · rw [hn]
      intro c hc
      rcases List.mem_cons.mp hc with hc | hc
      · subst hc; decide
      · rcases List.mem_cons.mp hc with hc | hc
        · subst hc; exact escapeRune_of_isDigit _ hf
        · exact plain_of_all_isDigit T hT c hc
  intro c hc
  simp only [List.mem_append, List.mem_cons] at hc
  rcases hc with hc | hc | hc | hc | hc | hc | hc | hc | hc | hc | hc | hc | hc
  · exact hfix _ _ c hc
  · subst hc; decide
  · exact hfix _ _ c hc
  · subst hc; decide
  · exact hfix _ _ c hc
  · subst hc; decide
  · exact hfix _ _ c hc
  · subst hc; decide
  · exact hfix _ _ c hc
  · subst hc; decide
  · exact hfix _ _ c hc
  · exact hnano c hc
  · exact hzone c hc

/-- The zone of a representable timestamp passes the test of `appendStrictRFC3339`. -/
theorem strict_zone (pre : List Char) (off : Int) (h1 : off % 60 = 0) (h2 : -86400 < off)
    (h3 : off < 86400) :
    ¬ ((pre ++ time.zoneText off).getLast? ≠ some 'Z' ∧
      (strconv.isDigit ((pre ++ time.zoneText off).getD
          ((pre ++ time.zoneText off).length - 6) ' ') = true ∨
        10 * (((pre ++ time.zoneText off).getD
            ((pre ++ time.zoneText off).length - 5) '0').toNat - 48) +
          (((pre ++ time.zoneText off).getD
            ((pre ++ time.zoneText off).length - 4) '0').toNat - 48) ≥ 24)) := by
  rcases time.zoneText_cases off h1 h2 h3 with ⟨_, hz⟩ | ⟨sg, hh, mm, hz, hsg, hhh, _, _⟩
  · rw [hz]
    simp
  · rw [hz, time.fixedDigits_two, time.fixedDigits_two]
    simp only [List.cons_append, List.nil_append, List.length_append, List.length_cons,
      List.length_nil]
    have e6 : pre.length + (0 + 1 + 1 + 1 + 1 + 1 + 1) - 6 = pre.length := by omega
    have e5 : pre.length + (0 + 1 + 1 + 1 + 1 + 1 + 1) - 5 = pre.length + 1 := by omega
    have e4 : pre.length + (0 + 1 + 1 + 1 + 1 + 1 + 1) - 4 = pre.length + 2 := by omega
    rw [e6, e5, e4, List.getD_append_right _ _ _ _ (le_refl _),
      List.getD_append_right _ _ _ _ (Nat.le_add_right _ 1),
      List.getD_append_right _ _ _ _ (Nat.le_add_right _ 2)]
    simp only [Nat.sub_self, Nat.add_sub_cancel_left, List.getD_cons_zero, List.getD_cons_succ]
    have hsd : strconv.isDigit sg = false := by
      rcases hsg with h | h <;> subst h <;> decide
    rw [hsd, strconv.toNat_digitChar _ (Nat.mod_lt _ (by decide)),
      strconv.toNat_digitChar _ (Nat.mod_lt _ (by decide))]
    intro hcon
    rcases hcon.2 with h | h
    · cases h
    · omega

theorem MarshalJSON_ok (t : time.Time) (h : t.representable) :
    time.MarshalJSON t = .ok ('"' :: (time.appendFormatRFC3339 t ++ ['"'])) := by
  obtain ⟨y, hy⟩ : ∃ y : Nat, t.year = (y : Int) := ⟨t.year.toNat, by
    have := h.2.1
    omega⟩
  have hf := time.appendFormatRFC3339_eq t y hy h
  have h4 : (time.appendFormatRFC3339 t).getD 4 ' ' = '-' := by
    rw [hf, time.fixedDigits_four]
    rfl
  obtain ⟨pre, hpre⟩ := time.appendFormatRFC3339_zone t
  have hs := strict_zone pre t.offset h.2.2.2.1 h.2.2.2.2.1 h.2.2.2.2.2
  rw [← hpre] at hs
  unfold time.MarshalJSON time.appendStrictRFC3339
  simp only [h4, ne_eq, not_true_eq_false, if_false, List.cons_append]
  rw [if_neg hs]

/-- The scanner reads the text of a representable timestamp back as a string value
whose raw text is the timestamp. -/
theorem scansAs_time (t : time.Time) (h : t.representable) :
    ScansAs ('"' :: (time.appendFormatRFC3339 t ++ ['"']))
      (.string (time.appendFormatRFC3339 t) (time.appendFormatRFC3339 t)) := by
  have hq := scansAs_quoteText (time.appendFormatRFC3339 t)
  simp only [appendFormatRFC3339_plain t h] at hq
  exact hq

/-- The text the encoder writes for a link, member by member. -/
theorem MarshalLink_eq (l : Link) (h : l.Date.representable) :
    MarshalLink l =
      .ok ('\x7b' :: objectTail [("uid", quote l.UID), ("path", quote l.Path),
        ("name", quote l.Name), ("ext", quote l.Ext), ("mime", quote l.MIME),
        ("date", '"' :: (time.appendFormatRFC3339 l.Date ++ ['"']))]) := by
  unfold MarshalLink
  rw [MarshalJSON_ok l.Date h]
  simp only [objectTail, memberText, List.append_assoc, List.cons_append]
  rfl

/-- The importer decodes from the text the exporter writes for a link with a
representable timestamp the link with every string recoded: the same link
when the strings are valid UTF-8. -/
theorem link_codec_round_trip (l : Link) (h : l.Date.representable) :
    ∃ text, EncodeLink l = .ok text ∧
      DecodeLink text = .ok ⟨recode l.UID, recode l.Path, recode l.Name, recode l.Ext,
        recode l.MIME, l.Date⟩ := by
  have hm := MarshalLink_eq l h
  refine ⟨String.mk ('\x7b' :: objectTail [("uid", quote l.UID), ("path", quote l.Path),
        ("name", quote l.Name), ("ext", quote l.Ext), ("mime", quote l.MIME),
        ("date", '"' :: (time.appendFormatRFC3339 l.Date ++ ['"']))] ++ ['\n']), ?_, ?_⟩
  · unfold EncodeLink
    rw [hm]
  · unfold DecodeLink
    have hr := readValue_object
      [("uid", quote l.UID, .string (escapeString l.UID.length l.UID)
          ((utf8.runes l.UID.length l.UID).map (·.1))),
        ("path", quote l.Path, .string (escapeString l.Path.length l.Path)
          ((utf8.runes l.Path.length l.Path).map (·.1))),
        ("name", quote l.Name, .string (escapeString l.Name.length l.Name)
          ((utf8.runes l.Name.length l.Name).map (·.1))),
        ("ext", quote l.Ext, .string (escapeString l.Ext.length l.Ext)
          ((utf8.runes l.Ext.length l.Ext).map (·.1))),
        ("mime", quote l.MIME, .string (escapeString l.MIME.length l.MIME)
          ((utf8.runes l.MIME.length l.MIME).map (·.1))),
        ("date", '"' :: (time.appendFormatRFC3339 l.Date ++ ['"']),
          .string (time.appendFormatRFC3339 l.Date) (time.appendFormatRFC3339 l.Date))]
      ['\n'] (by simp) (by simp)
      (by
        intro f hf
        simp only [List.mem_cons, List.mem_singleton, List.not_mem_nil, or_false] at hf
        rcases hf with hf | hf | hf | hf | hf | hf <;> subst hf
        · exact ⟨by dsimp only; decide, scansAs_quote _⟩
        · exact ⟨by dsimp only; decide, scansAs_quote _⟩
        · exact ⟨by dsimp only; decide, scansAs_quote _⟩
        · exact ⟨by dsimp only; decide, scansAs_quote _⟩
        · exact ⟨by dsimp only; decide, scansAs_quote _⟩
        · exact ⟨by dsimp only; decide, scansAs_time _ h⟩)
    simp only [List.map_cons, List.map_nil, List.cons_append] at hr
    simp only [List.cons_append]
    rw [hr]
    have e1 : foldEq "uid".data "uid" = true := by decide
    have e2 : foldEq "path".data "uid" = false := by decide
    have e3 : foldEq "path".data "path" = true := by decide
    have e4 : foldEq "name".data "uid" = false := by decide
    have e5 : foldEq "name".data "path" = false := by decide
    have e6 : foldEq "name".data "name" = true := by decide
    have e7 : foldEq "ext".data "uid" = false := by decide
    have e8 : foldEq "ext".data "path" = false := by decide
    have e9 : foldEq "ext".data "name" = false := by decide
    have e10 : foldEq "ext".data "ext" = true := by decide
    have e11 : foldEq "mime".data "uid" = false := by decide
    have e12 : foldEq "mime".data "path" = false := by decide
    have e13 : foldEq "mime".data "name" = false := by decide
    have e14 : foldEq "mime".data "ext" = false := by decide
    have e15 : foldEq "mime".data "mime" = true := by decide
    have e16 : foldEq "date".data "uid" = false := by decide
    have e17 : foldEq "date".data "path" = false := by decide
    have e18 : foldEq "date".data "name" = false := by decide
    have e19 : foldEq "date".data "ext" = false := by decide
    have e20 : foldEq "date".data "mime" = false := by decide
    have e21 : foldEq "date".data "date" = true := by decide
    simp only [bindLink, setLinkField, e1, e2, e3, e4, e5, e6, e7, e8, e9, e10, e11, e12, e13,
      e14, e15, e16, e17, e18, e19, e20, e21, if_true, if_false, Bool.false_eq_true, storeString,
      storeTime, time.UnmarshalJSON, time.parseRFC3339_appendFormat l.Date h, Except.map, recode]

theorem recode_of_valid (s : GoString) (h : utf8.ValidString s = true) : recode s = s :=
  utf8.flatMap_AppendRune_runes s.length s (le_refl _) ((utf8.valid_iff s).mp h)

end json


/-! ## Lemmas for the round trip of one link -/

namespace FS

theorem mem_splitSlash (s : GoString) :
    ∀ c ∈ splitSlash s, slash ∉ c ∧ ∀ x ∈ c, x ∈ s := by
  induction s with
  | nil =>
    intro c hc
    simp only [splitSlash, List.mem_singleton] at hc
    subst hc
    exact ⟨List.not_mem_nil _, fun x hx => hx⟩
  | cons b bs ih =>
    intro c hc
    unfold splitSlash at hc
    split at hc
    · rcases List.mem_cons.mp hc with hc | hc
      · subst hc
        exact ⟨List.not_mem_nil _, fun x hx => absurd hx (List.not_mem_nil _)⟩
      · exact ⟨(ih c hc).1, fun x hx => List.mem_cons_of_mem _ ((ih c hc).2 x hx)⟩
    · rename_i hb
      split at hc
      · simp only [List.mem_singleton] at hc
        subst hc
        refine ⟨?_, fun x hx => ?_⟩
        · simpa using Ne.symm hb
        · simp only [List.mem_singleton] at hx
          subst hx
          exact List.mem_cons_self _ _
      · rename_i h t heq
        rcases List.mem_cons.mp hc with hc | hc
        · subst hc
          have hh := ih h (by rw [heq]; exact List.mem_cons_self _ _)
          refine ⟨?_, fun x hx => ?_⟩
          · intro hm
            rcases List.mem_cons.mp hm with hm | hm
            · exact hb hm.symm
            · exact hh.1 hm
          · rcases List.mem_cons.mp hx with hx | hx
            · subst hx
              exact List.mem_cons_self _ _
            · exact List.mem_cons_of_mem _ (hh.2 x hx)
        · have hh := ih c (by rw [heq]; exact List.mem_cons_of_mem _ hc)
          exact ⟨hh.1, fun x hx => List.mem_cons_of_mem _ (hh.2 x hx)⟩

theorem splitSlash_ne_nil (s : GoString) : splitSlash s ≠ [] := by
  cases s with
  | nil => simp [splitSlash]
  | cons b bs =>
    unfold splitSlash
    split
    · simp
    · split <;> simp

/-- The last component of a path that ends in a text without a separator ends in that text. -/
theorem getLast_splitSlash_append (a b : GoString) (hb : slash ∉ b) :
    ∃ v, (splitSlash (a ++ b)).getLast? = some (v ++ b) := by
  induction a with
  | nil =>
    refine ⟨[], ?_⟩
    rw [List.nil_append, splitSlash_of_no_slash b hb]
    rfl
  | cons c cs ih =>
    obtain ⟨v, hv⟩ := ih
    simp only [List.cons_append]
    unfold splitSlash
    split
    · refine ⟨v, ?_⟩
      rw [List.getLast?_cons, hv]
      rfl
    · split
      · rename_i heq
        exact absurd heq (splitSlash_ne_nil _)
      · rename_i h t heq
        rw [heq] at hv
        cases t with
        | nil =>
          simp only [List.getLast?_singleton, Option.some.injEq] at hv
          exact ⟨c :: v, by simp [hv]⟩
        | cons t1 ts =>
          refine ⟨v, ?_⟩
          simpa [List.getLast?_cons_cons] using hv

end FS

/-- A path that ends in `.json` resolves to an entry under a plain name. -/
theorem resolve_json (root : FS) (x : GoString) (p : List GoString)
    (h : FS.resolve root (x ++ lit ".json") = .ok p) :
    ∃ stack c, p = stack ++ [c] ∧ PlainDir c := by
  obtain ⟨v, hv⟩ := FS.getLast_splitSlash_append x (lit ".json") (by decide)
  have hmem : v ++ lit ".json" ∈ FS.splitSlash (x ++ lit ".json") := List.mem_of_getLast?_eq_some hv
  obtain ⟨hns, hsub⟩ := FS.mem_splitSlash _ _ hmem
  obtain ⟨hn1, hn2⟩ := jsonName_ne v
  unfold FS.resolve at h
  split at h
  · cases h
  · rename_i hnul
    simp only [FS.components, hv] at h
    split at h
    · cases h
    · rename_i stack _
      simp only [hn1, hn2, if_false] at h
      split at h
      · cases h
      · rename_i hshort
        split at h
        · simp only [Except.ok.injEq] at h
          exact ⟨stack, v ++ lit ".json", h.symm, hns, fun h0 => hnul (hsub _ h0), hn1, hn2,
            eq_false hshort⟩
        · cases h

theorem resolve_name_ok (fs : FS) (d n : GoString) (hd : PlainDir d) (hn : PlainDir n)
    (el : List (GoString × Node)) (hl : fs.lookup [d] = some (.dir true el)) :
    FS.resolve fs (d ++ lit "/" ++ n) = .ok [d, n] := by
  have hsl : lit "/" = [FS.slash] := by decide
  have hpath : d ++ lit "/" ++ n = d ++ FS.slash :: n := by simp [hsl]
  have hc := FS.components_in_dir d _ n hd.noSlash hpath hn.noSlash
  have h0 : (0 : Byte) ∉ d ++ lit "/" ++ n := by
    rw [hpath]
    intro hm
    rcases List.mem_append.mp hm with hm | hm
    · exact hd.noNul hm
    · rcases List.mem_cons.mp hm with hm | hm
      · revert hm; decide
      · exact hn.noNul hm
  unfold FS.resolve
  simp only [h0, if_false, hc, List.dropLast_cons₂, List.dropLast_single, FS.walk, hd.notEmpty,
    hd.notUp, hd.short, List.nil_append, hl, if_true, List.getLast?_cons_cons,
    List.getLast?_singleton, hn.notEmpty, hn.notUp, hn.short]
  rfl


theorem Open_staged (es el : List (GoString × Node)) (d n : GoString)
    (hd : PlainDir d) (hn : PlainDir n)
    (hl : es.lookup d = some (.dir true el)) (text : String)
    (hfile : el.lookup n = some (.file true text)) :
    os.Open (.dir true es) (d ++ lit "/" ++ n) =
      .ok ⟨d ++ lit "/" ++ n, [d, n], .file true text⟩ := by
  have hl2 : Node.lookup (.dir true es) [d] = some (.dir true el) := by
    rw [lookup_dir_single, hl]
  unfold os.Open
  rw [resolve_name_ok (.dir true es) d n hd hn el hl2]
  have hlook : Node.lookup (.dir true es) [d, n] = some (.file true text) := by
    simp only [Node.lookup, hl, hfile]
  simp only [hlook, if_true]

theorem Lstat_plainDir (es : List (GoString × Node)) (d : GoString) (hd : PlainDir d) (n : Node)
    (hl : es.lookup d = some n) : os.Lstat (.dir true es) d = .ok n := by
  unfold os.Lstat
  rw [resolve_plainDir es d hd]
  simp only [lookup_dir_single, hl]

/-- The staging area after the dump of one link whose file is the entry `n` of
the links directory. -/
theorem dumpMySQL_single (l : Link) (n : GoString) (text : String)
    (hpath : FS.resolve linksOnlyStaging (lit "links/" ++ l.UID ++ lit ".json") =
      .ok [lit "links", n])
    (henc : json.EncodeLink l = .ok text) :
    dumpMySQL (sql.MySQL.ofRows [l] []) FS.empty =
      (none, .dir true [(lit "links", .dir true [(n, .file true text)]),
        (lit "thumbnails", .dir true [])]) := by
  have hE : FS.empty = .dir true [] := rfl
  have hS : linksOnlyStaging = .dir true [(lit "links", .dir true [])] := rfl
  rw [hS] at hpath
  have hc : os.Create (.dir true [(lit "links", .dir true [])])
      (lit "links/" ++ l.UID ++ lit ".json") =
      .ok (⟨lit "links/" ++ l.UID ++ lit ".json", [lit "links", n], .file true ""⟩,
        .dir true [(lit "links", .dir true [(n, .file true "")])]) := by
    unfold os.Create
    rw [hpath]
    simp [Node.lookup, List.lookup, Node.put, Node.setEntry, Node.nameLt_irrefl]
  have hlinks : dumpLinksPhase (sql.MySQL.ofRows [l] []) (.dir true []) =
      (none, .dir true [(lit "links", .dir true [(n, .file true text)])]) := by
    unfold dumpLinksPhase
    simp only [Mkdir_fresh [] (lit "links") plainDir_links rfl, mkdirLinksCheck, sql.MySQL.ofRows,
      List.map_cons, List.map_nil, dumpLinkRows, Node.setEntry, hc, henc, os.File.WriteString,
      Node.put, List.lookup, beq_self_eq_true, Node.nameLt_irrefl, Bool.false_eq_true, if_false,
      if_true]
  have hthumbs : dumpThumbnailsPhase (sql.MySQL.ofRows [l] [])
      (.dir true [(lit "links", .dir true [(n, .file true text)])]) =
      (none, .dir true [(lit "links", .dir true [(n, .file true text)]),
        (lit "thumbnails", .dir true [])]) := by
    unfold dumpThumbnailsPhase
    have hlt : Node.nameLt (lit "thumbnails") (lit "links") = false := by decide
    have hne : (lit "thumbnails" = lit "links") = False := by decide
    have hmk := Mkdir_fresh [(lit "links", .dir true [(n, .file true text)])]
      (lit "thumbnails") plainDir_thumbnails (by
        have : (lit "thumbnails" == lit "links") = false := by decide
        simp [List.lookup, this])
    simp only [hmk, mkdirThumbnailsCheck,
      sql.MySQL.ofRows, List.map_nil, dumpThumbnailRows, Node.setEntry, hlt, hne,
      Bool.false_eq_true, if_false]
  rw [hE]
  unfold dumpMySQL
  simp only [hlinks, hthumbs]
  rfl

/-- The plan of the restore from the staging area of one dumped link: insert
the link the file decodes to. -/
theorem restorePlan_single (l : Link) (n : GoString) (text : String) (hn : PlainDir n)
    (hdec : json.DecodeLink text = .ok l) :
    restorePlan sql.PgEnv.healthy
      (.dir true [(lit "links", .dir true [(n, .file true text)]),
        (lit "thumbnails", .dir true [])]) = .ok ([l], []) := by
  have hl1 : List.lookup (lit "links")
      [(lit "links", Node.dir true [(n, Node.file true text)]),
        (lit "thumbnails", Node.dir true [])] =
      some (.dir true [(n, .file true text)]) := by
    simp [List.lookup]
  have hl2 : List.lookup (lit "thumbnails")
      [(lit "links", Node.dir true [(n, Node.file true text)]),
        (lit "thumbnails", Node.dir true [])] = some (.dir true []) := by
    have : (lit "thumbnails" == lit "links") = false := by decide
    simp [List.lookup, this]
  have hv1 : filepath.rootVisits
      (.dir true [(lit "links", .dir true [(n, .file true text)]),
        (lit "thumbnails", .dir true [])]) (lit "links") =
      [(lit "links", true, none), (lit "links" ++ lit "/" ++ n, false, none)] := by
    unfold filepath.rootVisits
    rw [Lstat_plainDir _ (lit "links") plainDir_links _ hl1]
    simp [filepath.visits, filepath.visitsEntries]
  have hv2 : filepath.rootVisits
      (.dir true [(lit "links", .dir true [(n, .file true text)]),
        (lit "thumbnails", .dir true [])]) (lit "thumbnails") =
      [(lit "thumbnails", true, none)] := by
    unfold filepath.rootVisits
    rw [Lstat_plainDir _ (lit "thumbnails") plainDir_thumbnails _ hl2]
    simp [filepath.visits, filepath.visitsEntries]
  have hopen := Open_staged
    [(lit "links", .dir true [(n, .file true text)]), (lit "thumbnails", .dir true [])]
    [(n, .file true text)] (lit "links") n plainDir_links hn hl1 text
    (by simp [List.lookup])
  unfold restorePlan
  simp only [hv1, hv2, sql.PgEnv.healthy, planVisits, linkAction, thumbnailAction, hopen,
    os.File.ReadAll, hdec, if_true, Bool.false_eq_true, if_false, Option.toList,
    List.nil_append, List.cons_append, List.append_nil]

/-- A uid that is a file name (no separator, no NUL byte, `<uid>.json` at most
255 bytes long) names the entry `<uid>.json` of the links directory. -/
theorem resolve_link_path (u : GoString) (hu : FS.slash ∉ u) (hnul : (0 : Byte) ∉ u)
    (hshort : (u ++ lit ".json").length ≤ FS.NAME_MAX) :
    FS.resolve linksOnlyStaging (lit "links/" ++ u ++ lit ".json") =
      .ok [lit "links", u ++ lit ".json"] :=
  resolve_in_dir_ok linksOnlyStaging (lit "links") _ u plainDir_links (linkPath_data u) hu hnul
    hshort [] rfl

/-- A `time.Time` can hold timestamps that RFC 3339 cannot write; the source,
opened with `parseTime=true`, never delivers one.  For a link row built with
such a date the round trip fails: the encoder refuses the year 10000 and a
zone a day off UTC, and a zone thirty seconds off UTC comes back as `+00:00`,
another instant. -/
theorem link_dates_outside_rfc3339 :
    ((dumpMySQL (sql.MySQL.ofRows [lateLink] []) FS.empty).1 =
        some (.jsonError "Time.MarshalJSON") ∧
      ¬ linkRoundTrip lateLink) ∧
    ((dumpMySQL (sql.MySQL.ofRows [dayZoneLink] []) FS.empty).1 =
        some (.jsonError "Time.MarshalJSON") ∧
      ¬ linkRoundTrip dayZoneLink) ∧
    (restorePostgreSQL sql.PgEnv.healthy
        (dumpMySQL (sql.MySQL.ofRows [halfMinuteLink] []) FS.empty).2 sql.DB.empty =
        (none, ⟨[exampleLink], []⟩) ∧
      ¬ linkRoundTrip halfMinuteLink) := by
  refine ⟨⟨by decide, by decide⟩, ⟨by decide, by decide⟩, ⟨by decide, by decide⟩⟩

/-! ## The claims -/

/-- C1, as the code has it: for every link row whose uid is a file name (no
path separator, no NUL byte, `<uid>.json` no longer than a file name may
be), whose five strings are valid UTF-8 and whose date RFC 3339 can write (a
valid time, year 0 to 9999, zone offset of whole minutes and less than a
day, as is every date the source delivers), the dump from a source that
holds this one row into an empty working directory succeeds, the restore
from the staging area it leaves into an empty destination succeeds, and the
destination then holds exactly this row, equal in all six fields. -/
theorem link_round_trip (l : Link) (hslash : FS.slash ∉ l.UID) (hnul : (0 : Byte) ∉ l.UID)
    (hshort : (l.UID ++ lit ".json").length ≤ FS.NAME_MAX)
    (huid : utf8.ValidString l.UID = true) (hp : utf8.ValidString l.Path = true)
    (hname : utf8.ValidString l.Name = true) (hext : utf8.ValidString l.Ext = true)
    (hmime : utf8.ValidString l.MIME = true)
    (hdate : l.Date.representable) : linkRoundTrip l := by
  obtain ⟨text, henc, hdec⟩ := json.link_codec_round_trip l hdate
  rw [json.recode_of_valid _ huid, json.recode_of_valid _ hp, json.recode_of_valid _ hname,
    json.recode_of_valid _ hext, json.recode_of_valid _ hmime] at hdec
  have hpath := resolve_link_path l.UID hslash hnul hshort
  obtain ⟨stack, c, hsc, hplain⟩ := resolve_json _ (lit "links/" ++ l.UID) _
    (by rw [List.append_assoc] at hpath ⊢; exact hpath)
  have hcn : c = l.UID ++ lit ".json" := by
    have := congrArg List.getLast? hsc
    simpa using this.symm
  subst hcn
  unfold linkRoundTrip
  rw [dumpMySQL_single l _ text hpath henc]
  refine ⟨rfl, ?_⟩
  rw [restorePostgreSQL_eq_plan, restorePlan_single l _ text hplain hdec]
  rfl

/-- Counterexample to C1 as stated, one row for each condition the claim
leaves out.  The row with uid `a/b` cannot be dumped: `os.Create` fails
because `links/a` is missing.  Neither can the row whose uid holds NUL, nor
the row whose file name would be 256 bytes long.  The row whose path ends
in the byte 0xff is dumped and restored, but the encoder wrote the escape
`\ufffd` for that byte and the row comes back with the three bytes of
U+FFFD in its place; the same happens to a uid with that byte. -/
theorem link_round_trip_counterexample :
    ((dumpMySQL (sql.MySQL.ofRows [slashLink] []) FS.empty).1 =
        some (.PathError "open" (lit "links/a/b.json") (.Errno syscall.ENOENT)) ∧
      ¬ linkRoundTrip slashLink) ∧
    ((dumpMySQL (sql.MySQL.ofRows [nulLink] []) FS.empty).1 =
        some (.PathError "open" (lit "links/" ++ nulLink.UID ++ lit ".json")
          (.Errno syscall.EINVAL)) ∧
      ¬ linkRoundTrip nulLink) ∧
    ((dumpMySQL (sql.MySQL.ofRows [longLink] []) FS.empty).1 =
        some (.PathError "open" (lit "links/" ++ longLink.UID ++ lit ".json")
          (.Errno syscall.ENAMETOOLONG)) ∧
      ¬ linkRoundTrip longLink) ∧
    (restorePostgreSQL sql.PgEnv.healthy
        (dumpMySQL (sql.MySQL.ofRows [brokenPathLink] []) FS.empty).2 sql.DB.empty =
        (none, ⟨[{ exampleLink with Path := lit "/f/" ++ [239, 191, 189] }], []⟩) ∧
      ¬ linkRoundTrip brokenPathLink) ∧
    (restorePostgreSQL sql.PgEnv.healthy
        (dumpMySQL (sql.MySQL.ofRows [brokenUidLink] []) FS.empty).2 sql.DB.empty =
        (none, ⟨[{ exampleLink with UID := lit "a" ++ [239, 191, 189] }], []⟩) ∧
      ¬ linkRoundTrip brokenUidLink) := by
  refine ⟨⟨by decide, by decide⟩, ⟨by decide, by decide⟩, ⟨?_, ?_⟩,
    ⟨by decide, by decide⟩, ⟨by decide, by decide⟩⟩
  · set_option maxRecDepth 100000 in decide
  · set_option maxRecDepth 100000 in decide

/-- Witness of C1: the link row of the concrete scenario of the specification. -/
theorem link_round_trip_witness :
    FS.slash ∉ exampleLink.UID ∧ (0 : Byte) ∉ exampleLink.UID ∧
      (exampleLink.UID ++ lit ".json").length ≤ FS.NAME_MAX ∧
      utf8.ValidString exampleLink.UID = true ∧ utf8.ValidString exampleLink.Path = true ∧
      utf8.ValidString exampleLink.Name = true ∧ utf8.ValidString exampleLink.Ext = true ∧
      utf8.ValidString exampleLink.MIME = true ∧ exampleLink.Date.representable ∧
      linkRoundTrip exampleLink :=
  ⟨by decide, by decide, by decide, by decide, by decide, by decide, by decide, by decide,
    by decide,
    link_round_trip exampleLink (by decide) (by decide) (by decide) (by decide) (by decide)
      (by decide) (by decide) (by decide) (by decide)⟩


/-- C10: for every outcome of the mkdir call, the doubly guarded test of the
thumbnails directory decides as the single test of the links directory;
both go on when mkdir succeeded or failed with an already-exists error, and
both return the mkdir error for every other failure.  In `dumpMySQL` the
phase of either kind returns the error its test returns, and when the test
lets it go on the phase reaches the query of its table. -/
theorem mkdir_checks_agree (err : Option GoErr) :
    mkdirThumbnailsCheck err = mkdirLinksCheck err ∧
    ((err = none ∨ ∃ e, err = some e ∧ os.IsExist e = true) ↔ mkdirLinksCheck err = none) ∧
    (∀ e, err = some e → os.IsExist e = false → mkdirLinksCheck err = some e) ∧
    (∀ my fs e, (os.Mkdir fs (lit "links")).1 = err → mkdirLinksCheck err = some e →
      (dumpLinksPhase my fs).1 = some e) ∧
    (∀ my fs e, (os.Mkdir fs (lit "thumbnails")).1 = err → mkdirThumbnailsCheck err = some e →
      (dumpThumbnailsPhase my fs).1 = some e) ∧
    (∀ my fs m, (os.Mkdir fs (lit "links")).1 = err → mkdirLinksCheck err = none →
      my.links = .error m → (dumpLinksPhase my fs).1 = some (.sqlError m)) ∧
    (∀ my fs m, (os.Mkdir fs (lit "thumbnails")).1 = err → mkdirThumbnailsCheck err = none →
      my.thumbnails = .error m → (dumpThumbnailsPhase my fs).1 = some (.sqlError m)) := by
  have hne : ∀ e : GoErr, os.IsExist e = false → e ≠ GoErr.ErrExist := by
    intro e h he
    subst he
    simp [os.IsExist, os.underlyingErrorIs, os.underlyingError] at h
  refine ⟨?_, ?_, ?_, ?_, ?_, ?_, ?_⟩
  · cases err with
    | none => simp [mkdirThumbnailsCheck, mkdirLinksCheck]
    | some e =>
      cases h : os.IsExist e with
      | true => simp [mkdirThumbnailsCheck, mkdirLinksCheck, h]
      | false => simp [mkdirThumbnailsCheck, mkdirLinksCheck, h, hne e h]
  · cases err with
    | none => simp [mkdirLinksCheck]
    | some e =>
      cases h : os.IsExist e with
      | true => simp [mkdirLinksCheck, h]
      | false => simp [mkdirLinksCheck, h]
  · intro e he h
    subst he
    simp [mkdirLinksCheck, h]
  · intro my fs e hm hc
    subst hm
    unfold dumpLinksPhase
    simp only [hc]
  · intro my fs e hm hc
    subst hm
    unfold dumpThumbnailsPhase
    simp only [hc]
  · intro my fs m hm hc hq
    subst hm
    unfold dumpLinksPhase
    simp only [hc, hq]
  · intro my fs m hm hc hq
    subst hm
    unfold dumpThumbnailsPhase
    simp only [hc, hq]

/-- C8: `run` returns the usage error exactly when the two flags are equal, and
then it leaves the world as it was (no `sql.Open`, no file written, no row
inserted); with only `--dump` it is the dump pipeline alone, with only
`--restore` the restore pipeline alone. -/
theorem run_usage_validation (dump restore : Bool) (w : World) :
    ((run dump restore w).1 = some usageError ↔ dump = restore) ∧
    (dump = restore → run dump restore w = (some usageError, w)) ∧
    (dump = true → restore = false →
      run dump restore w = w.dump ∧ (run dump restore w).2.opened = w.opened ++ ["mysql"] ∧
        (run dump restore w).2.db = w.db) ∧
    (dump = false → restore = true →
      run dump restore w = w.restore ∧ (run dump restore w).2.opened = w.opened ++ ["pgx"] ∧
        (run dump restore w).2.fs = w.fs) := by
  have hd : run true false w = w.dump := by
    simp only [run, Bool.not_true, Bool.not_false, Bool.and_false, Bool.false_and, Bool.or_false,
      Bool.false_eq_true, if_false, if_true]
    rcases hw : w.dump with ⟨_ | e, w1⟩ <;> simp
  have hr : run false true w = w.restore := by
    simp only [run, Bool.not_true, Bool.not_false, Bool.and_false, Bool.false_and, Bool.or_false,
      Bool.false_eq_true, if_false, if_true, Bool.and_true, Bool.true_and]
    rcases hw : w.restore with ⟨_ | e, w1⟩ <;> simp
  have hdu : (dumpMySQL w.mysql w.fs).1 ≠ some usageError := by
    intro h
    have := dumpMySQL_error w.mysql w.fs usageError h
    simp [usageError, GoErr.isErrorString] at this
  have hru : (restorePostgreSQL w.pg w.fs w.db).1 ≠ some usageError := by
    intro h
    have := restorePostgreSQL_error w.pg w.fs w.db usageError h
    simp [usageError, GoErr.isErrorString] at this
  cases dump <;> cases restore
  · simp [run]
  · simp [hr, hru, World.restore]
  · simp [hd, hdu, World.dump]
  · simp [run]

/-- C2: whenever `restorePostgreSQL` returns an error, the committed destination
is the destination before the run; no link row of the failed run is in it. -/
theorem restore_atomic (env : sql.PgEnv) (fs : FS) (db : sql.DB) (e : GoErr)
    (h : (restorePostgreSQL env fs db).1 = some e) :
    (restorePostgreSQL env fs db).2 = db ∧
    ∀ l, l ∈ (restorePostgreSQL env fs db).2.links → l ∈ db.links := by
  have h2 : (restorePostgreSQL env fs db).2 = db := by
    rw [restorePostgreSQL_eq_plan] at h ⊢
    revert h
    cases restorePlan env fs with
    | error e2 => intro _; rfl
    | ok p => intro h; cases h
  rw [h2]
  exact ⟨rfl, fun _ hl => hl⟩

/-- Witness of C2: the link file is good, the thumbnail file is malformed; the
run fails in the thumbnail phase and the destination is still empty. -/
theorem restore_atomic_witness :
    (restorePostgreSQL sql.PgEnv.healthy malformedStaging sql.DB.empty).1 =
        some (.jsonError "syntax error") ∧
      (restorePostgreSQL sql.PgEnv.healthy malformedStaging sql.DB.empty).2 = sql.DB.empty :=
  ⟨by decide,
    (restore_atomic sql.PgEnv.healthy malformedStaging sql.DB.empty (.jsonError "syntax error")
      (by decide)).1⟩

/-- C3: after a successful restore, a second restore from the same staging
area into the destination the first one left succeeds and changes nothing. -/
theorem restore_idempotent (env : sql.PgEnv) (fs : FS) (db : sql.DB)
    (h : (restorePostgreSQL env fs db).1 = none) :
    restorePostgreSQL env fs (restorePostgreSQL env fs db).2 =
      (none, (restorePostgreSQL env fs db).2) := by
  rw [restorePostgreSQL_eq_plan env fs db] at h ⊢
  rw [restorePostgreSQL_eq_plan]
  revert h
  cases restorePlan env fs with
  | error e => intro h; cases h
  | ok p =>
    intro _
    obtain ⟨ls, ts⟩ := p
    simp only [sql.foldl_insertLink, sql.foldl_insertThumbnail,
      sql.foldl_insertIfAbsent_idem]

/-- Witness of C3: the restore of the dumped example link, run twice. -/
theorem restore_idempotent_witness :
    (restorePostgreSQL sql.PgEnv.healthy exampleStaging sql.DB.empty).1 = none ∧
      restorePostgreSQL sql.PgEnv.healthy exampleStaging
          (restorePostgreSQL sql.PgEnv.healthy exampleStaging sql.DB.empty).2 =
        (none, ⟨[exampleLink], []⟩) :=
  ⟨by decide,
    (restore_idempotent sql.PgEnv.healthy exampleStaging sql.DB.empty (by decide)).trans
      (by decide)⟩

/-- C4: every link row and every thumbnail row of the destination before the
run is in the destination after it, unchanged, whatever the staging files
hold and whether the run commits or fails; each table still has at most one
row per uid, so a row after the run with the uid of a row before it is that
row. -/
theorem restore_monotonic (env : sql.PgEnv) (fs : FS) (db : sql.DB) (h : db.keysUnique) :
    (∀ l ∈ db.links, l ∈ (restorePostgreSQL env fs db).2.links) ∧
    (∀ t ∈ db.thumbnails, t ∈ (restorePostgreSQL env fs db).2.thumbnails) ∧
    (restorePostgreSQL env fs db).2.keysUnique ∧
    (∀ l ∈ db.links, ∀ l2 ∈ (restorePostgreSQL env fs db).2.links, l2.UID = l.UID → l2 = l) ∧
    (∀ t ∈ db.thumbnails, ∀ t2 ∈ (restorePostgreSQL env fs db).2.thumbnails,
      t2.UID = t.UID → t2 = t) := by
  have key : (∀ l ∈ db.links, l ∈ (restorePostgreSQL env fs db).2.links) ∧
      (∀ t ∈ db.thumbnails, t ∈ (restorePostgreSQL env fs db).2.thumbnails) ∧
      (restorePostgreSQL env fs db).2.keysUnique := by
    rw [restorePostgreSQL_eq_plan]
    cases restorePlan env fs with
    | error e => exact ⟨fun _ hl => hl, fun _ ht => ht, h⟩
    | ok p =>
      obtain ⟨ls, ts⟩ := p
      simp only [sql.foldl_insertLink, sql.foldl_insertThumbnail]
      exact ⟨fun l hl => sql.mem_foldl_insertIfAbsent _ ls _ l hl,
        fun t ht => sql.mem_foldl_insertIfAbsent _ ts _ t ht,
        sql.nodup_foldl_insertIfAbsent _ ls _ h.1, sql.nodup_foldl_insertIfAbsent _ ts _ h.2⟩
  obtain ⟨h1, h2, h3⟩ := key
  refine ⟨h1, h2, h3, ?_, ?_⟩
  · intro l hl l2 hl2 hk
    exact List.inj_on_of_nodup_map h3.1 hl2 (h1 l hl) hk
  · intro t ht t2 ht2 hk
    exact List.inj_on_of_nodup_map h3.2 ht2 (h2 t ht) hk

/-- Witness of C4: the destination already holds a row with the uid of the
staged link and other field values; the restore keeps it. -/
theorem restore_monotonic_witness :
    keptDestination.keysUnique ∧
      { exampleLink with Name := lit "kept" } ∈
        (restorePostgreSQL sql.PgEnv.healthy exampleStaging keptDestination).2.links :=
  ⟨by simp [sql.DB.keysUnique, keptDestination],
    (restore_monotonic sql.PgEnv.healthy exampleStaging keptDestination
      (by simp [sql.DB.keysUnique, keptDestination])).1 _ (by simp [keptDestination])⟩

theorem resolve_links (fs : FS) (p : List GoString) (h : FS.resolve fs (lit "links") = .ok p) :
    p = [lit "links"] :=
  resolve_plainDir_inv fs (lit "links") plainDir_links p h

theorem resolve_thumbnails (fs : FS) (p : List GoString)
    (h : FS.resolve fs (lit "thumbnails") = .ok p) : p = [lit "thumbnails"] :=
  resolve_plainDir_inv fs (lit "thumbnails") plainDir_thumbnails p h

theorem Lstat_links_missing (fs : FS) (h : fs.lookup [lit "links"] = none) :
    ∃ e, os.Lstat fs (lit "links") = .error e := by
  unfold os.Lstat
  cases hr : FS.resolve fs (lit "links") with
  | error e => exact ⟨_, rfl⟩
  | ok p =>
    rw [resolve_links fs p hr]
    simp only [h]
    exact ⟨_, rfl⟩

theorem Lstat_thumbnails_missing (fs : FS) (h : fs.lookup [lit "thumbnails"] = none) :
    ∃ e, os.Lstat fs (lit "thumbnails") = .error e := by
  unfold os.Lstat
  cases hr : FS.resolve fs (lit "thumbnails") with
  | error e => exact ⟨_, rfl⟩
  | ok p =>
    rw [resolve_thumbnails fs p hr]
    simp only [h]
    exact ⟨_, rfl⟩

theorem planVisits_of_Lstat_error {α : Type} (act : Visit → Except GoErr (Option α))
    (fs : FS) (root : GoString) (e : GoErr) (h : os.Lstat fs root = .error e)
    (hact : act (root, false, some e) = .error e) :
    planVisits act (filepath.rootVisits fs root) = .error e := by
  unfold filepath.rootVisits
  rw [h]
  simp only [planVisits, hact]

/-- C9: when the links directory or the thumbnails directory is missing,
`restorePostgreSQL` returns an error and commits nothing, whatever the other
directory holds. -/
theorem restore_missing_directory (env : sql.PgEnv) (fs : FS) (db : sql.DB)
    (h : fs.lookup [lit "links"] = none ∨ fs.lookup [lit "thumbnails"] = none) :
    (restorePostgreSQL env fs db).1 ≠ none ∧ (restorePostgreSQL env fs db).2 = db := by
  have hp : ∃ e, restorePlan env fs = .error e := by
    unfold restorePlan
    cases env.openErr with
    | some m => exact ⟨_, rfl⟩
    | none =>
      cases env.beginErr with
      | some m => exact ⟨_, rfl⟩
      | none =>
        dsimp only
        rcases h with h | h
        · obtain ⟨e, he⟩ := Lstat_links_missing fs h
          rw [planVisits_of_Lstat_error (linkAction env fs) fs (lit "links") e he rfl]
          exact ⟨_, rfl⟩
        · cases planVisits (linkAction env fs) (filepath.rootVisits fs (lit "links")) with
          | error e => exact ⟨_, rfl⟩
          | ok ls =>
            obtain ⟨e, he⟩ := Lstat_thumbnails_missing fs h
            dsimp only
            rw [planVisits_of_Lstat_error (thumbnailAction env fs) fs (lit "thumbnails") e he rfl]
            exact ⟨_, rfl⟩
  obtain ⟨e, he⟩ := hp
  rw [restorePostgreSQL_eq_plan, he]
  exact ⟨by simp, rfl⟩

/-- Witness of C9: the links directory exists and is empty, the thumbnails
directory is missing. -/
theorem restore_missing_directory_witness :
    (linksOnlyStaging.lookup [lit "links"] = none ∨ linksOnlyStaging.lookup [lit "thumbnails"] = none) ∧
      (restorePostgreSQL sql.PgEnv.healthy linksOnlyStaging sql.DB.empty).1 ≠ none ∧
      (restorePostgreSQL sql.PgEnv.healthy linksOnlyStaging sql.DB.empty).2 = sql.DB.empty :=
  ⟨Or.inr rfl,
    restore_missing_directory sql.PgEnv.healthy linksOnlyStaging sql.DB.empty (Or.inr rfl)⟩

/-- C5, as the code has it: when no uid of the rows holds a path separator, the
link phase leaves the whole thumbnails directory as it was and the thumbnail
phase leaves the whole links directory as it was, whatever the source
delivers and whatever the staging area holds. -/
theorem dump_directory_isolation (my : sql.MySQL) (fs : FS)
    (hl : ∀ lr, my.links = .ok lr → ∀ l, Except.ok l ∈ lr.scans → FS.slash ∉ l.UID)
    (ht : ∀ tr, my.thumbnails = .ok tr → ∀ t, Except.ok t ∈ tr.scans → FS.slash ∉ t.UID) :
    (dumpLinksPhase my fs).2.lookup [lit "thumbnails"] = fs.lookup [lit "thumbnails"] ∧
    (dumpThumbnailsPhase my fs).2.lookup [lit "links"] = fs.lookup [lit "links"] :=
  ⟨dumpLinksPhase_frame my fs hl (lit "thumbnails") [] (by decide),
    dumpThumbnailsPhase_frame my fs ht (lit "links") [] (by decide)⟩

/-- Counterexample to C5 as stated: the link row with uid `../thumbnails/x` is
dumped without error and the link phase overwrites the thumbnail file
`thumbnails/x.json`. -/
theorem dump_directory_isolation_counterexample :
    (dumpLinksPhase (sql.MySQL.ofRows [traversalLink] []) stagingWithThumbnail).1 = none ∧
    (stagingWithThumbnail.lookup [lit "thumbnails", lit "x.json"]).bind Node.text = some "old" ∧
    ((dumpLinksPhase (sql.MySQL.ofRows [traversalLink] []) stagingWithThumbnail).2.lookup
      [lit "thumbnails", lit "x.json"]).bind Node.text = (json.EncodeLink traversalLink).toOption ∧
    ¬ ((dumpLinksPhase (sql.MySQL.ofRows [traversalLink] []) stagingWithThumbnail).2.lookup
      [lit "thumbnails"] = stagingWithThumbnail.lookup [lit "thumbnails"]) := by
  refine ⟨by decide, by decide, by decide, ?_⟩
  intro h
  have h2 := congrArg
    (fun o : Option Node => (o.bind (fun n => n.lookup [lit "x.json"])).bind Node.text) h
  revert h2
  decide

/-- Witness of C5: the example link and the example thumbnail on the staging
area that holds a thumbnail file. -/
theorem dump_directory_isolation_witness :
    (dumpLinksPhase (sql.MySQL.ofRows [exampleLink] [exampleThumbnail])
      stagingWithThumbnail).2.lookup [lit "thumbnails"] = stagingWithThumbnail.lookup [lit "thumbnails"] ∧
    (dumpThumbnailsPhase (sql.MySQL.ofRows [exampleLink] [exampleThumbnail])
      stagingWithThumbnail).2.lookup [lit "links"] = stagingWithThumbnail.lookup [lit "links"] :=
  dump_directory_isolation (sql.MySQL.ofRows [exampleLink] [exampleThumbnail])
    stagingWithThumbnail
    (by
      intro lr h l hl
      simp only [sql.MySQL.ofRows, Except.ok.injEq] at h
      subst h
      simp only [List.map_cons, List.map_nil, List.mem_singleton, Except.ok.injEq] at hl
      subst hl
      decide)
    (by
      intro tr h t ht
      simp only [sql.MySQL.ofRows, Except.ok.injEq] at h
      subst h
      simp only [List.map_cons, List.map_nil, List.mem_singleton, Except.ok.injEq] at ht
      subst ht
      decide)

namespace json

/-- C7: the exporter writes for a thumbnail row a text from which the importer
decodes, and inserts, a thumbnail with the same payload byte for byte (of
any length, of any byte values, nil or not) and the same width and height;
width and height are machine integers of 64 bits.  The text is what the
loop of `dumpMySQL` writes to the file of the row, and the record is what
the callback of `restorePostgreSQL` inserts for a file with that text.  The
uid and the MIME type come back as the encoder wrote them, so the whole
record is the same when these two strings are valid UTF-8. -/
theorem thumbnail_round_trip (t : Thumbnail)
    (hw : -(2 ^ 63 : Int) ≤ t.Width ∧ t.Width < 2 ^ 63)
    (hh : -(2 ^ 63 : Int) ≤ t.Height ∧ t.Height < 2 ^ 63) :
    ∃ text, EncodeThumbnail t = .ok text ∧
      (∀ fs w fs1, os.Create fs (lit "thumbnails/" ++ t.UID ++ lit ".json") = .ok (w, fs1) →
        dumpThumbnailRows [.ok t] fs = (none, os.File.WriteString fs1 w text)) ∧
      DecodeThumbnail text = .ok ⟨recode t.UID, t.Data, recode t.MIME, t.Width, t.Height⟩ ∧
      (∀ env fs path f c, os.Open fs path = .ok f → f.ReadAll = .ok text →
        restoreThumbnailFn env fs path false none c =
          sql.ExecInsertThumbnail env
            ⟨recode t.UID, t.Data, recode t.MIME, t.Width, t.Height⟩ c) ∧
      (utf8.ValidString t.UID = true → utf8.ValidString t.MIME = true →
        DecodeThumbnail text = .ok t) ∧
      ∀ t2, DecodeThumbnail text = .ok t2 →
        t2.Data = t.Data ∧ t2.Width = t.Width ∧ t2.Height = t.Height := by
  refine ⟨String.mk (MarshalThumbnail t ++ ['\n']), rfl, ?_, ?_⟩
  · intro fs w fs1 hc
    simp only [dumpThumbnailRows, hc, EncodeThumbnail]
  have hdec : DecodeThumbnail (String.mk (MarshalThumbnail t ++ ['\n'])) =
      .ok ⟨recode t.UID, t.Data, recode t.MIME, t.Width, t.Height⟩ := by
    unfold DecodeThumbnail
    rw [MarshalThumbnail_eq]
    have hr := readValue_object
      [("uid", quote t.UID, .string (escapeString t.UID.length t.UID)
          ((utf8.runes t.UID.length t.UID).map (·.1))),
        ("data", encodeBytes t.Data,
          (match t.Data with
            | none => .null
            | some bs => .string (base64.EncodeToString bs) (base64.EncodeToString bs))),
        ("mime", quote t.MIME, .string (escapeString t.MIME.length t.MIME)
          ((utf8.runes t.MIME.length t.MIME).map (·.1))),
        ("width", strconv.FormatInt t.Width, .number (strconv.FormatInt t.Width)),
        ("height", strconv.FormatInt t.Height, .number (strconv.FormatInt t.Height))]
      ['\n'] (by simp) (by simp)
      (by
        intro f hf
        simp only [List.mem_cons, List.mem_singleton, List.not_mem_nil, or_false] at hf
        rcases hf with hf | hf | hf | hf | hf <;> subst hf
        · exact ⟨by dsimp only; decide, scansAs_quote _⟩
        · exact ⟨by dsimp only; decide, scansAs_encodeBytes _⟩
        · exact ⟨by dsimp only; decide, scansAs_quote _⟩
        · exact ⟨by dsimp only; decide, scansAs_FormatInt _⟩
        · exact ⟨by dsimp only; decide, scansAs_FormatInt _⟩)
    simp only [List.map_cons, List.map_nil, List.cons_append] at hr
    simp only [List.cons_append]
    rw [hr]
    have e1 : foldEq "uid".data "uid" = true := by decide
    have e2 : foldEq "data".data "uid" = false := by decide
    have e3 : foldEq "data".data "data" = true := by decide
    have e4 : foldEq "mime".data "uid" = false := by decide
    have e5 : foldEq "mime".data "data" = false := by decide
    have e6 : foldEq "mime".data "mime" = true := by decide
    have e7 : foldEq "width".data "uid" = false := by decide
    have e8 : foldEq "width".data "data" = false := by decide
    have e9 : foldEq "width".data "mime" = false := by decide
    have e10 : foldEq "width".data "width" = true := by decide
    have e11 : foldEq "height".data "uid" = false := by decide
    have e12 : foldEq "height".data "data" = false := by decide
    have e13 : foldEq "height".data "mime" = false := by decide
    have e14 : foldEq "height".data "width" = false := by decide
    have e15 : foldEq "height".data "height" = true := by decide
    simp only [bindThumbnail, setThumbnailField, e1, e2, e3, e4, e5, e6, e7, e8, e9, e10, e11,
      e12, e13, e14, e15, if_true, if_false, Bool.false_eq_true, storeString, storeInt,
      storeBytes_encodeBytes, ParseInt64_FormatInt t.Width hw.1 hw.2,
      ParseInt64_FormatInt t.Height hh.1 hh.2, Except.map, recode]
  refine ⟨hdec, ?_, ?_, ?_⟩
  · intro env fs path f c ho hr
    simp only [restoreThumbnailFn, ho, hr, hdec, Bool.false_eq_true, if_false]
  · intro hu hm
    rw [hdec, recode_of_valid _ hu, recode_of_valid _ hm]
  · intro t2 h2
    rw [hdec] at h2
    cases h2
    exact ⟨rfl, rfl, rfl⟩

/-- Witness of C7: a payload of four bytes, among them 0 and 255, and a zero height. -/
theorem thumbnail_round_trip_witness :
    (-(2 ^ 63 : Int) ≤ exampleThumbnail.Width ∧ exampleThumbnail.Width < 2 ^ 63) ∧
    (-(2 ^ 63 : Int) ≤ exampleThumbnail.Height ∧ exampleThumbnail.Height < 2 ^ 63) ∧
    ∃ text, EncodeThumbnail exampleThumbnail = .ok text ∧
      (∀ fs w fs1,
        os.Create fs (lit "thumbnails/" ++ exampleThumbnail.UID ++ lit ".json") = .ok (w, fs1) →
        dumpThumbnailRows [.ok exampleThumbnail] fs = (none, os.File.WriteString fs1 w text)) ∧
      DecodeThumbnail text = .ok ⟨recode exampleThumbnail.UID, exampleThumbnail.Data,
        recode exampleThumbnail.MIME, exampleThumbnail.Width, exampleThumbnail.Height⟩ ∧
      (∀ env fs path f c, os.Open fs path = .ok f → f.ReadAll = .ok text →
        restoreThumbnailFn env fs path false none c =
          sql.ExecInsertThumbnail env
            ⟨recode exampleThumbnail.UID, exampleThumbnail.Data, recode exampleThumbnail.MIME,
              exampleThumbnail.Width, exampleThumbnail.Height⟩ c) ∧
      (utf8.ValidString exampleThumbnail.UID = true →
        utf8.ValidString exampleThumbnail.MIME = true →
        DecodeThumbnail text = .ok exampleThumbnail) ∧
      ∀ t2, DecodeThumbnail text = .ok t2 →
        t2.Data = exampleThumbnail.Data ∧ t2.Width = exampleThumbnail.Width ∧
          t2.Height = exampleThumbnail.Height :=
  ⟨by decide, by decide, thumbnail_round_trip exampleThumbnail (by decide) (by decide)⟩

end json

end LLExporter
